import Mathlib

/-!
# Verification of the match-usefulness engine
(`crates/hir_ty/src/diagnostics/pattern/usefulness.rs`)

Shallow embedding of the pattern matrix / usefulness algorithm.

Conventions of the embedding:
* The pattern arena (`la_arena::Arena<Pat>`) is modelled as an append-only
  `List Pat`; a `PatId` is an index into that list.  `alloc` appends and
  returns the fresh index.
* The external collaborators living in `deconstruct_pat.rs` (`Constructor`,
  `Fields`, `SplitWildcard`) are not part of the source file under
  verification; they are abstracted as a `Collab` bundle of operations, and
  where a claim needs their concrete behaviour it is modelled from the spec.
* `FxHashMap<usize, SubPatSet>` is modelled as an association list with
  insertion-order iteration; `retain` keeps the relative order of the kept
  entries and `extend` appends, matching the operational reading used by the
  algorithm (hash maps in the source have an unspecified but fixed order).
* Rust panics (`panic!`, `unreachable!`, failing `assert!`, out-of-bounds
  indexing, `unwrap` on `None`) are modelled by `Option`, with `none` for the
  panic.
-/

namespace RaUsefulness

/-- Semantic type of a pattern.  The type system itself is an external
collaborator, so a type is just an opaque tag. -/
abbrev Ty := Nat

/-- Index of a pattern node in the pattern arena. -/
abbrev PatId := Nat

/-- Modelled from the spec: the lowered pattern representation produced by
the external lowering collaborator (spec, section 6) with kinds
\{Wildcard, Binding\{optional subpattern\}, Literal,
ConstructorApplication\{ctor, args\}, Or\{alternatives\}\}.  `expand_pattern`
replaces a binding that carries a subpattern by that subpattern before the
algorithm runs, and a bare binding behaves exactly like a wildcard
(`Pat::is_wildcard`), so bindings are identified with wildcards here.
Each node carries its semantic type. -/
inductive Pat : Type where
  | wild (ty : Ty)
  | lit (ty : Ty) (value : Int)
  | ctorApp (ty : Ty) (tag : Nat) (args : List Pat)
  | orP (ty : Ty) (alts : List Pat)

instance : Inhabited Pat := ⟨.wild 0⟩

/-- The semantic type carried by a pattern node. -/
def Pat.ty : Pat → Ty
  | .wild t => t
  | .lit t _ => t
  | .ctorApp t _ _ => t
  | .orP t _ => t

/-- The pattern arena (`PatternArena = la_arena::Arena<Pat>`): an
append-only indexed store of pattern nodes. -/
abbrev PatternArena := List Pat

/-- `Arena::alloc`: append a node, returning its fresh index. -/
def PatternArena.alloc (a : PatternArena) (p : Pat) : PatId × PatternArena :=
  (a.length, a ++ [p])

/-- Arena lookup (`arena[id]`).  All indices used by the algorithm are in
range; an out-of-range index yields the default wildcard. -/
def PatternArena.get (a : PatternArena) (i : PatId) : Pat :=
  a.getD i default

/-- `PatIdExt::is_or_pat`: whether the node stored at this index is an
or-pattern. -/
def isOrPat (a : PatternArena) (i : PatId) : Bool :=
  match a.get i with
  | .orP _ _ => true
  | _ => false

mutual

/-- The pure flattening of (possibly nested) or-patterns into their
left-to-right leaves.  This is the content-level specification that
`expand_or_pat` implements. -/
def orLeaves : Pat → List Pat
  | .orP _ alts => orLeavesList alts
  | p => [p]

/-- Companion of `orLeaves` for a list of alternatives. -/
def orLeavesList : List Pat → List Pat
  | [] => []
  | p :: rest => orLeaves p ++ orLeavesList rest

end

mutual

/-- Inner worker of `PatIdExt::expand_or_pat`.  The source recurses on an
arena index after allocating each alternative; since `alloc` returns an
index whose stored node is exactly the allocated pattern, the recursion is
performed here on that node's content, with the index `i` kept alongside
for the leaf case (`vec.push(pat)`). -/
def expandPat : Pat → PatId → PatternArena → List PatId × PatternArena
  | .orP _ alts, _, a => expandPatList alts a
  | _, i, a => ([i], a)

/-- The `for pat in pats` loop of `expand`: allocate each alternative and
recurse into it. -/
def expandPatList : List Pat → PatternArena → List PatId × PatternArena
  | [], a => ([], a)
  | p :: rest, a =>
    let ja := a.alloc p
    let r₁ := expandPat p ja.1 ja.2
    let r₂ := expandPatList rest r₁.2
    (r₁.1 ++ r₂.1, r₂.2)

end

/-- `PatIdExt::expand_or_pat`: recursively expand the pattern stored at
index `i` into its or-pattern leaves, materialising a fresh arena entry for
every alternative. -/
def PatId.expandOrPat (i : PatId) (a : PatternArena) : List PatId × PatternArena :=
  expandPat (a.get i) i a

/-- The list of pattern nodes denoted by one `expand_or_pat` call: each
returned index resolved in the returned arena. -/
def leafContents (a : PatternArena) (i : PatId) : List Pat :=
  (i.expandOrPat a).1.map (i.expandOrPat a).2.get

theorem PatternArena.get_append_left (a t : PatternArena) (j : PatId) (h : j < a.length) :
    (a ++ t).get j = a.get j := by
  simp [PatternArena.get, List.getD, List.getElem?_append, h]

theorem PatternArena.get_append_self (a : PatternArena) (p : Pat) :
    (a ++ [p]).get a.length = p := by
  simp [PatternArena.get, List.getD]

mutual

theorem expandPat_spec (p : Pat) (i : PatId) (a : PatternArena) (h1 : a.get i = p)
    (h2 : i < a.length) :
    ∃ t, (expandPat p i a).2 = a ++ t ∧
      (∀ j ∈ (expandPat p i a).1, j < (expandPat p i a).2.length) ∧
      (expandPat p i a).1.map (expandPat p i a).2.get = orLeaves p := by
  match p with
  | .orP ty alts =>
    have h := expandPatList_spec alts a
    simpa [expandPat, orLeaves] using h
  | .wild ty =>
    refine ⟨[], by simp [expandPat], ?_, ?_⟩ <;>
      simp [expandPat, orLeaves, h1, h2]
  | .lit ty v =>
    refine ⟨[], by simp [expandPat], ?_, ?_⟩ <;>
      simp [expandPat, orLeaves, h1, h2]
  | .ctorApp ty tag args =>
    refine ⟨[], by simp [expandPat], ?_, ?_⟩ <;>
      simp [expandPat, orLeaves, h1, h2]

theorem expandPatList_spec (ps : List Pat) (a : PatternArena) :
    ∃ t, (expandPatList ps a).2 = a ++ t ∧
      (∀ j ∈ (expandPatList ps a).1, j < (expandPatList ps a).2.length) ∧
      (expandPatList ps a).1.map (expandPatList ps a).2.get = orLeavesList ps := by
  match ps with
  | [] => exact ⟨[], by simp [expandPatList], by simp [expandPatList], by
      simp [expandPatList, orLeavesList]⟩
  | p :: rest =>
    have halloc : (a.alloc p).2.get (a.alloc p).1 = p := PatternArena.get_append_self a p
    have hlen : (a.alloc p).1 < (a.alloc p).2.length := by
      simp [PatternArena.alloc]
    obtain ⟨t₁, he₁, hb₁, hc₁⟩ := expandPat_spec p (a.alloc p).1 (a.alloc p).2 halloc hlen
    obtain ⟨t₂, he₂, hb₂, hc₂⟩ :=
      expandPatList_spec rest (expandPat p (a.alloc p).1 (a.alloc p).2).2
    have hunfold₂ : (expandPatList (p :: rest) a).2 =
        (expandPatList rest (expandPat p (a.alloc p).1 (a.alloc p).2).2).2 := rfl
    have hunfold₁ : (expandPatList (p :: rest) a).1 =
        (expandPat p (a.alloc p).1 (a.alloc p).2).1 ++
          (expandPatList rest (expandPat p (a.alloc p).1 (a.alloc p).2).2).1 := rfl
    refine ⟨[p] ++ t₁ ++ t₂, ?_, ?_, ?_⟩
    · rw [hunfold₂, he₂, he₁]
      simp [PatternArena.alloc]
    · intro j hj
      rw [hunfold₁, List.mem_append] at hj
      rw [hunfold₂]
      rcases hj with hj | hj
      · have h₁ := hb₁ j hj
        have hle : (expandPat p (a.alloc p).1 (a.alloc p).2).2.length ≤
            (expandPatList rest (expandPat p (a.alloc p).1 (a.alloc p).2).2).2.length := by
          rw [he₂]; simp
        exact lt_of_lt_of_le h₁ hle
      · exact hb₂ j hj
    · rw [hunfold₁, hunfold₂, List.map_append]
      have hleft : List.map (expandPatList rest (expandPat p (a.alloc p).1 (a.alloc p).2).2).2.get
          (expandPat p (a.alloc p).1 (a.alloc p).2).1 = orLeaves p := by
        rw [← hc₁]
        apply List.map_congr_left
        intro j hj
        rw [he₂]
        exact PatternArena.get_append_left _ _ _ (hb₁ j hj)
      rw [hleft, hc₂]
      rfl

end

/-- Claim C3.  Or-pattern expansion is deterministic at the level of the
denoted patterns: the leaves returned by `expand_or_pat` on index `i`, read
back through the returned arena, are exactly the pure left-to-right
flattening `orLeaves` of the node stored at `i`; consequently any two calls
to `expand_or_pat` on indices holding the same node — in particular the
original call made during the usefulness recursion and the re-derivation
performed by `list_unreachable_subpatterns` on the `Alt` node's stored
pattern after the arena has grown — yield the same number of leaves in the
same left-to-right order, index for index. -/
theorem expand_or_pat_deterministic :
    (∀ (a : PatternArena) (i : PatId), leafContents a i = orLeaves (a.get i)) ∧
    (∀ (a₁ a₂ : PatternArena) (i₁ i₂ : PatId), a₁.get i₁ = a₂.get i₂ →
      leafContents a₁ i₁ = leafContents a₂ i₂) := by
  have main : ∀ (a : PatternArena) (i : PatId), leafContents a i = orLeaves (a.get i) := by
    intro a i
    by_cases h : i < a.length
    · obtain ⟨t, he, hb, hc⟩ := expandPat_spec (a.get i) i a rfl h
      simpa [leafContents, PatId.expandOrPat] using hc
    · have hget : a.get i = Pat.wild 0 := by
        show a.getD i default = Pat.wild 0
        rw [List.getD_eq_default _ _ (Nat.le_of_not_lt h)]
        rfl
      rw [hget]
      simp [leafContents, PatId.expandOrPat, hget, expandPat, orLeaves]
  refine ⟨main, ?_⟩
  intro a₁ a₂ i₁ i₂ h
  rw [main, main, h]

/-- Witness for `expand_or_pat_deterministic`: two different arenas holding
the same nested or-pattern `(1 | 2) | 3` at different indices expand to the
same three leaves. -/
theorem expand_or_pat_deterministic_witness :
    leafContents [.orP 0 [.orP 0 [.lit 0 1, .lit 0 2], .lit 0 3]] 0 =
      leafContents [.wild 0, .orP 0 [.orP 0 [.lit 0 1, .lit 0 2], .lit 0 3]] 1 :=
  expand_or_pat_deterministic.2 _ _ 0 1 rfl

/-!
## SubPatSet

The compact reachability-set representation.  The `FxHashMap<usize, _>`
sparse child maps are modelled as association lists with unique keys;
iteration follows list order, `retain` keeps the relative order of kept
entries, `extend` appends, and inserting a fresh key appends.
-/

/-- `SubPatSet`: which subpatterns of a pattern (or pattern-stack) are
reachable.  `Seq` children default to `Full` when missing, `Alt` children
default to `Empty`. -/
inductive SubPatSet : Type where
  | Empty : SubPatSet
  | Full : SubPatSet
  | Seq (subpats : List (Nat × SubPatSet)) : SubPatSet
  | Alt (subpats : List (Nat × SubPatSet)) (altCount : Nat) (pat : PatId) : SubPatSet

mutual

/-- `SubPatSet::is_empty`: the whole pattern is unreachable.  A `Seq` is
empty iff any present child is, an `Alt` iff all present children are. -/
def SubPatSet.isEmptyB : SubPatSet → Bool
  | .Empty => true
  | .Full => false
  | .Seq subpats => anyEmptyGo subpats
  | .Alt subpats _ _ => allEmptyGo subpats

/-- `subpats.values().any(is_empty)` over the child map. -/
def anyEmptyGo : List (Nat × SubPatSet) → Bool
  | [] => false
  | (_, v) :: rest => v.isEmptyB || anyEmptyGo rest

/-- `subpats.values().all(is_empty)` over the child map. -/
def allEmptyGo : List (Nat × SubPatSet) → Bool
  | [] => true
  | (_, v) :: rest => v.isEmptyB && allEmptyGo rest

end

mutual

/-- `SubPatSet::is_full`: the whole pattern is reachable.  A `Seq` is full
iff every present child is; an `Alt` additionally needs all `altCount`
children present. -/
def SubPatSet.isFullB : SubPatSet → Bool
  | .Empty => false
  | .Full => true
  | .Seq subpats => allFullGo subpats
  | .Alt subpats altCount _ => subpats.length == altCount && allFullGo subpats

/-- `subpats.values().all(is_full)` over the child map. -/
def allFullGo : List (Nat × SubPatSet) → Bool
  | [] => true
  | (_, v) :: rest => v.isFullB && allFullGo rest

end

/-- The final normalisation step of `union`:
`if self.is_full() \x7b *self = Full \x7d`. -/
def SubPatSet.normFull (s : SubPatSet) : SubPatSet :=
  if s.isFullB then .Full else s

theorem lookup_sizeOf_lt {om : List (Nat × SubPatSet)} {k : Nat} {v : SubPatSet}
    (h : om.lookup k = some v) : sizeOf v < sizeOf om := by
  induction om with
  | nil => simp [List.lookup] at h
  | cons kv rest ih =>
    rw [List.lookup] at h
    by_cases hk : k == kv.1
    · simp [hk] at h
      subst h
      obtain ⟨a, b⟩ := kv
      simp
      omega
    · simp [hk] at h
      have := ih h
      obtain ⟨a, b⟩ := kv
      simp
      omega

mutual

/-- `SubPatSet::union`, mutating union modelled functionally.  The shape
mismatch arms (`Seq` with `Alt`) panic in the source and yield `none`
here. -/
def SubPatSet.union : SubPatSet → SubPatSet → Option SubPatSet
  | s, o =>
    if s.isFullB || o.isEmptyB then some s
    else if s.isEmptyB then some o
    else if o.isFullB then some .Full
    else
      match s, o with
      | .Seq sm, .Seq om =>
        (unionSeqGo sm om).map (fun m => SubPatSet.normFull (.Seq m))
      | .Alt sm n p, .Alt om _ _ =>
        (unionAltGo sm om).map (fun m =>
          SubPatSet.normFull
            (.Alt (m ++ om.filter (fun kv => (sm.lookup kv.1).isNone)) n p))
      | _, _ => none

/-- The `retain` loop of the `Seq` arm: union each child of `self` with
the corresponding child of `other` (missing entries count as full) and
drop entries that become full.  Entries only present in `other` count as
full and are dropped. -/
def unionSeqGo : List (Nat × SubPatSet) → List (Nat × SubPatSet) →
    Option (List (Nat × SubPatSet))
  | [], _ => some []
  | (k, sv) :: rest, om =>
    match sv.union ((om.lookup k).getD .Full), unionSeqGo rest om with
    | some child, some tail =>
      some (if child.isFullB then tail else (k, child) :: tail)
    | _, _ => none

/-- The `retain` loop of the `Alt` arm: union each child of `self` with
the corresponding child of `other` (missing entries count as empty) and
drop entries that become empty.  Entries only present in `other` are
appended afterwards by the caller (`extend`). -/
def unionAltGo : List (Nat × SubPatSet) → List (Nat × SubPatSet) →
    Option (List (Nat × SubPatSet))
  | [], _ => some []
  | (k, sv) :: rest, om =>
    match sv.union ((om.lookup k).getD .Empty), unionAltGo rest om with
    | some child, some tail =>
      some (if child.isEmptyB then tail else (k, child) :: tail)
    | _, _ => none

end

/-- `SubPatSet::unspecialize(arity)`: gather the first `arity` column
indices under a fresh synthetic index 0 and shift the remaining indices
down by `arity - 1`.  The source panics on `Alt` (the receiver always
denotes a pattern-stack). -/
def SubPatSet.unspecialize (s : SubPatSet) (arity : Nat) : Option SubPatSet :=
  match s with
  | .Full => some .Full
  | .Empty => some .Empty
  | .Seq subpats =>
    let firstCol := subpats.filter (fun kv => decide (kv.1 < arity))
    let rest := (subpats.filter (fun kv => !decide (kv.1 < arity))).map
      (fun kv => (kv.1 - arity + 1, kv.2))
    some (.Seq (if firstCol.isEmpty then rest else rest ++ [(0, .Seq firstCol)]))
  | .Alt _ _ _ => none

/-- `SubPatSet::unsplit_or_pat(alt_id, alt_count, pat)`: wrap the result of
testing one or-pattern alternative as alternative `alt_id` of `alt_count`
belonging to `pat`, nested at column 0 under the rest of the row.  The
source panics when the receiver is an `Alt` (it must denote a
pattern-stack); the `Empty` arm inside the match is unreachable because of
the leading emptiness test. -/
def SubPatSet.unsplitOrPat (s : SubPatSet) (altId altCount : Nat) (pat : PatId) :
    Option SubPatSet :=
  if s.isEmptyB then some .Empty
  else
    match s with
    | .Full => some (.Seq [(0, .Alt [(altId, .Full)] altCount pat)])
    | .Seq subpats =>
      let setFirstCol := (subpats.lookup 0).getD .Full
      let rest := subpats.filter (fun kv => !(kv.1 == 0))
      some (.Seq (rest ++ [(0, .Alt [(altId, setFirstCol)] altCount pat)]))
    | .Empty => none
    | .Alt _ _ _ => none

mutual

/-- The inner `fill_subpats` worker of `list_unreachable_subpatterns`;
panics (`none`) when called on an empty set. -/
def fillSubpats : SubPatSet → PatternArena → Option (List PatId × PatternArena)
  | .Empty, _ => none
  | .Full, a => some ([], a)
  | .Seq subpats, a => fillSeqGo subpats a
  | .Alt subpats altCount p, a =>
    let r := p.expandOrPat a
    fillAltGo subpats r.1 (List.range altCount) r.2
termination_by s _ => sizeOf s

/-- Iteration of `fill_subpats` over the children of a `Seq` node. -/
def fillSeqGo : List (Nat × SubPatSet) → PatternArena →
    Option (List PatId × PatternArena)
  | [], a => some ([], a)
  | (_, sub) :: rest, a =>
    match fillSubpats sub a with
    | none => none
    | some r₁ =>
      match fillSeqGo rest r₁.2 with
      | none => none
      | some r₂ => some (r₁.1 ++ r₂.1, r₂.2)
termination_by m _ => sizeOf m

/-- The `for i in 0..alt_count` loop of `fill_subpats` on an `Alt` node:
an alternative with an empty (or missing) child (`get(&i).unwrap_or(Empty)`)
is reported as an unreachable leaf of the re-expanded or-pattern, the
others are recursed into.  Out-of-range indexing into the expansion is a
panic (`none`). -/
def fillAltGo : List (Nat × SubPatSet) → List PatId → List Nat → PatternArena →
    Option (List PatId × PatternArena)
  | _, _, [], a => some ([], a)
  | m, expanded, i :: is, a =>
    match hl : m.lookup i with
    | none =>
      match expanded.get? i with
      | none => none
      | some x =>
        match fillAltGo m expanded is a with
        | none => none
        | some r => some (x :: r.1, r.2)
    | some sub =>
      if sub.isEmptyB then
        match expanded.get? i with
        | none => none
        | some x =>
          match fillAltGo m expanded is a with
          | none => none
          | some r => some (x :: r.1, r.2)
      else
        match fillSubpats sub a with
        | none => none
        | some r₁ =>
          match fillAltGo m expanded is r₁.2 with
          | none => none
          | some r₂ => some (r₁.1 ++ r₂.1, r₂.2)
termination_by m _ is _ => sizeOf m + is.length
decreasing_by
  all_goals simp_wf
  all_goals first
    | omega
    | (have h := lookup_sizeOf_lt hl; omega)

end

/-- `SubPatSet::list_unreachable_subpatterns`: `none` in the outer option
is a panic inside `fill_subpats`; the inner option is the source's return
value (`None` exactly when the set is empty). -/
def SubPatSet.listUnreachableSubpatterns (s : SubPatSet) (a : PatternArena) :
    Option (Option (List PatId) × PatternArena) :=
  if s.isEmptyB then some (none, a)
  else if s.isFullB then some (some [], a)
  else (fillSubpats s a).map (fun r => (some r.1, r.2))

/-- Boolean key-distinctness for the association-list model of
`FxHashMap` (hash maps cannot hold a key twice). -/
def nodupKeysB : List (Nat × SubPatSet) → Bool
  | [] => true
  | (k, _) :: r => (r.lookup k).isNone && nodupKeysB r

mutual

/-- Well-formedness of a reachability set, as maintained by the algorithm:
child maps have distinct keys, and every `Alt` node has a positive
alternative count, child indices strictly below it, and no stored empty
alternative (`unsplit_or_pat` only ever stores a non-empty alternative and
`union` drops the ones that become empty). -/
def SubPatSet.wfB : SubPatSet → Bool
  | .Empty => true
  | .Full => true
  | .Seq subpats => nodupKeysB subpats && wfGo subpats
  | .Alt subpats altCount _ =>
    decide (0 < altCount) && nodupKeysB subpats &&
      subpats.all (fun kv => decide (kv.1 < altCount) && !kv.2.isEmptyB) &&
      wfGo subpats

/-- `wfB` on all children of a map. -/
def wfGo : List (Nat × SubPatSet) → Bool
  | [] => true
  | (_, v) :: rest => v.wfB && wfGo rest

end

mutual

/-- Compatibility of two reachability sets: they describe the same
pattern, so aligned `Alt` nodes carry the same alternative count.  `union`
is only ever applied by the algorithm to compatible sets (results of
testing the same pattern row). -/
def SubPatSet.compatB : SubPatSet → SubPatSet → Bool
  | .Seq m1, .Seq m2 => compatMB m1 m2
  | .Alt m1 n1 _, .Alt m2 n2 _ => n1 == n2 && compatMB m1 m2
  | .Seq _, .Alt _ _ _ => false
  | .Alt _ _ _, .Seq _ => false
  | _, _ => true

/-- Children present in both maps are compatible. -/
def compatMB : List (Nat × SubPatSet) → List (Nat × SubPatSet) → Bool
  | [], _ => true
  | (k, v) :: r, m2 =>
    (match m2.lookup k with
     | some w => v.compatB w
     | none => true) && compatMB r m2

end

mutual

/-- The normalisation invariant stated in the source (`Invariant: we try
to construct the smallest representation we can`): every semantically full
subtree is the `Full` constructor and every semantically empty subtree is
the `Empty` constructor. -/
def SubPatSet.normB : SubPatSet → Bool
  | .Empty => true
  | .Full => true
  | .Seq subpats => !(SubPatSet.Seq subpats).isEmptyB &&
      !(SubPatSet.Seq subpats).isFullB && normGo subpats
  | .Alt subpats altCount p => !(SubPatSet.Alt subpats altCount p).isEmptyB &&
      !(SubPatSet.Alt subpats altCount p).isFullB && normGo subpats

/-- `normB` on all children of a map. -/
def normGo : List (Nat × SubPatSet) → Bool
  | [] => true
  | (_, v) :: rest => v.normB && normGo rest

end

/-! ### Basic lemmas about the SubPatSet helpers -/

theorem anyEmptyGo_eq (m : List (Nat × SubPatSet)) :
    anyEmptyGo m = m.any (fun kv => kv.2.isEmptyB) := by
  induction m with
  | nil => rfl
  | cons kv r ih =>
    obtain ⟨k, v⟩ := kv
    simp [anyEmptyGo, ih]

theorem allEmptyGo_eq (m : List (Nat × SubPatSet)) :
    allEmptyGo m = m.all (fun kv => kv.2.isEmptyB) := by
  induction m with
  | nil => rfl
  | cons kv r ih =>
    obtain ⟨k, v⟩ := kv
    simp [allEmptyGo, ih]

theorem allFullGo_eq (m : List (Nat × SubPatSet)) :
    allFullGo m = m.all (fun kv => kv.2.isFullB) := by
  induction m with
  | nil => rfl
  | cons kv r ih =>
    obtain ⟨k, v⟩ := kv
    simp [allFullGo, ih]

theorem wfGo_eq (m : List (Nat × SubPatSet)) :
    wfGo m = m.all (fun kv => kv.2.wfB) := by
  induction m with
  | nil => rfl
  | cons kv r ih =>
    obtain ⟨k, v⟩ := kv
    simp [wfGo, ih]

@[simp] theorem isEmptyB_Empty : SubPatSet.Empty.isEmptyB = true := rfl

@[simp] theorem isEmptyB_Full : SubPatSet.Full.isEmptyB = false := rfl

@[simp] theorem isFullB_Empty : SubPatSet.Empty.isFullB = false := rfl

@[simp] theorem isFullB_Full : SubPatSet.Full.isFullB = true := rfl

theorem isEmptyB_Seq (m : List (Nat × SubPatSet)) :
    (SubPatSet.Seq m).isEmptyB = anyEmptyGo m := by
  rw [SubPatSet.isEmptyB]

theorem isEmptyB_Alt (m : List (Nat × SubPatSet)) (n : Nat) (p : PatId) :
    (SubPatSet.Alt m n p).isEmptyB = allEmptyGo m := by
  rw [SubPatSet.isEmptyB]

theorem isFullB_Seq (m : List (Nat × SubPatSet)) :
    (SubPatSet.Seq m).isFullB = allFullGo m := by
  rw [SubPatSet.isFullB]

theorem isFullB_Alt (m : List (Nat × SubPatSet)) (n : Nat) (p : PatId) :
    (SubPatSet.Alt m n p).isFullB = (m.length == n && allFullGo m) := by
  rw [SubPatSet.isFullB]

theorem mem_of_lookup {m : List (Nat × SubPatSet)} {k : Nat} {v : SubPatSet}
    (h : m.lookup k = some v) : (k, v) ∈ m := by
  induction m with
  | nil => simp [List.lookup] at h
  | cons kv r ih =>
    obtain ⟨a, b⟩ := kv
    rw [List.lookup_cons] at h
    by_cases hk : k == a
    · simp [hk] at h
      subst h
      have : k = a := by simpa using hk
      subst this
      exact List.mem_cons_self _ _
    · simp [hk] at h
      exact List.mem_cons_of_mem _ (ih h)

theorem mem_sizeOf_lt {m : List (Nat × SubPatSet)} {k : Nat} {v : SubPatSet}
    (h : (k, v) ∈ m) : sizeOf v < sizeOf m := by
  induction m with
  | nil => simp at h
  | cons kv r ih =>
    rcases List.mem_cons.mp h with h1 | h1
    · subst h1
      simp
      omega
    · have := ih h1
      obtain ⟨a, b⟩ := kv
      simp
      omega

theorem getD_sizeOf_le {m : List (Nat × SubPatSet)} {k : Nat} {d : SubPatSet}
    (hd : sizeOf d ≤ 1) : sizeOf ((m.lookup k).getD d) ≤ sizeOf m := by
  cases hl : m.lookup k with
  | none =>
    have : (1 : Nat) ≤ sizeOf m := by
      cases m <;> simp <;> omega
    simpa using le_trans hd this
  | some v =>
    simpa using le_of_lt (lookup_sizeOf_lt hl)

/-! ### Guard-level facts about `union` -/

theorem union_eq (s o : SubPatSet) :
    s.union o =
      (if s.isFullB || o.isEmptyB then some s
       else if s.isEmptyB then some o
       else if o.isFullB then some .Full
       else
         match s, o with
         | .Seq sm, .Seq om =>
           (unionSeqGo sm om).map (fun m => SubPatSet.normFull (.Seq m))
         | .Alt sm n p, .Alt om _ _ =>
           (unionAltGo sm om).map (fun m =>
             SubPatSet.normFull
               (.Alt (m ++ om.filter (fun kv => (sm.lookup kv.1).isNone)) n p))
         | _, _ => none) := by
  rw [SubPatSet.union.eq_def]

theorem union_full_left {s o : SubPatSet} (h : s.isFullB = true) :
    s.union o = some s := by
  rw [union_eq, h]
  simp

theorem union_empty_right {s o : SubPatSet} (h : o.isEmptyB = true) :
    s.union o = some s := by
  rw [union_eq, h]
  simp

theorem union_empty_left {s o : SubPatSet} (h1 : s.isEmptyB = true)
    (h2 : s.isFullB = false) (h3 : o.isEmptyB = false) :
    s.union o = some o := by
  rw [union_eq, h1, h2, h3]
  simp

theorem union_full_right {s o : SubPatSet} (h1 : o.isFullB = true)
    (h2 : s.isFullB = false) (h3 : s.isEmptyB = false) (h4 : o.isEmptyB = false) :
    s.union o = some .Full := by
  rw [union_eq, h1, h2, h3, h4]
  simp

/-- Union with a full (and, as always for well-formed sets, non-empty)
right operand is defined and yields a full set. -/
theorem union_full_right_total {s o : SubPatSet} (h : o.isFullB = true)
    (ho : o.isEmptyB = false) :
    ∃ z, s.union o = some z ∧ z.isFullB = true := by
  by_cases hf : s.isFullB
  · exact ⟨s, union_full_left hf, hf⟩
  · by_cases he : s.isEmptyB
    · exact ⟨o, union_empty_left he (by simpa using hf) ho, h⟩
    · exact ⟨.Full, union_full_right h (by simpa using hf) (by simpa using he) ho, rfl⟩

/-! ### Characterisation of the union worker loops -/

theorem seqGoMem {ms mo m' : List (Nat × SubPatSet)} (h : unionSeqGo ms mo = some m') :
    ∀ kv ∈ m', ∃ sv, (kv.1, sv) ∈ ms ∧
      sv.union ((mo.lookup kv.1).getD .Full) = some kv.2 ∧ kv.2.isFullB = false := by
  induction ms generalizing m' with
  | nil =>
    simp [unionSeqGo] at h
    subst h
    simp
  | cons kv rest ih =>
    obtain ⟨k, sv⟩ := kv
    rw [unionSeqGo] at h
    cases hu : sv.union ((mo.lookup k).getD .Full) with
    | none => rw [hu] at h; simp at h
    | some child =>
      cases ht : unionSeqGo rest mo with
      | none => rw [hu, ht] at h; simp at h
      | some tail =>
        rw [hu, ht] at h
        simp at h
        intro kv2 hmem
        by_cases hf : child.isFullB
        · rw [if_pos hf] at h
          subst h
          obtain ⟨sv2, h1, h2, h3⟩ := ih ht kv2 hmem
          exact ⟨sv2, List.mem_cons_of_mem _ h1, h2, h3⟩
        · rw [if_neg hf] at h
          subst h
          rcases List.mem_cons.mp hmem with h1 | h1
          · subst h1
            exact ⟨sv, List.mem_cons_self _ _, hu, by simpa using hf⟩
          · obtain ⟨sv2, h1, h2, h3⟩ := ih ht kv2 h1
            exact ⟨sv2, List.mem_cons_of_mem _ h1, h2, h3⟩

theorem altGoMem {ms mo m' : List (Nat × SubPatSet)} (h : unionAltGo ms mo = some m') :
    ∀ kv ∈ m', ∃ sv, (kv.1, sv) ∈ ms ∧
      sv.union ((mo.lookup kv.1).getD .Empty) = some kv.2 ∧ kv.2.isEmptyB = false := by
  induction ms generalizing m' with
  | nil =>
    simp [unionAltGo] at h
    subst h
    simp
  | cons kv rest ih =>
    obtain ⟨k, sv⟩ := kv
    rw [unionAltGo] at h
    cases hu : sv.union ((mo.lookup k).getD .Empty) with
    | none => rw [hu] at h; simp at h
    | some child =>
      cases ht : unionAltGo rest mo with
      | none => rw [hu, ht] at h; simp at h
      | some tail =>
        rw [hu, ht] at h
        simp at h
        intro kv2 hmem
        by_cases hf : child.isEmptyB
        · rw [if_pos hf] at h
          subst h
          obtain ⟨sv2, h1, h2, h3⟩ := ih ht kv2 hmem
          exact ⟨sv2, List.mem_cons_of_mem _ h1, h2, h3⟩
        · rw [if_neg hf] at h
          subst h
          rcases List.mem_cons.mp hmem with h1 | h1
          · subst h1
            exact ⟨sv, List.mem_cons_self _ _, hu, by simpa using hf⟩
          · obtain ⟨sv2, h1, h2, h3⟩ := ih ht kv2 h1
            exact ⟨sv2, List.mem_cons_of_mem _ h1, h2, h3⟩

theorem altGoNil {ms mo : List (Nat × SubPatSet)} (h : unionAltGo ms mo = some []) :
    ∀ kv ∈ ms, ∃ v, kv.2.union ((mo.lookup kv.1).getD .Empty) = some v ∧
      v.isEmptyB = true := by
  induction ms with
  | nil => simp
  | cons kv rest ih =>
    obtain ⟨k, sv⟩ := kv
    rw [unionAltGo] at h
    cases hu : sv.union ((mo.lookup k).getD .Empty) with
    | none => rw [hu] at h; simp at h
    | some child =>
      cases ht : unionAltGo rest mo with
      | none => rw [hu, ht] at h; simp at h
      | some tail =>
        rw [hu, ht] at h
        simp at h
        by_cases hf : child.isEmptyB
        · rw [if_pos hf] at h
          subst h
          intro kv2 hmem
          rcases List.mem_cons.mp hmem with h1 | h1
          · subst h1
            exact ⟨child, hu, hf⟩
          · exact ih ht kv2 h1
        · rw [if_neg hf] at h
          simp at h

/-- Emptiness is reflected by `union`: an empty result forces an empty
left operand.  (Strong induction on the combined size.) -/
theorem emptyMonoAux : ∀ (N : Nat) {x y z : SubPatSet}, sizeOf x + sizeOf y ≤ N →
    x.union y = some z → z.isEmptyB = true → x.isEmptyB = true := by
  intro N
  induction N using Nat.strong_induction_on with
  | _ N IH =>
    intro x y z hN h hz
    rw [union_eq] at h
    by_cases g1 : (x.isFullB || y.isEmptyB) = true
    · rw [if_pos g1] at h
      cases h
      exact hz
    · rw [if_neg g1] at h
      by_cases g2 : x.isEmptyB = true
      · exact g2
      · rw [if_neg g2] at h
        by_cases g3 : y.isFullB = true
        · rw [if_pos g3] at h
          cases h
          simp at hz
        · rw [if_neg g3] at h
          match x, y, hN, g1, g2, g3, h with
          | .Seq ms, .Seq mo, hN, g1, g2, g3, h =>
            have h : (unionSeqGo ms mo).map (fun m => (SubPatSet.Seq m).normFull) =
                some z := h
            cases hg : unionSeqGo ms mo with
            | none => rw [hg] at h; simp at h
            | some m2 =>
              rw [hg] at h
              simp at h
              rw [SubPatSet.normFull] at h
              by_cases hnf : (SubPatSet.Seq m2).isFullB
              · rw [if_pos hnf] at h
                cases h
                simp at hz
              · rw [if_neg hnf] at h
                subst h
                rw [isEmptyB_Seq, anyEmptyGo_eq] at hz
                simp at hz
                obtain ⟨k2, v2, hmem, hv2⟩ := hz
                obtain ⟨sv, hsv, hun, _⟩ := seqGoMem hg (k2, v2) hmem
                have hsz : sizeOf sv + sizeOf ((mo.lookup k2).getD SubPatSet.Full) <
                    N := by
                  have h1 := mem_sizeOf_lt hsv
                  have h2 : sizeOf ((mo.lookup k2).getD SubPatSet.Full) ≤ sizeOf mo :=
                    getD_sizeOf_le (by simp)
                  simp at hN
                  omega
                have hse : sv.isEmptyB = true :=
                  IH _ hsz (le_refl _) hun hv2
                rw [isEmptyB_Seq, anyEmptyGo_eq]
                simp
                exact ⟨k2, sv, hsv, hse⟩
          | .Alt ms n p, .Alt mo n2 p2, hN, g1, g2, g3, h =>
            have h : (unionAltGo ms mo).map (fun m =>
                (SubPatSet.Alt (m ++ mo.filter (fun kv => (ms.lookup kv.1).isNone)) n p).normFull) =
                some z := h
            cases hg : unionAltGo ms mo with
            | none => rw [hg] at h; simp at h
            | some m2 =>
              rw [hg] at h
              simp at h
              rw [SubPatSet.normFull] at h
              by_cases hnf : (SubPatSet.Alt
                  (m2 ++ mo.filter (fun kv => (ms.lookup kv.1).isNone)) n p).isFullB
              · rw [if_pos hnf] at h
                cases h
                simp at hz
              · rw [if_neg hnf] at h
                subst h
                rw [isEmptyB_Alt, allEmptyGo_eq] at hz
                simp at hz
                have hm2 : m2 = [] := by
                  cases hm : m2 with
                  | nil => rfl
                  | cons kv2 r2 =>
                    obtain ⟨sv, _, _, hne⟩ := altGoMem hg kv2
                      (by rw [hm]; exact List.mem_cons_self _ _)
                    have := hz.1 kv2.1 kv2.2 (by rw [hm]; exact List.mem_cons_self _ _)
                    rw [this] at hne
                    simp at hne
                subst hm2
                rw [isEmptyB_Alt, allEmptyGo_eq]
                simp
                intro k2 v2 hmem
                obtain ⟨w, hw, hwe⟩ := altGoNil hg (k2, v2) hmem
                have hsz : sizeOf v2 + sizeOf ((mo.lookup k2).getD SubPatSet.Empty) <
                    N := by
                  have h1 := mem_sizeOf_lt hmem
                  have h2 : sizeOf ((mo.lookup k2).getD SubPatSet.Empty) ≤ sizeOf mo :=
                    getD_sizeOf_le (by simp)
                  simp at hN
                  omega
                exact IH _ hsz (le_refl _) hw hwe
          | .Seq _, .Alt _ _ _, hN, g1, g2, g3, h => exact absurd h (by simp)
          | .Alt _ _ _, .Seq _, hN, g1, g2, g3, h => exact absurd h (by simp)
          | .Empty, _, hN, g1, g2, g3, h => simp at g2
          | .Full, _, hN, g1, g2, g3, h => simp at g1
          | .Seq _, .Empty, hN, g1, g2, g3, h => simp at g1
          | .Seq _, .Full, hN, g1, g2, g3, h => simp at g3
          | .Alt _ _ _, .Empty, hN, g1, g2, g3, h => simp at g1
          | .Alt _ _ _, .Full, hN, g1, g2, g3, h => simp at g3

/-- Emptiness is reflected by `union`: an empty result forces an empty
left operand. -/
theorem emptyMono {x y z : SubPatSet} (h : x.union y = some z)
    (hz : z.isEmptyB = true) : x.isEmptyB = true :=
  emptyMonoAux (sizeOf x + sizeOf y) (le_refl _) h hz

/-! ### Well-formedness facts -/

theorem wfB_Seq (m : List (Nat × SubPatSet)) :
    (SubPatSet.Seq m).wfB = (nodupKeysB m && wfGo m) := by
  rw [SubPatSet.wfB]

theorem wfB_Alt (m : List (Nat × SubPatSet)) (n : Nat) (p : PatId) :
    (SubPatSet.Alt m n p).wfB =
      (decide (0 < n) && nodupKeysB m &&
        m.all (fun kv => decide (kv.1 < n) && !kv.2.isEmptyB) && wfGo m) := by
  rw [SubPatSet.wfB]

theorem wfGo_mem {m : List (Nat × SubPatSet)} {k : Nat} {v : SubPatSet}
    (hw : wfGo m = true) (hm : (k, v) ∈ m) : v.wfB = true := by
  rw [wfGo_eq] at hw
  simpa using List.all_eq_true.mp hw (k, v) hm

/-- A well-formed set cannot be both empty and full. -/
theorem wfNotBoth : ∀ (N : Nat) {x : SubPatSet}, sizeOf x ≤ N → x.wfB = true →
    x.isEmptyB = true → x.isFullB = true → False := by
  intro N
  induction N using Nat.strong_induction_on with
  | _ N IH =>
    intro x hN hw he hf
    match x, hN, hw, he, hf with
    | .Empty, hN, hw, he, hf => simp at hf
    | .Full, hN, hw, he, hf => simp at he
    | .Seq m, hN, hw, he, hf =>
      rw [isEmptyB_Seq, anyEmptyGo_eq] at he
      rw [isFullB_Seq, allFullGo_eq] at hf
      rw [wfB_Seq] at hw
      simp at he hf hw
      obtain ⟨k, v, hm, hv⟩ := he
      have hvf := hf k v hm
      have hvw : v.wfB = true := wfGo_mem hw.2 hm
      have hsz : sizeOf v < N := by
        have := mem_sizeOf_lt hm
        simp at hN
        omega
      exact IH _ hsz (le_refl _) hvw hv hvf
    | .Alt m n p, hN, hw, he, hf =>
      rw [isEmptyB_Alt, allEmptyGo_eq] at he
      rw [isFullB_Alt] at hf
      rw [wfB_Alt] at hw
      simp at he hf hw
      obtain ⟨⟨⟨hn, hnd⟩, hcond⟩, hwgo⟩ := hw
      have hlen : 0 < m.length := by omega
      obtain ⟨kv, r, hm⟩ := List.exists_cons_of_ne_nil (List.ne_nil_of_length_pos hlen)
      have h1 : kv ∈ m := by rw [hm]; exact List.mem_cons_self _ _
      have hne := (hcond kv.1 kv.2 (by simpa using h1)).2
      have h2 := he kv.1 kv.2 (by simpa using h1)
      rw [h2] at hne
      simp at hne

theorem wfNotBothF {x : SubPatSet} (hw : x.wfB = true) (he : x.isEmptyB = true) :
    x.isFullB = false := by
  cases hf : x.isFullB
  · rfl
  · exact (wfNotBoth (sizeOf x) (le_refl _) hw he hf).elim

/-! ### Association-list support lemmas -/

theorem lookup_append (l1 l2 : List (Nat × SubPatSet)) (k : Nat) :
    (l1 ++ l2).lookup k = ((l1.lookup k).orElse (fun _ => l2.lookup k)) := by
  induction l1 with
  | nil => simp [List.lookup]
  | cons kv r ih =>
    obtain ⟨a, b⟩ := kv
    by_cases hk : k == a
    · simp [List.lookup_cons, hk]
    · simp only [List.cons_append, List.lookup_cons, hk]
      simpa using ih

theorem lookup_filter_none {mo : List (Nat × SubPatSet)} {k : Nat}
    (pred : Nat × SubPatSet → Bool) (h : mo.lookup k = none) :
    (mo.filter pred).lookup k = none := by
  induction mo with
  | nil => simp
  | cons kv r ih =>
    obtain ⟨a, b⟩ := kv
    rw [List.lookup_cons] at h
    cases hka : (k == a) with
    | true =>
      rw [hka] at h
      exact absurd h (by simp)
    | false =>
      rw [hka] at h
      rw [List.filter_cons]
      by_cases hp : pred (a, b)
      · rw [if_pos hp, List.lookup_cons, hka]
        exact ih h
      · rw [if_neg hp]
        exact ih h

theorem nodupKeysB_filter {mo : List (Nat × SubPatSet)}
    (pred : Nat × SubPatSet → Bool) (h : nodupKeysB mo = true) :
    nodupKeysB (mo.filter pred) = true := by
  induction mo with
  | nil => exact h
  | cons kv r ih =>
    obtain ⟨a, b⟩ := kv
    rw [nodupKeysB, Bool.and_eq_true] at h
    rw [List.filter_cons]
    by_cases hp : pred (a, b)
    · rw [if_pos hp, nodupKeysB, Bool.and_eq_true]
      refine ⟨?_, ih h.2⟩
      have hln : r.lookup a = none := Option.isNone_iff_eq_none.mp h.1
      rw [lookup_filter_none pred hln]
      rfl
    · rw [if_neg hp]
      exact ih h.2

theorem nodupKeysB_append {l1 l2 : List (Nat × SubPatSet)}
    (h1 : nodupKeysB l1 = true) (h2 : nodupKeysB l2 = true)
    (hd : ∀ kv ∈ l1, l2.lookup kv.1 = none) :
    nodupKeysB (l1 ++ l2) = true := by
  induction l1 with
  | nil => simpa using h2
  | cons kv r ih =>
    obtain ⟨a, b⟩ := kv
    rw [nodupKeysB, Bool.and_eq_true] at h1
    rw [List.cons_append, nodupKeysB, Bool.and_eq_true]
    refine ⟨?_, ih h1.2 (fun kv hm => hd kv (List.mem_cons_of_mem _ hm))⟩
    rw [lookup_append]
    have hra : r.lookup a = none := Option.isNone_iff_eq_none.mp h1.1
    rw [hra]
    have hl2 : l2.lookup a = none := hd (a, b) (List.mem_cons_self _ _)
    simp [hl2]

theorem lookup_none_of_nodup_head {r : List (Nat × SubPatSet)} {a k : Nat}
    (hne : (r.lookup a).isNone = true) (hk : k == a) :
    r.lookup k = none := by
  have : k = a := by simpa using hk
  subst this
  simpa using hne

/-! ### Compatibility facts -/

theorem compatB_Seq (m1 m2 : List (Nat × SubPatSet)) :
    (SubPatSet.Seq m1).compatB (.Seq m2) = compatMB m1 m2 := by
  rw [SubPatSet.compatB]

theorem compatB_Alt (m1 m2 : List (Nat × SubPatSet)) (n1 n2 : Nat) (p1 p2 : PatId) :
    (SubPatSet.Alt m1 n1 p1).compatB (.Alt m2 n2 p2) = (n1 == n2 && compatMB m1 m2) := by
  rw [SubPatSet.compatB]

theorem compatB_fullish (x : SubPatSet) : x.compatB .Full = true := by
  cases x <;> simp [SubPatSet.compatB.eq_def]

theorem compatB_emptyish (x : SubPatSet) : x.compatB .Empty = true := by
  cases x <;> simp [SubPatSet.compatB.eq_def]

theorem compatMB_get {m1 m2 : List (Nat × SubPatSet)} {k : Nat} {v w : SubPatSet}
    (hc : compatMB m1 m2 = true) (hm : (k, v) ∈ m1) (hl : m2.lookup k = some w) :
    v.compatB w = true := by
  induction m1 with
  | nil => simp at hm
  | cons kv r ih =>
    obtain ⟨a, b⟩ := kv
    rw [compatMB] at hc
    simp at hc
    rcases List.mem_cons.mp hm with h1 | h1
    · have h1a : k = a := congrArg Prod.fst h1
      have h1b : v = b := congrArg Prod.snd h1
      subst h1a
      subst h1b
      rw [hl] at hc
      exact hc.1
    · exact ih hc.2 h1

theorem lookup_isSome_of_mem {m : List (Nat × SubPatSet)} {k : Nat} {v : SubPatSet}
    (hm : (k, v) ∈ m) : (m.lookup k).isSome = true := by
  induction m with
  | nil => simp at hm
  | cons kv r ih =>
    obtain ⟨a, b⟩ := kv
    rw [List.lookup_cons]
    cases hka : (k == a) with
    | true => simp
    | false =>
      rcases List.mem_cons.mp hm with h1 | h1
      · have : k = a := congrArg Prod.fst h1
        subst this
        simp at hka
      · exact ih h1

theorem wfGo_append (l1 l2 : List (Nat × SubPatSet)) :
    wfGo (l1 ++ l2) = (wfGo l1 && wfGo l2) := by
  rw [wfGo_eq, wfGo_eq, wfGo_eq, List.all_append]

theorem seqGoLookupNone {ms mo m' : List (Nat × SubPatSet)} {k : Nat}
    (h : unionSeqGo ms mo = some m') (hk : ms.lookup k = none) :
    m'.lookup k = none := by
  induction ms generalizing m' with
  | nil =>
    rw [unionSeqGo] at h
    cases h
    simp
  | cons kv rest ih =>
    obtain ⟨a, sv⟩ := kv
    rw [List.lookup_cons] at hk
    cases hka : (k == a) with
    | true => rw [hka] at hk; simp at hk
    | false =>
      rw [hka] at hk
      rw [unionSeqGo] at h
      cases hu : sv.union ((mo.lookup a).getD .Full) with
      | none => rw [hu] at h; simp at h
      | some child =>
        cases ht : unionSeqGo rest mo with
        | none => rw [hu, ht] at h; simp at h
        | some tail =>
          rw [hu, ht] at h
          simp at h
          by_cases hf : child.isFullB
          · rw [if_pos hf] at h
            subst h
            exact ih ht hk
          · rw [if_neg hf] at h
            subst h
            rw [List.lookup_cons, hka]
            exact ih ht hk

theorem seqGoNodup {ms mo m' : List (Nat × SubPatSet)}
    (h : unionSeqGo ms mo = some m') (hnd : nodupKeysB ms = true) :
    nodupKeysB m' = true := by
  induction ms generalizing m' with
  | nil =>
    rw [unionSeqGo] at h
    cases h
    rfl
  | cons kv rest ih =>
    obtain ⟨a, sv⟩ := kv
    rw [nodupKeysB, Bool.and_eq_true] at hnd
    rw [unionSeqGo] at h
    cases hu : sv.union ((mo.lookup a).getD .Full) with
    | none => rw [hu] at h; simp at h
    | some child =>
      cases ht : unionSeqGo rest mo with
      | none => rw [hu, ht] at h; simp at h
      | some tail =>
        rw [hu, ht] at h
        simp at h
        by_cases hf : child.isFullB
        · rw [if_pos hf] at h
          subst h
          exact ih ht hnd.2
        · rw [if_neg hf] at h
          subst h
          rw [nodupKeysB, Bool.and_eq_true]
          refine ⟨?_, ih ht hnd.2⟩
          rw [seqGoLookupNone ht (Option.isNone_iff_eq_none.mp hnd.1)]
          rfl

theorem altGoLookupNone {ms mo m' : List (Nat × SubPatSet)} {k : Nat}
    (h : unionAltGo ms mo = some m') (hk : ms.lookup k = none) :
    m'.lookup k = none := by
  induction ms generalizing m' with
  | nil =>
    rw [unionAltGo] at h
    cases h
    simp
  | cons kv rest ih =>
    obtain ⟨a, sv⟩ := kv
    rw [List.lookup_cons] at hk
    cases hka : (k == a) with
    | true => rw [hka] at hk; simp at hk
    | false =>
      rw [hka] at hk
      rw [unionAltGo] at h
      cases hu : sv.union ((mo.lookup a).getD .Empty) with
      | none => rw [hu] at h; simp at h
      | some child =>
        cases ht : unionAltGo rest mo with
        | none => rw [hu, ht] at h; simp at h
        | some tail =>
          rw [hu, ht] at h
          simp at h
          by_cases hf : child.isEmptyB
          · rw [if_pos hf] at h
            subst h
            exact ih ht hk
          · rw [if_neg hf] at h
            subst h
            rw [List.lookup_cons, hka]
            exact ih ht hk

theorem altGoNodup {ms mo m' : List (Nat × SubPatSet)}
    (h : unionAltGo ms mo = some m') (hnd : nodupKeysB ms = true) :
    nodupKeysB m' = true := by
  induction ms generalizing m' with
  | nil =>
    rw [unionAltGo] at h
    cases h
    rfl
  | cons kv rest ih =>
    obtain ⟨a, sv⟩ := kv
    rw [nodupKeysB, Bool.and_eq_true] at hnd
    rw [unionAltGo] at h
    cases hu : sv.union ((mo.lookup a).getD .Empty) with
    | none => rw [hu] at h; simp at h
    | some child =>
      cases ht : unionAltGo rest mo with
      | none => rw [hu, ht] at h; simp at h
      | some tail =>
        rw [hu, ht] at h
        simp at h
        by_cases hf : child.isEmptyB
        · rw [if_pos hf] at h
          subst h
          exact ih ht hnd.2
        · rw [if_neg hf] at h
          subst h
          rw [nodupKeysB, Bool.and_eq_true]
          refine ⟨?_, ih ht hnd.2⟩
          rw [altGoLookupNone ht (Option.isNone_iff_eq_none.mp hnd.1)]
          rfl

/-- `union` preserves well-formedness of compatible operands. -/
theorem wfPresAux : ∀ (N : Nat) {x y z : SubPatSet}, sizeOf x + sizeOf y ≤ N →
    x.union y = some z → x.wfB = true → y.wfB = true → x.compatB y = true →
    z.wfB = true := by
  intro N
  induction N using Nat.strong_induction_on with
  | _ N IH =>
    intro x y z hN h hwx hwy hc
    rw [union_eq] at h
    by_cases g1 : (x.isFullB || y.isEmptyB) = true
    · rw [if_pos g1] at h
      cases h
      exact hwx
    · rw [if_neg g1] at h
      by_cases g2 : x.isEmptyB = true
      · rw [if_pos g2] at h
        cases h
        exact hwy
      · rw [if_neg g2] at h
        by_cases g3 : y.isFullB = true
        · rw [if_pos g3] at h
          cases h
          rfl
        · rw [if_neg g3] at h
          match x, y, hN, h, hwx, hwy, hc with
          | .Seq ms, .Seq mo, hN, h, hwx, hwy, hc =>
            have h : (unionSeqGo ms mo).map (fun m => (SubPatSet.Seq m).normFull) =
                some z := h
            rw [wfB_Seq, Bool.and_eq_true] at hwx hwy
            rw [compatB_Seq] at hc
            cases hg : unionSeqGo ms mo with
            | none => rw [hg] at h; simp at h
            | some m2 =>
              rw [hg] at h
              simp at h
              subst h
              rw [SubPatSet.normFull]
              by_cases hnf : (SubPatSet.Seq m2).isFullB
              · rw [if_pos hnf]; rfl
              · rw [if_neg hnf]
                rw [wfB_Seq, Bool.and_eq_true]
                refine ⟨seqGoNodup hg hwx.1, ?_⟩
                rw [wfGo_eq]
                rw [List.all_eq_true]
                intro kv hm
                obtain ⟨sv, hsv, hun, _⟩ := seqGoMem hg kv hm
                have hwsv : sv.wfB = true := wfGo_mem hwx.2 hsv
                have hww : ((mo.lookup kv.1).getD SubPatSet.Full).wfB = true := by
                  cases hl : mo.lookup kv.1 with
                  | none => rfl
                  | some w => simpa using wfGo_mem hwy.2 (mem_of_lookup hl)
                have hcc : sv.compatB ((mo.lookup kv.1).getD SubPatSet.Full) = true := by
                  cases hl : mo.lookup kv.1 with
                  | none => exact compatB_fullish sv
                  | some w => simpa using compatMB_get hc hsv hl
                have hsz : sizeOf sv + sizeOf ((mo.lookup kv.1).getD SubPatSet.Full) < N := by
                  have h1 := mem_sizeOf_lt hsv
                  have h2 : sizeOf ((mo.lookup kv.1).getD SubPatSet.Full) ≤ sizeOf mo :=
                    getD_sizeOf_le (by simp)
                  simp at hN
                  omega
                exact IH _ hsz (le_refl _) hun hwsv hww hcc
          | .Alt ms n p, .Alt mo n2 p2, hN, h, hwx, hwy, hc =>
            rw [wfB_Alt] at hwx hwy
            simp only [Bool.and_eq_true] at hwx hwy
            rw [compatB_Alt, Bool.and_eq_true] at hc
            have hnn : n = n2 := by
              have := hc.1
              simp at this
              omega
            subst hnn
            have h : (unionAltGo ms mo).map (fun m =>
                (SubPatSet.Alt (m ++ mo.filter (fun kv => (ms.lookup kv.1).isNone)) n p).normFull) =
                some z := h
            cases hg : unionAltGo ms mo with
            | none => rw [hg] at h; simp at h
            | some m2 =>
              rw [hg] at h
              simp at h
              subst h
              rw [SubPatSet.normFull]
              by_cases hnf : (SubPatSet.Alt
                  (m2 ++ mo.filter (fun kv => (ms.lookup kv.1).isNone)) n p).isFullB
              · rw [if_pos hnf]; rfl
              · rw [if_neg hnf]
                rw [wfB_Alt]
                simp only [Bool.and_eq_true]
                obtain ⟨⟨⟨hn0, hndx⟩, hcondx⟩, hwgx⟩ := hwx
                obtain ⟨⟨⟨_, hndy⟩, hcondy⟩, hwgy⟩ := hwy
                have hlo : ∀ kv ∈ mo.filter (fun kv => (ms.lookup kv.1).isNone), kv ∈ mo := by
                  intro kv hm
                  exact (List.mem_filter.mp hm).1
                refine ⟨⟨⟨hn0, ?_⟩, ?_⟩, ?_⟩
                · refine nodupKeysB_append (altGoNodup hg hndx)
                    (nodupKeysB_filter _ hndy) ?_
                  intro kv hm
                  obtain ⟨sv, hsv, _, _⟩ := altGoMem hg kv hm
                  cases hl : (mo.filter (fun kv => (ms.lookup kv.1).isNone)).lookup kv.1 with
                  | none => rfl
                  | some w =>
                    have hmem := mem_of_lookup hl
                    have hnone : ms.lookup kv.1 = none := by
                      have := (List.mem_filter.mp hmem).2
                      simpa using this
                    have hsome := lookup_isSome_of_mem hsv
                    rw [hnone] at hsome
                    simp at hsome
                · rw [List.all_eq_true]
                  intro kv hm
                  rcases List.mem_append.mp hm with hm1 | hm1
                  · obtain ⟨sv, hsv, _, hne⟩ := altGoMem hg kv hm1
                    have hkey := List.all_eq_true.mp hcondx (kv.1, sv) hsv
                    simp only [Bool.and_eq_true] at hkey
                    simp only [Bool.and_eq_true]
                    exact ⟨hkey.1, by simpa using hne⟩
                  · have hkv : kv ∈ mo := (List.mem_filter.mp hm1).1
                    exact List.all_eq_true.mp hcondy kv hkv
                · rw [wfGo_append, Bool.and_eq_true]
                  constructor
                  · rw [wfGo_eq, List.all_eq_true]
                    intro kv hm
                    obtain ⟨sv, hsv, hun, _⟩ := altGoMem hg kv hm
                    have hwsv : sv.wfB = true := wfGo_mem hwgx hsv
                    have hww : ((mo.lookup kv.1).getD SubPatSet.Empty).wfB = true := by
                      cases hl : mo.lookup kv.1 with
                      | none => rfl
                      | some w => simpa using wfGo_mem hwgy (mem_of_lookup hl)
                    have hcc : sv.compatB ((mo.lookup kv.1).getD SubPatSet.Empty) = true := by
                      cases hl : mo.lookup kv.1 with
                      | none => exact compatB_emptyish sv
                      | some w => simpa using compatMB_get hc.2 hsv hl
                    have hsz : sizeOf sv + sizeOf ((mo.lookup kv.1).getD SubPatSet.Empty) < N := by
                      have h1 := mem_sizeOf_lt hsv
                      have h2 : sizeOf ((mo.lookup kv.1).getD SubPatSet.Empty) ≤ sizeOf mo :=
                        getD_sizeOf_le (by simp)
                      simp at hN
                      omega
                    exact IH _ hsz (le_refl _) hun hwsv hww hcc
                  · rw [wfGo_eq, List.all_eq_true]
                    intro kv hm
                    exact wfGo_mem hwgy (List.mem_filter.mp hm).1
          | .Seq _, .Alt _ _ _, hN, h, hwx, hwy, hc => exact absurd h (by simp)
          | .Alt _ _ _, .Seq _, hN, h, hwx, hwy, hc => exact absurd h (by simp)
          | .Empty, _, hN, h, hwx, hwy, hc => simp at g2
          | .Full, _, hN, h, hwx, hwy, hc => simp at g1
          | .Seq _, .Empty, hN, h, hwx, hwy, hc => simp at g1
          | .Seq _, .Full, hN, h, hwx, hwy, hc => simp at g3
          | .Alt _ _ _, .Empty, hN, h, hwx, hwy, hc => simp at g1
          | .Alt _ _ _, .Full, hN, h, hwx, hwy, hc => simp at g3

/-- `union` preserves well-formedness of compatible operands. -/
theorem wfPres {x y z : SubPatSet} (h : x.union y = some z) (hwx : x.wfB = true)
    (hwy : y.wfB = true) (hc : x.compatB y = true) : z.wfB = true :=
  wfPresAux (sizeOf x + sizeOf y) (le_refl _) h hwx hwy hc
/-! ### Key-set counting lemmas -/

theorem lookup_isSome_iff {m : List (Nat × SubPatSet)} {k : Nat} :
    (m.lookup k).isSome = true ↔ k ∈ m.map Prod.fst := by
  constructor
  · intro h
    cases hl : m.lookup k with
    | none => rw [hl] at h; simp at h
    | some v =>
      have := mem_of_lookup hl
      exact List.mem_map.mpr ⟨(k, v), this, rfl⟩
  · intro h
    obtain ⟨kv, hm, hk⟩ := List.mem_map.mp h
    obtain ⟨a, b⟩ := kv
    cases hk
    exact lookup_isSome_of_mem hm

theorem nodupKeysB_nodup {m : List (Nat × SubPatSet)} (h : nodupKeysB m = true) :
    (m.map Prod.fst).Nodup := by
  induction m with
  | nil => simp
  | cons kv r ih =>
    obtain ⟨a, b⟩ := kv
    rw [nodupKeysB, Bool.and_eq_true] at h
    rw [List.map_cons, List.nodup_cons]
    refine ⟨?_, ih h.2⟩
    intro hmem
    have := lookup_isSome_iff.mpr hmem
    rw [Option.isNone_iff_eq_none.mp h.1] at this
    simp at this

theorem keysComplete {m : List (Nat × SubPatSet)} {n : Nat}
    (hnd : nodupKeysB m = true) (hlt : ∀ kv ∈ m, kv.1 < n)
    (hlen : m.length = n) : ∀ k, k < n → (m.lookup k).isSome = true := by
  intro k hk
  rw [lookup_isSome_iff]
  have hnd2 := nodupKeysB_nodup hnd
  have hsub : m.map Prod.fst ⊆ List.range n := by
    intro j hj
    obtain ⟨kv, hm, hk2⟩ := List.mem_map.mp hj
    subst hk2
    exact List.mem_range.mpr (hlt kv hm)
  have hsp : List.Subperm (m.map Prod.fst) (List.range n) :=
    List.subperm_of_subset hnd2 hsub
  have hperm : (m.map Prod.fst).Perm (List.range n) :=
    hsp.perm_of_length_le (by simp [hlen])
  exact hperm.mem_iff.mpr (List.mem_range.mpr hk)

theorem lenOfComplete {m : List (Nat × SubPatSet)} {n : Nat}
    (hnd : nodupKeysB m = true) (hlt : ∀ kv ∈ m, kv.1 < n)
    (hall : ∀ k, k < n → (m.lookup k).isSome = true) : m.length = n := by
  have hnd2 := nodupKeysB_nodup hnd
  have hsub : m.map Prod.fst ⊆ List.range n := by
    intro j hj
    obtain ⟨kv, hm, hk2⟩ := List.mem_map.mp hj
    subst hk2
    exact List.mem_range.mpr (hlt kv hm)
  have hsp : List.Subperm (m.map Prod.fst) (List.range n) :=
    List.subperm_of_subset hnd2 hsub
  have h1 : m.length ≤ n := by simpa using hsp.length_le
  have hsp2 : List.Subperm (List.range n) (m.map Prod.fst) :=
    List.subperm_of_subset (List.nodup_range n)
      (fun k hk => lookup_isSome_iff.mp (hall k (List.mem_range.mp hk)))
  have h2 : n ≤ m.length := by simpa using hsp2.length_le
  omega

/-! ### Lookup characterisation and definedness of the union loops -/

theorem seqGoDefined {mb mc m2 : List (Nat × SubPatSet)}
    (h : unionSeqGo mb mc = some m2) :
    ∀ kv ∈ mb, ∃ w, kv.2.union ((mc.lookup kv.1).getD .Full) = some w := by
  induction mb generalizing m2 with
  | nil => simp
  | cons kv0 rest ih =>
    obtain ⟨a, bv⟩ := kv0
    rw [unionSeqGo] at h
    cases hu : bv.union ((mc.lookup a).getD .Full) with
    | none => rw [hu] at h; simp at h
    | some child =>
      cases ht : unionSeqGo rest mc with
      | none => rw [hu, ht] at h; simp at h
      | some tail =>
        intro kv hm
        rcases List.mem_cons.mp hm with h1 | h1
        · subst h1
          exact ⟨child, hu⟩
        · exact ih ht kv h1

theorem altGoDefined {mb mc m2 : List (Nat × SubPatSet)}
    (h : unionAltGo mb mc = some m2) :
    ∀ kv ∈ mb, ∃ w, kv.2.union ((mc.lookup kv.1).getD .Empty) = some w := by
  induction mb generalizing m2 with
  | nil => simp
  | cons kv0 rest ih =>
    obtain ⟨a, bv⟩ := kv0
    rw [unionAltGo] at h
    cases hu : bv.union ((mc.lookup a).getD .Empty) with
    | none => rw [hu] at h; simp at h
    | some child =>
      cases ht : unionAltGo rest mc with
      | none => rw [hu, ht] at h; simp at h
      | some tail =>
        intro kv hm
        rcases List.mem_cons.mp hm with h1 | h1
        · subst h1
          exact ⟨child, hu⟩
        · exact ih ht kv h1

theorem seqGoLookup {mb mc m2 : List (Nat × SubPatSet)}
    (hnd : nodupKeysB mb = true) (h : unionSeqGo mb mc = some m2) (k : Nat) :
    m2.lookup k =
      (match mb.lookup k with
       | none => none
       | some bv =>
         match bv.union ((mc.lookup k).getD .Full) with
         | none => none
         | some w => if w.isFullB then none else some w) := by
  induction mb generalizing m2 with
  | nil =>
    rw [unionSeqGo] at h
    cases h
    simp [List.lookup]
  | cons kv0 rest ih =>
    obtain ⟨a, bv0⟩ := kv0
    rw [nodupKeysB, Bool.and_eq_true] at hnd
    rw [unionSeqGo] at h
    cases hu : bv0.union ((mc.lookup a).getD .Full) with
    | none => rw [hu] at h; simp at h
    | some child =>
      cases ht : unionSeqGo rest mc with
      | none => rw [hu, ht] at h; simp at h
      | some tail =>
        rw [hu, ht] at h
        simp at h
        rw [List.lookup_cons]
        cases hka : (k == a) with
        | true =>
          have hkeq : k = a := by simpa using hka
          subst hkeq
          by_cases hf : child.isFullB
          · rw [if_pos hf] at h
            subst h
            show List.lookup k tail =
              (match bv0.union ((mc.lookup k).getD SubPatSet.Full) with
               | none => none
               | some w => if w.isFullB then none else some w)
            rw [hu]
            show List.lookup k tail = (if child.isFullB then none else some child)
            rw [if_pos hf]
            exact seqGoLookupNone ht (Option.isNone_iff_eq_none.mp hnd.1)
          · rw [if_neg hf] at h
            subst h
            show List.lookup k ((k, child) :: tail) =
              (match bv0.union ((mc.lookup k).getD SubPatSet.Full) with
               | none => none
               | some w => if w.isFullB then none else some w)
            rw [hu]
            show List.lookup k ((k, child) :: tail) =
              (if child.isFullB then none else some child)
            rw [if_neg hf, List.lookup_cons]
            simp
        | false =>
          by_cases hf : child.isFullB
          · rw [if_pos hf] at h
            subst h
            exact ih hnd.2 ht
          · rw [if_neg hf] at h
            subst h
            rw [List.lookup_cons, hka]
            exact ih hnd.2 ht

theorem altGoLookup {mb mc m2 : List (Nat × SubPatSet)}
    (hnd : nodupKeysB mb = true) (h : unionAltGo mb mc = some m2) (k : Nat) :
    m2.lookup k =
      (match mb.lookup k with
       | none => none
       | some bv =>
         match bv.union ((mc.lookup k).getD .Empty) with
         | none => none
         | some w => if w.isEmptyB then none else some w) := by
  induction mb generalizing m2 with
  | nil =>
    rw [unionAltGo] at h
    cases h
    simp [List.lookup]
  | cons kv0 rest ih =>
    obtain ⟨a, bv0⟩ := kv0
    rw [nodupKeysB, Bool.and_eq_true] at hnd
    rw [unionAltGo] at h
    cases hu : bv0.union ((mc.lookup a).getD .Empty) with
    | none => rw [hu] at h; simp at h
    | some child =>
      cases ht : unionAltGo rest mc with
      | none => rw [hu, ht] at h; simp at h
      | some tail =>
        rw [hu, ht] at h
        simp at h
        rw [List.lookup_cons]
        cases hka : (k == a) with
        | true =>
          have hkeq : k = a := by simpa using hka
          subst hkeq
          by_cases hf : child.isEmptyB
          · rw [if_pos hf] at h
            subst h
            show List.lookup k tail =
              (match bv0.union ((mc.lookup k).getD SubPatSet.Empty) with
               | none => none
               | some w => if w.isEmptyB then none else some w)
            rw [hu]
            show List.lookup k tail = (if child.isEmptyB then none else some child)
            rw [if_pos hf]
            exact altGoLookupNone ht (Option.isNone_iff_eq_none.mp hnd.1)
          · rw [if_neg hf] at h
            subst h
            show List.lookup k ((k, child) :: tail) =
              (match bv0.union ((mc.lookup k).getD SubPatSet.Empty) with
               | none => none
               | some w => if w.isEmptyB then none else some w)
            rw [hu]
            show List.lookup k ((k, child) :: tail) =
              (if child.isEmptyB then none else some child)
            rw [if_neg hf, List.lookup_cons]
            simp
        | false =>
          by_cases hf : child.isEmptyB
          · rw [if_pos hf] at h
            subst h
            exact ih hnd.2 ht
          · rw [if_neg hf] at h
            subst h
            rw [List.lookup_cons, hka]
            exact ih hnd.2 ht

/-- A `normFull` result that is full is the `Full` constructor. -/
theorem normFull_eq_full {t : SubPatSet} (h : t.normFull.isFullB = true) :
    t.normFull = .Full := by
  rw [SubPatSet.normFull] at h ⊢
  by_cases hf : t.isFullB = true
  · rw [if_pos hf]
  · rw [if_neg hf] at h
    exact absurd h hf

theorem normFull_isFullB (t : SubPatSet) : t.normFull.isFullB = t.isFullB := by
  rw [SubPatSet.normFull]
  by_cases hf : t.isFullB = true
  · rw [if_pos hf, hf]
    rfl
  · rw [if_neg hf]

theorem lookup_of_mem_nodup {m : List (Nat × SubPatSet)} {k : Nat} {v : SubPatSet}
    (hnd : nodupKeysB m = true) (hm : (k, v) ∈ m) : m.lookup k = some v := by
  induction m with
  | nil => simp at hm
  | cons kv r ih =>
    obtain ⟨a, b⟩ := kv
    rw [nodupKeysB, Bool.and_eq_true] at hnd
    rcases List.mem_cons.mp hm with h1 | h1
    · have h1a : k = a := congrArg Prod.fst h1
      have h1b : v = b := congrArg Prod.snd h1
      subst h1a
      subst h1b
      rw [List.lookup_cons]
      simp
    · rw [List.lookup_cons]
      cases hka : (k == a) with
      | true =>
        have : k = a := by simpa using hka
        subst this
        have := lookup_isSome_of_mem h1
        rw [Option.isNone_iff_eq_none.mp hnd.1] at this
        simp at this
      | false => exact ih hnd.2 h1

theorem lookup_filter {m : List (Nat × SubPatSet)} (hnd : nodupKeysB m = true)
    (pred : Nat × SubPatSet → Bool) (k : Nat) :
    (m.filter pred).lookup k =
      (m.lookup k).bind (fun v => if pred (k, v) then some v else none) := by
  induction m with
  | nil => simp
  | cons kv r ih =>
    obtain ⟨a, b⟩ := kv
    rw [nodupKeysB, Bool.and_eq_true] at hnd
    rw [List.filter_cons]
    by_cases hp : pred (a, b)
    · rw [if_pos hp, List.lookup_cons, List.lookup_cons]
      cases hka : (k == a) with
      | true =>
        have : k = a := by simpa using hka
        subst this
        simp [hp]
      | false => exact ih hnd.2
    · rw [if_neg hp, List.lookup_cons]
      cases hka : (k == a) with
      | true =>
        have : k = a := by simpa using hka
        subst this
        rw [lookup_filter_none pred (Option.isNone_iff_eq_none.mp hnd.1)]
        simp [hp]
      | false => exact ih hnd.2

theorem wfFullNotEmpty {x : SubPatSet} (hw : x.wfB = true) (hf : x.isFullB = true) :
    x.isEmptyB = false := by
  cases he : x.isEmptyB
  · rfl
  · exact (wfNotBoth (sizeOf x) (le_refl _) hw he hf).elim

theorem seqGoFullNil {ma mb m1 : List (Nat × SubPatSet)}
    (h : unionSeqGo ma mb = some m1) (hf : (SubPatSet.Seq m1).isFullB = true) :
    m1 = [] := by
  cases hm : m1 with
  | nil => rfl
  | cons kv r =>
    obtain ⟨_, _, _, hnf⟩ := seqGoMem h kv (by rw [hm]; exact List.mem_cons_self _ _)
    rw [isFullB_Seq, allFullGo_eq] at hf
    subst hm
    simp at hf
    rw [hf.1] at hnf
    simp at hnf

theorem bNotTrue {x : Bool} (h : ¬ x = true) : x = false := by
  cases x
  · rfl
  · exact absurd rfl h

/-- The statement of fullness monotonicity, parameterised by a size bound
for the strong induction. -/
def FMStatement (N : Nat) : Prop :=
  ∀ {a b c ab bc r : SubPatSet}, sizeOf a + sizeOf b + sizeOf c ≤ N →
    a.wfB = true → b.wfB = true → c.wfB = true →
    a.compatB b = true → b.compatB c = true → a.compatB c = true →
    a.union b = some ab → b.union c = some bc → a.union bc = some r →
    ab.isFullB = true → r.isFullB = true

/-- The `Seq` kernel of fullness monotonicity: if specialising the first
operand against `mb` makes every retained child full (empty result map),
the same holds against the union `m2` of `mb` and `mc`. -/
theorem fmSeqKernel {N : Nat} (IH : ∀ M, M < N → FMStatement M)
    {mb mc m2 : List (Nat × SubPatSet)}
    (hwb : wfGo mb = true) (hwc : wfGo mc = true)
    (hndb : nodupKeysB mb = true)
    (hcbc : compatMB mb mc = true)
    (hgbc : unionSeqGo mb mc = some m2) :
    ∀ (l m3 : List (Nat × SubPatSet)),
      sizeOf l + sizeOf mb + sizeOf mc + 2 ≤ N →
      wfGo l = true → compatMB l mb = true → compatMB l mc = true →
      unionSeqGo l mb = some [] → unionSeqGo l m2 = some m3 → m3 = [] := by
  intro l
  induction l with
  | nil =>
    intro m3 hsz hwl hc1 hc2 hg1 hg2
    rw [unionSeqGo] at hg2
    cases hg2
    rfl
  | cons kv rest ih =>
    obtain ⟨k, av⟩ := kv
    intro m3 hsz hwl hc1 hc2 hg1 hg2
    rw [wfGo] at hwl
    rw [Bool.and_eq_true] at hwl
    rw [compatMB, Bool.and_eq_true] at hc1 hc2
    rw [unionSeqGo] at hg1 hg2
    cases hu1 : av.union ((mb.lookup k).getD .Full) with
    | none => rw [hu1] at hg1; simp at hg1
    | some child =>
      cases ht1 : unionSeqGo rest mb with
      | none => rw [hu1, ht1] at hg1; simp at hg1
      | some tail1 =>
        rw [hu1, ht1] at hg1
        simp at hg1
        by_cases hcf : child.isFullB
        · rw [if_pos hcf] at hg1
          cases hu2 : av.union ((m2.lookup k).getD .Full) with
          | none => rw [hu2] at hg2; simp at hg2
          | some child2 =>
            cases ht2 : unionSeqGo rest m2 with
            | none => rw [hu2, ht2] at hg2; simp at hg2
            | some tail2 =>
              rw [hu2, ht2] at hg2
              simp at hg2
              have hc2f : child2.isFullB = true := by
                have hlk := seqGoLookup hndb hgbc k
                cases hbk : mb.lookup k with
                | none =>
                  rw [hbk] at hlk
                  simp only [] at hlk
                  rw [hbk] at hu1
                  rw [hlk] at hu2
                  simp only [Option.getD_none] at hu1 hu2
                  rw [hu1] at hu2
                  cases hu2
                  exact hcf
                | some bv =>
                  obtain ⟨w, hw⟩ := seqGoDefined hgbc (k, bv) (mem_of_lookup hbk)
                  rw [hbk] at hlk
                  simp only [] at hlk
                  rw [hw] at hlk
                  simp only [] at hlk
                  rw [hbk] at hu1
                  simp only [Option.getD_some] at hu1
                  by_cases hwf : w.isFullB
                  · rw [if_pos hwf] at hlk
                    rw [hlk] at hu2
                    simp only [Option.getD_none] at hu2
                    obtain ⟨z, hz, hzf⟩ :=
                      union_full_right_total (s := av) (o := SubPatSet.Full) rfl rfl
                    rw [hz] at hu2
                    cases hu2
                    exact hzf
                  · rw [if_neg hwf] at hlk
                    rw [hlk] at hu2
                    simp only [Option.getD_some] at hu2
                    have hwav : av.wfB = true := hwl.1
                    have hwbv : bv.wfB = true := wfGo_mem hwb (mem_of_lookup hbk)
                    have hwcv : ((mc.lookup k).getD SubPatSet.Full).wfB = true := by
                      cases hl2 : mc.lookup k with
                      | none => rfl
                      | some cv => simpa using wfGo_mem hwc (mem_of_lookup hl2)
                    have hcab : av.compatB bv = true := by
                      have := compatMB_get
                        (show compatMB ((k, av) :: rest) mb = true by
                          rw [compatMB, Bool.and_eq_true]; exact hc1)
                        (List.mem_cons_self _ _) hbk
                      simpa using this
                    have hcbc2 : bv.compatB ((mc.lookup k).getD SubPatSet.Full) = true := by
                      cases hl2 : mc.lookup k with
                      | none => exact compatB_fullish bv
                      | some cv => simpa using compatMB_get hcbc (mem_of_lookup hbk) hl2
                    have hcac : av.compatB ((mc.lookup k).getD SubPatSet.Full) = true := by
                      cases hl2 : mc.lookup k with
                      | none => exact compatB_fullish av
                      | some cv =>
                        have := compatMB_get
                          (show compatMB ((k, av) :: rest) mc = true by
                            rw [compatMB, Bool.and_eq_true]; exact hc2)
                          (List.mem_cons_self _ _) hl2
                        simpa using this
                    have hszc : sizeOf av + sizeOf bv +
                        sizeOf ((mc.lookup k).getD SubPatSet.Full) < N := by
                      have h1 : sizeOf av < sizeOf ((k, av) :: rest) := by
                        simp
                        omega
                      have h2 := lookup_sizeOf_lt hbk
                      have h3 : sizeOf ((mc.lookup k).getD SubPatSet.Full) ≤ sizeOf mc :=
                        getD_sizeOf_le (by simp)
                      omega
                    exact IH _ hszc (le_refl _) hwav hwbv hwcv hcab hcbc2 hcac
                      hu1 hw hu2 hcf
              rw [if_pos hc2f] at hg2
              subst hg2
              rw [hg1] at ht1
              refine ih tail2 ?_ hwl.2 hc1.2 hc2.2 ht1 ht2
              have hrs : sizeOf rest < sizeOf ((k, av) :: rest) := by
                simp
              omega
        · rw [if_neg hcf] at hg1
          simp at hg1
/-- The map produced by the `Alt` arm of `union` (retained entries plus
the other side's leftovers) has distinct keys. -/
theorem altResultNodup {ms mo m' : List (Nat × SubPatSet)}
    (hnds : nodupKeysB ms = true) (hndo : nodupKeysB mo = true)
    (hg : unionAltGo ms mo = some m') :
    nodupKeysB (m' ++ mo.filter (fun kv => (ms.lookup kv.1).isNone)) = true := by
  refine nodupKeysB_append (altGoNodup hg hnds) (nodupKeysB_filter _ hndo) ?_
  intro kv hm
  obtain ⟨sv, hsv, _, _⟩ := altGoMem hg kv hm
  rw [lookup_filter hndo]
  cases hl : mo.lookup kv.1 with
  | none => rfl
  | some w =>
    have := lookup_isSome_of_mem hsv
    simp [this]
    exact ⟨sv, hsv⟩

/-- Key bound for the map produced by the `Alt` arm of `union`. -/
theorem altResultKeysLt {ms mo m' : List (Nat × SubPatSet)} {n : Nat}
    (hks : ∀ kv ∈ ms, kv.1 < n) (hko : ∀ kv ∈ mo, kv.1 < n)
    (hg : unionAltGo ms mo = some m') :
    ∀ kv ∈ m' ++ mo.filter (fun kv => (ms.lookup kv.1).isNone), kv.1 < n := by
  intro kv hm
  rcases List.mem_append.mp hm with h1 | h1
  · obtain ⟨sv, hsv, _, _⟩ := altGoMem hg kv h1
    exact hks (kv.1, sv) hsv
  · exact hko kv (List.mem_filter.mp h1).1

/-- The `Alt` kernel of fullness monotonicity: if the union of the `a` and
`b` alternative maps covers all `n` alternatives fully, so does the union
of `a` with the `b∪c` map.  The counting argument uses that all keys are
distinct and below `n`. -/
theorem fmAltKernel {N : Nat} (IH : ∀ M, M < N → FMStatement M)
    {n : Nat} {ma mb mc m1 m2 m3 : List (Nat × SubPatSet)}
    (hsz : sizeOf ma + sizeOf mb + sizeOf mc + 2 ≤ N)
    (hnda : nodupKeysB ma = true) (hndb : nodupKeysB mb = true)
    (hndc : nodupKeysB mc = true)
    (hka : ∀ kv ∈ ma, kv.1 < n ∧ kv.2.isEmptyB = false)
    (hkb : ∀ kv ∈ mb, kv.1 < n ∧ kv.2.isEmptyB = false)
    (hkc : ∀ kv ∈ mc, kv.1 < n ∧ kv.2.isEmptyB = false)
    (hwa : wfGo ma = true) (hwb : wfGo mb = true) (hwc : wfGo mc = true)
    (hcab : compatMB ma mb = true) (hcbc : compatMB mb mc = true)
    (hcac : compatMB ma mc = true)
    (hgab : unionAltGo ma mb = some m1)
    (hgbc : unionAltGo mb mc = some m2)
    (hgr : unionAltGo ma
      (m2 ++ mc.filter (fun kv => (mb.lookup kv.1).isNone)) = some m3)
    (hlen1 : (m1 ++ mb.filter (fun kv => (ma.lookup kv.1).isNone)).length = n)
    (hall1 : allFullGo (m1 ++ mb.filter (fun kv => (ma.lookup kv.1).isNone)) = true) :
    (m3 ++ (m2 ++ mc.filter (fun kv => (mb.lookup kv.1).isNone)).filter
        (fun kv => (ma.lookup kv.1).isNone)).length = n ∧
    allFullGo (m3 ++ (m2 ++ mc.filter (fun kv => (mb.lookup kv.1).isNone)).filter
        (fun kv => (ma.lookup kv.1).isNone)) = true := by
  -- abbreviations as hypotheses-level facts
  have hndM1 : nodupKeysB (m1 ++ mb.filter (fun kv => (ma.lookup kv.1).isNone)) = true :=
    altResultNodup hnda hndb hgab
  have hkM1 : ∀ kv ∈ m1 ++ mb.filter (fun kv => (ma.lookup kv.1).isNone), kv.1 < n :=
    altResultKeysLt (fun kv h => (hka kv h).1) (fun kv h => (hkb kv h).1) hgab
  have hcov : ∀ k, k < n →
      ((m1 ++ mb.filter (fun kv => (ma.lookup kv.1).isNone)).lookup k).isSome = true :=
    keysComplete hndM1 hkM1 hlen1
  have hfullLookup : ∀ k v,
      (m1 ++ mb.filter (fun kv => (ma.lookup kv.1).isNone)).lookup k = some v →
      v.isFullB = true := by
    intro k v hl
    rw [allFullGo_eq, List.all_eq_true] at hall1
    simpa using hall1 (k, v) (mem_of_lookup hl)
  have hndM2 : nodupKeysB (m2 ++ mc.filter (fun kv => (mb.lookup kv.1).isNone)) = true :=
    altResultNodup hndb hndc hgbc
  have hkM2 : ∀ kv ∈ m2 ++ mc.filter (fun kv => (mb.lookup kv.1).isNone), kv.1 < n :=
    altResultKeysLt (fun kv h => (hkb kv h).1) (fun kv h => (hkc kv h).1) hgbc
  -- the value of the b∪c map at a key present in mb
  have hM2some : ∀ k bv, mb.lookup k = some bv →
      ∃ w, bv.union ((mc.lookup k).getD .Empty) = some w ∧
        (m2 ++ mc.filter (fun kv => (mb.lookup kv.1).isNone)).lookup k = some w := by
    intro k bv hbk
    obtain ⟨w, hw⟩ := altGoDefined hgbc (k, bv) (mem_of_lookup hbk)
    refine ⟨w, hw, ?_⟩
    have hwne : w.isEmptyB = false := by
      cases hwe : w.isEmptyB
      · rfl
      · have := emptyMono hw hwe
        rw [(hkb (k, bv) (mem_of_lookup hbk)).2] at this
        simp at this
    have hm2k : m2.lookup k = some w := by
      rw [altGoLookup hndb hgbc k, hbk]
      simp only []
      rw [hw]
      simp only []
      rw [if_neg (by rw [hwne]; simp)]
    rw [lookup_append, hm2k]
    rfl
  -- the value of the b∪c map at a key present only in mc
  have hM2conly : ∀ k cv, mb.lookup k = none → mc.lookup k = some cv →
      (m2 ++ mc.filter (fun kv => (mb.lookup kv.1).isNone)).lookup k = some cv := by
    intro k cv hbk hck
    have hm2k : m2.lookup k = none := by
      rw [altGoLookup hndb hgbc k, hbk]
    rw [lookup_append, hm2k]
    show (mc.filter (fun kv => (mb.lookup kv.1).isNone)).lookup k = some cv
    rw [lookup_filter hndc, hck]
    simp [hbk]
  -- the value of the b∪c map at a key absent from both mb and mc
  have hM2none : ∀ k, mb.lookup k = none → mc.lookup k = none →
      (m2 ++ mc.filter (fun kv => (mb.lookup kv.1).isNone)).lookup k = none := by
    intro k hbk hck
    have hm2k : m2.lookup k = none := by
      rw [altGoLookup hndb hgbc k, hbk]
    rw [lookup_append, hm2k]
    show (mc.filter (fun kv => (mb.lookup kv.1).isNone)).lookup k = none
    rw [lookup_filter hndc, hck]
    rfl
  -- the a∪b map at a key present in ma: the retained child, which is full
  have hM1a : ∀ k av, ma.lookup k = some av →
      ∃ ch, av.union ((mb.lookup k).getD .Empty) = some ch ∧
        m1.lookup k = some ch ∧ ch.isFullB = true := by
    intro k av hak
    obtain ⟨ch, hch⟩ := altGoDefined hgab (k, av) (mem_of_lookup hak)
    have hchne : ch.isEmptyB = false := by
      cases hce : ch.isEmptyB
      · rfl
      · have := emptyMono hch hce
        rw [(hka (k, av) (mem_of_lookup hak)).2] at this
        simp at this
    have hm1k : m1.lookup k = some ch := by
      rw [altGoLookup hnda hgab k, hak]
      simp only []
      rw [hch]
      simp only []
      rw [if_neg (by rw [hchne]; simp)]
    refine ⟨ch, hch, hm1k, ?_⟩
    apply hfullLookup k ch
    rw [lookup_append, hm1k]
    rfl
  -- the a∪b map at a key present only in mb
  have hM1b : ∀ k bv, ma.lookup k = none → mb.lookup k = some bv →
      (m1 ++ mb.filter (fun kv => (ma.lookup kv.1).isNone)).lookup k = some bv := by
    intro k bv hak hbk
    have hm1k : m1.lookup k = none := by
      rw [altGoLookup hnda hgab k, hak]
    rw [lookup_append, hm1k]
    show (mb.filter (fun kv => (ma.lookup kv.1).isNone)).lookup k = some bv
    rw [lookup_filter hndb, hbk]
    simp [hak]
  constructor
  · -- length of the result map is n
    refine lenOfComplete (altResultNodup hnda hndM2 hgr)
      (altResultKeysLt (fun kv h => (hka kv h).1) hkM2 hgr) ?_
    intro k hk
    have hc1 := hcov k hk
    rw [lookup_append] at hc1
    cases hak : ma.lookup k with
    | some av =>
      -- k is retained in m3
      obtain ⟨z, hz⟩ := altGoDefined hgr (k, av) (mem_of_lookup hak)
      have hzne : z.isEmptyB = false := by
        cases hze : z.isEmptyB
        · rfl
        · have := emptyMono hz hze
          rw [(hka (k, av) (mem_of_lookup hak)).2] at this
          simp at this
      have hm3k : m3.lookup k = some z := by
        rw [altGoLookup hnda hgr k, hak]
        simp only []
        rw [hz]
        simp only []
        rw [if_neg (by rw [hzne]; simp)]
      rw [lookup_append, hm3k]
      simp
    | none =>
      -- k must come from mb (it cannot come only from mc, by coverage)
      have hm1k : m1.lookup k = none := by
        rw [altGoLookup hnda hgab k, hak]
      rw [hm1k] at hc1
      have hc2 : ((mb.filter (fun kv => (ma.lookup kv.1).isNone)).lookup k).isSome =
          true := hc1
      rw [lookup_filter hndb] at hc2
      cases hbk : mb.lookup k with
      | none => rw [hbk] at hc2; simp at hc2
      | some bv =>
        obtain ⟨w, hw, hM2k⟩ := hM2some k bv hbk
        have hm3k : m3.lookup k = none := by
          rw [altGoLookup hnda hgr k, hak]
        rw [lookup_append, hm3k]
        show (((m2 ++ mc.filter (fun kv => (mb.lookup kv.1).isNone)).filter
          (fun kv => (ma.lookup kv.1).isNone)).lookup k).isSome = true
        rw [lookup_filter hndM2, hM2k]
        simp [hak]
  · -- all children of the result map are full
    rw [allFullGo_eq, List.all_eq_true]
    intro kv hm
    rcases List.mem_append.mp hm with h1 | h1
    · -- retained entries: induction hypothesis or direct guard computation
      obtain ⟨av, hav, hu, _⟩ := altGoMem hgr kv h1
      have hak : ma.lookup kv.1 = some av := lookup_of_mem_nodup hnda hav
      obtain ⟨ch, hch, hm1k, hchf⟩ := hM1a kv.1 av hak
      cases hbk : mb.lookup kv.1 with
      | some bv =>
        obtain ⟨w, hw, hM2k⟩ := hM2some kv.1 bv hbk
        rw [hM2k] at hu
        simp only [Option.getD_some] at hu
        rw [hbk] at hch
        simp only [Option.getD_some] at hch
        -- child-level fullness monotonicity
        have hwav : av.wfB = true := wfGo_mem hwa hav
        have hwbv : bv.wfB = true := wfGo_mem hwb (mem_of_lookup hbk)
        have hwcv : ((mc.lookup kv.1).getD SubPatSet.Empty).wfB = true := by
          cases hl2 : mc.lookup kv.1 with
          | none => rfl
          | some cv => simpa using wfGo_mem hwc (mem_of_lookup hl2)
        have hcab2 : av.compatB bv = true := compatMB_get hcab hav hbk
        have hcbc2 : bv.compatB ((mc.lookup kv.1).getD SubPatSet.Empty) = true := by
          cases hl2 : mc.lookup kv.1 with
          | none => exact compatB_emptyish bv
          | some cv => simpa using compatMB_get hcbc (mem_of_lookup hbk) hl2
        have hcac2 : av.compatB ((mc.lookup kv.1).getD SubPatSet.Empty) = true := by
          cases hl2 : mc.lookup kv.1 with
          | none => exact compatB_emptyish av
          | some cv => simpa using compatMB_get hcac hav hl2
        have hszc : sizeOf av + sizeOf bv +
            sizeOf ((mc.lookup kv.1).getD SubPatSet.Empty) < N := by
          have h1a := mem_sizeOf_lt hav
          have h2a := lookup_sizeOf_lt hbk
          have h3a : sizeOf ((mc.lookup kv.1).getD SubPatSet.Empty) ≤ sizeOf mc :=
            getD_sizeOf_le (by simp)
          omega
        exact IH _ hszc (le_refl _) hwav hwbv hwcv hcab2 hcbc2 hcac2 hch hw hu hchf
      | none =>
        -- av itself is full, and the b∪c value (if any) is absorbed
        rw [hbk] at hch
        simp only [Option.getD_none] at hch
        rw [union_empty_right isEmptyB_Empty] at hch
        cases hch
        cases hck : mc.lookup kv.1 with
        | some cv =>
          rw [hM2conly kv.1 cv hbk hck] at hu
          simp only [Option.getD_some] at hu
          rw [union_full_left hchf] at hu
          cases hu
          exact hchf
        | none =>
          rw [hM2none kv.1 hbk hck] at hu
          simp only [Option.getD_none] at hu
          rw [union_empty_right isEmptyB_Empty] at hu
          cases hu
          exact hchf
    · -- leftovers of the b∪c map
      have h1f := List.mem_filter.mp h1
      have hak : ma.lookup kv.1 = none := by
        have := h1f.2
        simpa using this
      rcases List.mem_append.mp h1f.1 with h2 | h2
      · -- entry retained from mb in m2: the mb child is full and absorbs
        obtain ⟨bv, hbv, hu, _⟩ := altGoMem hgbc kv h2
        have hbk : mb.lookup kv.1 = some bv := lookup_of_mem_nodup hndb hbv
        have hbvf : bv.isFullB = true := by
          apply hfullLookup kv.1 bv
          exact hM1b kv.1 bv hak hbk
        rw [union_full_left hbvf] at hu
        cases hu
        exact hbvf
      · -- entry only in mc: impossible, the a∪b map would miss alternative k
        have h2f := List.mem_filter.mp h2
        have hbk : mb.lookup kv.1 = none := by
          have := h2f.2
          simpa using this
        have hklt : kv.1 < n := (hkc kv h2f.1).1
        have hc1 := hcov kv.1 hklt
        rw [lookup_append] at hc1
        have hm1k : m1.lookup kv.1 = none := by
          rw [altGoLookup hnda hgab kv.1, hak]
        rw [hm1k] at hc1
        have hc2 : ((mb.filter (fun kv => (ma.lookup kv.1).isNone)).lookup kv.1).isSome =
            true := hc1
        rw [lookup_filter hndb, hbk] at hc2
        simp at hc2

/-- Fullness monotonicity: growing the right operand of a union cannot
lose fullness of the result. -/
theorem fullMonoAux : ∀ (N : Nat), FMStatement N := by
  intro N
  induction N using Nat.strong_induction_on with
  | _ N IH =>
    intro a b c ab bc r hN hwa hwb hwc hcab hcbc hcac hab hbc hr hfull
    have hab0 := hab
    rw [union_eq] at hab
    by_cases g1 : (a.isFullB || b.isEmptyB) = true
    · rw [if_pos g1] at hab
      cases hab
      rw [union_full_left hfull] at hr
      cases hr
      exact hfull
    · rw [if_neg g1] at hab
      have g1a : a.isFullB = false := by
        cases h : a.isFullB
        · rfl
        · rw [h] at g1; simp at g1
      have g1b : b.isEmptyB = false := by
        cases h : b.isEmptyB
        · rfl
        · rw [h] at g1; simp at g1
      by_cases g2 : a.isEmptyB = true
      · rw [if_pos g2] at hab
        cases hab
        rw [union_full_left hfull] at hbc
        cases hbc
        rw [hab0] at hr
        cases hr
        exact hfull
      · rw [if_neg g2] at hab
        by_cases g3 : b.isFullB = true
        · rw [if_pos g3] at hab
          cases hab
          rw [union_full_left g3] at hbc
          cases hbc
          rw [hab0] at hr
          cases hr
          exact hfull
        · rw [if_neg g3] at hab
          -- both operands of the first union are maps
          by_cases h1c : c.isEmptyB = true
          · rw [union_empty_right h1c] at hbc
            cases hbc
            rw [hab0] at hr
            cases hr
            exact hfull
          · by_cases h2c : c.isFullB = true
            · rw [union_full_right h2c (bNotTrue g3) g1b (bNotTrue h1c)] at hbc
              cases hbc
              obtain ⟨z, hz, hzf⟩ := union_full_right_total (s := a)
                (o := SubPatSet.Full) rfl rfl
              rw [hz] at hr
              cases hr
              exact hzf
            · -- c is neither empty nor full; dispatch on the kinds
              match a, b, hN, hab, hwa, hwb, hcab, hcbc, hcac, g1a, g1b, g2, g3 with
              | .Seq ma, .Seq mb, hN, hab, hwa, hwb, hcab, hcbc, hcac, g1a, g1b, g2, g3 =>
                have hab : (unionSeqGo ma mb).map
                    (fun m => (SubPatSet.Seq m).normFull) = some ab := hab
                cases hg1 : unionSeqGo ma mb with
                | none => rw [hg1] at hab; simp at hab
                | some m1 =>
                  rw [hg1] at hab
                  simp at hab
                  subst hab
                  rw [normFull_isFullB] at hfull
                  have hm1nil : m1 = [] := seqGoFullNil hg1 hfull
                  subst hm1nil
                  -- c must be a Seq map
                  match c, hbc, hwc, hcbc, hcac, h1c, h2c with
                  | .Seq mc, hbc, hwc, hcbc, hcac, h1c, h2c =>
                    rw [union_eq] at hbc
                    rw [if_neg (by rw [bNotTrue g3, bNotTrue h1c]; simp), if_neg (by rw [g1b]; simp),
                      if_neg h2c] at hbc
                    have hbc : (unionSeqGo mb mc).map
                        (fun m => (SubPatSet.Seq m).normFull) = some bc := hbc
                    cases hg2 : unionSeqGo mb mc with
                    | none => rw [hg2] at hbc; simp at hbc
                    | some m2 =>
                      rw [hg2] at hbc
                      simp at hbc
                      subst hbc
                      rw [SubPatSet.normFull] at hr
                      by_cases hfm2 : (SubPatSet.Seq m2).isFullB = true
                      · rw [if_pos hfm2] at hr
                        obtain ⟨z, hz, hzf⟩ := union_full_right_total (s := SubPatSet.Seq ma)
                          (o := SubPatSet.Full) rfl rfl
                        rw [hz] at hr
                        cases hr
                        exact hzf
                      · rw [if_neg hfm2] at hr
                        have hm2ne : (SubPatSet.Seq m2).isEmptyB = false := by
                          cases he : (SubPatSet.Seq m2).isEmptyB
                          · rfl
                          · have hun2 : (SubPatSet.Seq mb).union (SubPatSet.Seq mc) =
                                some (SubPatSet.Seq m2) := by
                              rw [union_eq]
                              rw [if_neg (by rw [bNotTrue g3, bNotTrue h1c]; simp),
                                if_neg (by rw [g1b]; simp), if_neg h2c]
                              show (unionSeqGo mb mc).map
                                (fun m => (SubPatSet.Seq m).normFull) =
                                some (SubPatSet.Seq m2)
                              rw [hg2]
                              show some (SubPatSet.Seq m2).normFull = some (SubPatSet.Seq m2)
                              rw [SubPatSet.normFull, if_neg hfm2]
                            have := emptyMono hun2 he
                            rw [g1b] at this
                            simp at this
                        rw [union_eq] at hr
                        rw [if_neg (by rw [g1a, hm2ne]; simp), if_neg g2,
                          if_neg hfm2] at hr
                        have hr : (unionSeqGo ma m2).map
                            (fun m => (SubPatSet.Seq m).normFull) = some r := hr
                        cases hg3 : unionSeqGo ma m2 with
                        | none => rw [hg3] at hr; simp at hr
                        | some m3 =>
                          rw [hg3] at hr
                          simp at hr
                          subst hr
                          rw [wfB_Seq, Bool.and_eq_true] at hwa hwb hwc
                          rw [compatB_Seq] at hcab hcbc hcac
                          have hm3nil : m3 = [] := by
                            refine fmSeqKernel IH hwb.2 hwc.2 hwb.1 hcbc hg2 ma m3 ?_
                              hwa.2 hcab hcac hg1 hg3
                            simp at hN
                            omega
                          subst hm3nil
                          rw [normFull_isFullB]
                          rfl
              | .Alt ma n p, .Alt mb n2 p2, hN, hab, hwa, hwb, hcab, hcbc, hcac, g1a, g1b, g2, g3 =>
                rw [compatB_Alt, Bool.and_eq_true] at hcab
                have hnn : n = n2 := by
                  have := hcab.1
                  simp at this
                  omega
                subst hnn
                have hab : (unionAltGo ma mb).map (fun m =>
                    (SubPatSet.Alt (m ++ mb.filter (fun kv => (ma.lookup kv.1).isNone)) n p).normFull) =
                    some ab := hab
                cases hg1 : unionAltGo ma mb with
                | none => rw [hg1] at hab; simp at hab
                | some m1 =>
                  rw [hg1] at hab
                  simp at hab
                  subst hab
                  rw [normFull_isFullB, isFullB_Alt, Bool.and_eq_true] at hfull
                  have hlen1 : (m1 ++ mb.filter (fun kv => (ma.lookup kv.1).isNone)).length = n := by
                    have := hfull.1
                    simpa using this
                  have hall1 := hfull.2
                  match c, hbc, hwc, hcbc, hcac, h1c, h2c with
                  | .Alt mc n3 p3, hbc, hwc, hcbc, hcac, h1c, h2c =>
                    rw [compatB_Alt, Bool.and_eq_true] at hcbc hcac
                    have hnn3 : n = n3 := by
                      have := hcbc.1
                      simp at this
                      omega
                    subst hnn3
                    rw [union_eq] at hbc
                    rw [if_neg (by rw [bNotTrue g3, bNotTrue h1c]; simp), if_neg (by rw [g1b]; simp),
                      if_neg h2c] at hbc
                    have hbc : (unionAltGo mb mc).map (fun m =>
                        (SubPatSet.Alt (m ++ mc.filter (fun kv => (mb.lookup kv.1).isNone)) n p2).normFull) =
                        some bc := hbc
                    cases hg2 : unionAltGo mb mc with
                    | none => rw [hg2] at hbc; simp at hbc
                    | some m2 =>
                      rw [hg2] at hbc
                      simp at hbc
                      subst hbc
                      rw [SubPatSet.normFull] at hr
                      by_cases hfm2 : (SubPatSet.Alt
                          (m2 ++ mc.filter (fun kv => (mb.lookup kv.1).isNone)) n p2).isFullB = true
                      · rw [if_pos hfm2] at hr
                        obtain ⟨z, hz, hzf⟩ := union_full_right_total (s := SubPatSet.Alt ma n p)
                          (o := SubPatSet.Full) rfl rfl
                        rw [hz] at hr
                        cases hr
                        exact hzf
                      · rw [if_neg hfm2] at hr
                        have hm2ne : (SubPatSet.Alt
                            (m2 ++ mc.filter (fun kv => (mb.lookup kv.1).isNone)) n p2).isEmptyB = false := by
                          cases he : (SubPatSet.Alt
                              (m2 ++ mc.filter (fun kv => (mb.lookup kv.1).isNone)) n p2).isEmptyB
                          · rfl
                          · have hun2 : (SubPatSet.Alt mb n p2).union (SubPatSet.Alt mc n p3) =
                                some (SubPatSet.Alt
                                  (m2 ++ mc.filter (fun kv => (mb.lookup kv.1).isNone)) n p2) := by
                              rw [union_eq]
                              rw [if_neg (by rw [bNotTrue g3, bNotTrue h1c]; simp),
                                if_neg (by rw [g1b]; simp), if_neg h2c]
                              show (unionAltGo mb mc).map (fun m =>
                                (SubPatSet.Alt (m ++ mc.filter (fun kv => (mb.lookup kv.1).isNone)) n p2).normFull) =
                                some (SubPatSet.Alt
                                  (m2 ++ mc.filter (fun kv => (mb.lookup kv.1).isNone)) n p2)
                              rw [hg2]
                              show some (SubPatSet.Alt
                                (m2 ++ mc.filter (fun kv => (mb.lookup kv.1).isNone)) n p2).normFull =
                                some (SubPatSet.Alt
                                  (m2 ++ mc.filter (fun kv => (mb.lookup kv.1).isNone)) n p2)
                              rw [SubPatSet.normFull, if_neg hfm2]
                            have := emptyMono hun2 he
                            rw [g1b] at this
                            simp at this
                        rw [union_eq] at hr
                        rw [if_neg (by rw [g1a, hm2ne]; simp), if_neg g2,
                          if_neg hfm2] at hr
                        have hr : (unionAltGo ma
                            (m2 ++ mc.filter (fun kv => (mb.lookup kv.1).isNone))).map (fun m =>
                            (SubPatSet.Alt (m ++ (m2 ++ mc.filter (fun kv => (mb.lookup kv.1).isNone)).filter
                              (fun kv => (ma.lookup kv.1).isNone)) n p).normFull) =
                            some r := hr
                        cases hg3 : unionAltGo ma
                            (m2 ++ mc.filter (fun kv => (mb.lookup kv.1).isNone)) with
                        | none => rw [hg3] at hr; simp at hr
                        | some m3 =>
                          rw [hg3] at hr
                          simp at hr
                          subst hr
                          rw [wfB_Alt] at hwa hwb hwc
                          simp only [Bool.and_eq_true] at hwa hwb hwc
                          obtain ⟨⟨⟨hna, hnda⟩, hconda⟩, hwga⟩ := hwa
                          obtain ⟨⟨⟨hnb, hndb⟩, hcondb⟩, hwgb⟩ := hwb
                          obtain ⟨⟨⟨hnc, hndc⟩, hcondc⟩, hwgc⟩ := hwc
                          have hka : ∀ kv ∈ ma, kv.1 < n ∧ kv.2.isEmptyB = false := by
                            intro kv hm
                            have := List.all_eq_true.mp hconda kv hm
                            simp only [Bool.and_eq_true] at this
                            exact ⟨by simpa using this.1, by simpa using this.2⟩
                          have hkb : ∀ kv ∈ mb, kv.1 < n ∧ kv.2.isEmptyB = false := by
                            intro kv hm
                            have := List.all_eq_true.mp hcondb kv hm
                            simp only [Bool.and_eq_true] at this
                            exact ⟨by simpa using this.1, by simpa using this.2⟩
                          have hkc : ∀ kv ∈ mc, kv.1 < n ∧ kv.2.isEmptyB = false := by
                            intro kv hm
                            have := List.all_eq_true.mp hcondc kv hm
                            simp only [Bool.and_eq_true] at this
                            exact ⟨by simpa using this.1, by simpa using this.2⟩
                          obtain ⟨hlen3, hall3⟩ := fmAltKernel IH (n := n)
                            (by simp at hN; omega)
                            hnda hndb hndc hka hkb hkc hwga hwgb hwgc
                            hcab.2 hcbc.2 hcac.2 hg1 hg2 hg3 hlen1 hall1
                          rw [normFull_isFullB, isFullB_Alt, Bool.and_eq_true]
                          simp only [List.filter_append, List.filter_filter] at hlen3 hall3
                          constructor
                          · simpa using hlen3
                          · simpa using hall3
                  | .Seq _, hbc, hwc, hcbc, hcac, h1c, h2c =>
                    rw [SubPatSet.compatB] at hcbc
                    simp at hcbc
                  | .Empty, hbc, hwc, hcbc, hcac, h1c, h2c => simp at h1c
                  | .Full, hbc, hwc, hcbc, hcac, h1c, h2c => simp at h2c
              | .Seq _, .Alt _ _ _, hN, hab, hwa, hwb, hcab, hcbc, hcac, g1a, g1b, g2, g3 =>
                exact absurd hab (by simp)
              | .Alt _ _ _, .Seq _, hN, hab, hwa, hwb, hcab, hcbc, hcac, g1a, g1b, g2, g3 =>
                exact absurd hab (by simp)
              | .Empty, _, hN, hab, hwa, hwb, hcab, hcbc, hcac, g1a, g1b, g2, g3 => simp at g2
              | .Full, _, hN, hab, hwa, hwb, hcab, hcbc, hcac, g1a, g1b, g2, g3 => simp at g1a
              | .Seq _, .Empty, hN, hab, hwa, hwb, hcab, hcbc, hcac, g1a, g1b, g2, g3 => simp at g1b
              | .Seq _, .Full, hN, hab, hwa, hwb, hcab, hcbc, hcac, g1a, g1b, g2, g3 => simp at g3
              | .Alt _ _ _, .Empty, hN, hab, hwa, hwb, hcab, hcbc, hcac, g1a, g1b, g2, g3 => simp at g1b
              | .Alt _ _ _, .Full, hN, hab, hwa, hwb, hcab, hcbc, hcac, g1a, g1b, g2, g3 => simp at g3

theorem fullMono {a b c ab bc r : SubPatSet}
    (hwa : a.wfB = true) (hwb : b.wfB = true) (hwc : c.wfB = true)
    (hcab : a.compatB b = true) (hcbc : b.compatB c = true)
    (hcac : a.compatB c = true)
    (hab : a.union b = some ab) (hbc : b.union c = some bc)
    (hr : a.union bc = some r) (hfull : ab.isFullB = true) : r.isFullB = true :=
  fullMonoAux (sizeOf a + sizeOf b + sizeOf c) (le_refl _) hwa hwb hwc
    hcab hcbc hcac hab hbc hr hfull

/-- In the `Seq` worker an empty result means every child union was
full. -/
theorem seqGoNil {ms mo : List (Nat × SubPatSet)} (h : unionSeqGo ms mo = some []) :
    ∀ kv ∈ ms, ∃ v, kv.2.union ((mo.lookup kv.1).getD .Full) = some v ∧
      v.isFullB = true := by
  induction ms with
  | nil => simp
  | cons kv rest ih =>
    obtain ⟨k, sv⟩ := kv
    rw [unionSeqGo] at h
    cases hu : sv.union ((mo.lookup k).getD .Full) with
    | none => rw [hu] at h; simp at h
    | some child =>
      cases ht : unionSeqGo rest mo with
      | none => rw [hu, ht] at h; simp at h
      | some tail =>
        rw [hu, ht] at h
        simp at h
        by_cases hf : child.isFullB
        · rw [if_pos hf] at h
          subst h
          intro kv2 hmem
          rcases List.mem_cons.mp hmem with h1 | h1
          · subst h1
            exact ⟨child, hu, hf⟩
          · exact ih ht kv2 h1
        · rw [if_neg hf] at h
          simp at h

/-- If every retained child union against `mo` is full, the `Seq` worker
returns the empty map. -/
theorem seqGoAllFull {l mo m3 : List (Nat × SubPatSet)}
    (hall : ∀ kv ∈ l, ∀ z, kv.2.union ((mo.lookup kv.1).getD .Full) = some z →
      z.isFullB = true)
    (h : unionSeqGo l mo = some m3) : m3 = [] := by
  induction l generalizing m3 with
  | nil =>
    rw [unionSeqGo] at h
    cases h
    rfl
  | cons kv rest ih =>
    obtain ⟨k, sv⟩ := kv
    rw [unionSeqGo] at h
    cases hu : sv.union ((mo.lookup k).getD .Full) with
    | none => rw [hu] at h; simp at h
    | some child =>
      cases ht : unionSeqGo rest mo with
      | none => rw [hu, ht] at h; simp at h
      | some tail =>
        rw [hu, ht] at h
        simp at h
        have hcf : child.isFullB = true :=
          hall (k, sv) (List.mem_cons_self _ _) child hu
        rw [if_pos hcf] at h
        subst h
        exact ih (fun kv2 hm => hall kv2 (List.mem_cons_of_mem _ hm)) ht

/-- The `Alt` worker distributes over appending of the first map. -/
theorem altGoAppend {l1 l2 mo x : List (Nat × SubPatSet)}
    (h : unionAltGo (l1 ++ l2) mo = some x) :
    ∃ x1 x2, unionAltGo l1 mo = some x1 ∧ unionAltGo l2 mo = some x2 ∧
      x = x1 ++ x2 := by
  induction l1 generalizing x with
  | nil =>
    exact ⟨[], x, by rw [unionAltGo], h, rfl⟩
  | cons kv rest ih =>
    obtain ⟨k, sv⟩ := kv
    rw [List.cons_append, unionAltGo] at h
    cases hu : sv.union ((mo.lookup k).getD .Empty) with
    | none => rw [hu] at h; simp at h
    | some child =>
      cases ht : unionAltGo (rest ++ l2) mo with
      | none => rw [hu, ht] at h; simp at h
      | some tail =>
        rw [hu, ht] at h
        simp at h
        obtain ⟨x1, x2, hx1, hx2, hx⟩ := ih ht
        by_cases hf : child.isEmptyB
        · rw [if_pos hf] at h
          subst h
          refine ⟨x1, x2, ?_, hx2, hx⟩
          rw [unionAltGo, hu, hx1]
          simp
          exact hf
        · rw [if_neg hf] at h
          subst h
          refine ⟨(k, child) :: x1, x2, ?_, hx2, by rw [hx]; rfl⟩
          rw [unionAltGo, hu, hx1]
          simp
          exact bNotTrue hf

/-- The statement of associativity of `union` on well-formed compatible
sets, parameterised by a size bound for the strong induction. -/
def AssocStatement (N : Nat) : Prop :=
  ∀ {a b c ab bc u v : SubPatSet}, sizeOf a + sizeOf b + sizeOf c ≤ N →
    a.wfB = true → b.wfB = true → c.wfB = true →
    a.compatB b = true → b.compatB c = true → a.compatB c = true →
    a.union b = some ab → b.union c = some bc →
    ab.union c = some u → a.union bc = some v → u = v

/-- The `Seq` kernel of associativity: specialising `l` first against `mb`
and then against `mc` retains the same entries, with the same values, as
specialising `l` once against the union `m2` of `mb` and `mc`. -/
theorem assocSeqKernel {N : Nat} (IH : ∀ M, M < N → AssocStatement M)
    {mb mc m2 : List (Nat × SubPatSet)}
    (hwb : wfGo mb = true) (hwc : wfGo mc = true)
    (hndb : nodupKeysB mb = true)
    (hcbc : compatMB mb mc = true)
    (hgbc : unionSeqGo mb mc = some m2) :
    ∀ (l m1 m3 m4 : List (Nat × SubPatSet)),
      sizeOf l + sizeOf mb + sizeOf mc + 2 ≤ N →
      wfGo l = true → compatMB l mb = true → compatMB l mc = true →
      unionSeqGo l mb = some m1 →
      unionSeqGo m1 mc = some m3 → unionSeqGo l m2 = some m4 → m3 = m4 := by
  intro l
  induction l with
  | nil =>
    intro m1 m3 m4 hsz hwl hc1 hc2 hg1 hgl hgr
    rw [unionSeqGo] at hg1
    cases hg1
    rw [unionSeqGo] at hgl hgr
    cases hgl
    cases hgr
    rfl
  | cons kv rest ih =>
    obtain ⟨k, av⟩ := kv
    intro m1 m3 m4 hsz hwl hc1 hc2 hg1 hgl hgr
    rw [wfGo, Bool.and_eq_true] at hwl
    rw [compatMB, Bool.and_eq_true] at hc1 hc2
    have hszr : sizeOf rest + sizeOf mb + sizeOf mc + 2 ≤ N := by
      have h1 : sizeOf rest < sizeOf ((k, av) :: rest) := by simp
      omega
    rw [unionSeqGo] at hg1 hgr
    cases hu1 : av.union ((mb.lookup k).getD .Full) with
    | none => rw [hu1] at hg1; simp at hg1
    | some v =>
      cases ht1 : unionSeqGo rest mb with
      | none => rw [hu1, ht1] at hg1; simp at hg1
      | some m1t =>
        rw [hu1, ht1] at hg1
        simp at hg1
        cases hu2 : av.union ((m2.lookup k).getD .Full) with
        | none => rw [hu2] at hgr; simp at hgr
        | some v2 =>
          cases ht2 : unionSeqGo rest m2 with
          | none => rw [hu2, ht2] at hgr; simp at hgr
          | some m4t =>
            rw [hu2, ht2] at hgr
            simp at hgr
            have hwav : av.wfB = true := hwl.1
            have hlk := seqGoLookup hndb hgbc k
            cases hbk : mb.lookup k with
            | none =>
              rw [hbk] at hlk
              simp only [] at hlk
              rw [hbk] at hu1
              simp only [Option.getD_none] at hu1
              rw [hlk] at hu2
              simp only [Option.getD_none] at hu2
              obtain ⟨z0, hz0, hz0f⟩ :=
                union_full_right_total (s := av) (o := SubPatSet.Full) rfl rfl
              have hveq : v2 = v := by
                rw [hu1] at hu2
                cases hu2
                rfl
              subst hveq
              rw [hu1] at hz0
              cases hz0
              rw [if_pos hz0f] at hg1 hgr
              subst hg1
              subst hgr
              exact ih m1t m3 m4t hszr hwl.2 hc1.2 hc2.2 ht1 hgl ht2
            | some bv =>
              rw [hbk] at hlk hu1
              simp only [Option.getD_some] at hu1
              simp only [] at hlk
              obtain ⟨w, hw⟩ := seqGoDefined hgbc (k, bv) (mem_of_lookup hbk)
              rw [hw] at hlk
              simp only [] at hlk
              have hwbv : bv.wfB = true := wfGo_mem hwb (mem_of_lookup hbk)
              have hwcv : ((mc.lookup k).getD SubPatSet.Full).wfB = true := by
                cases hl2 : mc.lookup k with
                | none => rfl
                | some cv => simpa using wfGo_mem hwc (mem_of_lookup hl2)
              have hcav : av.compatB bv = true := by
                have := compatMB_get
                  (show compatMB ((k, av) :: rest) mb = true by
                    rw [compatMB, Bool.and_eq_true]; exact hc1)
                  (List.mem_cons_self _ _) hbk
                simpa using this
              have hcbv : bv.compatB ((mc.lookup k).getD SubPatSet.Full) = true := by
                cases hl2 : mc.lookup k with
                | none => exact compatB_fullish bv
                | some cv => simpa using compatMB_get hcbc (mem_of_lookup hbk) hl2
              have hcac2 : av.compatB ((mc.lookup k).getD SubPatSet.Full) = true := by
                cases hl2 : mc.lookup k with
                | none => exact compatB_fullish av
                | some cv =>
                  have := compatMB_get
                    (show compatMB ((k, av) :: rest) mc = true by
                      rw [compatMB, Bool.and_eq_true]; exact hc2)
                    (List.mem_cons_self _ _) hl2
                  simpa using this
              have hszc : sizeOf av + sizeOf bv +
                  sizeOf ((mc.lookup k).getD SubPatSet.Full) < N := by
                have h1 : sizeOf av < sizeOf ((k, av) :: rest) := by
                  simp
                  omega
                have h2 := lookup_sizeOf_lt hbk
                have h3 : sizeOf ((mc.lookup k).getD SubPatSet.Full) ≤ sizeOf mc :=
                  getD_sizeOf_le (by simp)
                omega
              have hwfw : w.wfB = true := wfPres hw hwbv hwcv hcbv
              by_cases hwf : w.isFullB
              · rw [if_pos hwf] at hlk
                rw [hlk] at hu2
                simp only [Option.getD_none] at hu2
                obtain ⟨z0, hz0, hz0f⟩ :=
                  union_full_right_total (s := av) (o := SubPatSet.Full) rfl rfl
                rw [hu2] at hz0
                cases hz0
                rw [if_pos hz0f] at hgr
                by_cases hvf : v.isFullB
                · rw [if_pos hvf] at hg1
                  subst hg1
                  subst hgr
                  exact ih m1t m3 m4t hszr hwl.2 hc1.2 hc2.2 ht1 hgl ht2
                · rw [if_neg hvf] at hg1
                  subst hg1
                  rw [unionSeqGo] at hgl
                  cases hu3 : v.union ((mc.lookup k).getD .Full) with
                  | none => rw [hu3] at hgl; simp at hgl
                  | some z =>
                    cases ht3 : unionSeqGo m1t mc with
                    | none => rw [hu3, ht3] at hgl; simp at hgl
                    | some m3t =>
                      rw [hu3, ht3] at hgl
                      simp at hgl
                      have hwne : w.isEmptyB = false := wfFullNotEmpty hwfw hwf
                      obtain ⟨z2, hz2, hz2f⟩ :=
                        union_full_right_total (s := av) (o := w) hwf hwne
                      have hzeq : z = z2 :=
                        IH _ hszc (le_refl _) hwav hwbv hwcv hcav hcbv hcac2
                          hu1 hw hu3 hz2
                      rw [if_pos (by rw [hzeq]; exact hz2f)] at hgl
                      subst hgl
                      subst hgr
                      exact ih m1t m3t m4t hszr hwl.2 hc1.2 hc2.2 ht1 ht3 ht2
              · rw [if_neg hwf] at hlk
                rw [hlk] at hu2
                simp only [Option.getD_some] at hu2
                by_cases hvf : v.isFullB
                · rw [if_pos hvf] at hg1
                  have hv2f : v2.isFullB = true :=
                    fullMono hwav hwbv hwcv hcav hcbv hcac2 hu1 hw hu2 hvf
                  rw [if_pos hv2f] at hgr
                  subst hg1
                  subst hgr
                  exact ih m1t m3 m4t hszr hwl.2 hc1.2 hc2.2 ht1 hgl ht2
                · rw [if_neg hvf] at hg1
                  subst hg1
                  rw [unionSeqGo] at hgl
                  cases hu3 : v.union ((mc.lookup k).getD .Full) with
                  | none => rw [hu3] at hgl; simp at hgl
                  | some z =>
                    cases ht3 : unionSeqGo m1t mc with
                    | none => rw [hu3, ht3] at hgl; simp at hgl
                    | some m3t =>
                      rw [hu3, ht3] at hgl
                      simp at hgl
                      have hzeq : z = v2 :=
                        IH _ hszc (le_refl _) hwav hwbv hwcv hcav hcbv hcac2
                          hu1 hw hu3 hu2
                      subst hzeq
                      by_cases hzf : z.isFullB
                      · rw [if_pos hzf] at hgl hgr
                        subst hgl
                        subst hgr
                        exact ih m1t m3t m4t hszr hwl.2 hc1.2 hc2.2 ht1 ht3 ht2
                      · rw [if_neg hzf] at hgl hgr
                        have htail : m3t = m4t :=
                          ih m1t m3t m4t hszr hwl.2 hc1.2 hc2.2 ht1 ht3 ht2
                        rw [← hgl, ← hgr, htail]

/-- The `Seq` kernel of the mirrored fullness argument: if specialising
`mb` against `mc` makes every retained child full (empty result map), then
specialising the already-merged map `m1` of `ma` and `mb` against `mc`
also retains nothing. -/
theorem fmSeqKernelL {N : Nat} (IH : ∀ M, M < N → AssocStatement M)
    {ma mb mc m1 m3 : List (Nat × SubPatSet)}
    (hsz : sizeOf ma + sizeOf mb + sizeOf mc + 2 ≤ N)
    (hnda : nodupKeysB ma = true)
    (hwa : wfGo ma = true) (hwb : wfGo mb = true) (hwc : wfGo mc = true)
    (hcab : compatMB ma mb = true) (hcbc : compatMB mb mc = true)
    (hcac : compatMB ma mc = true)
    (hgab : unionSeqGo ma mb = some m1)
    (hgbc : unionSeqGo mb mc = some [])
    (hgl : unionSeqGo m1 mc = some m3) : m3 = [] := by
  refine seqGoAllFull ?_ hgl
  intro kv hm z hz
  obtain ⟨k, v⟩ := kv
  obtain ⟨av, hma, huv, hvnf⟩ := seqGoMem hgab (k, v) hm
  simp only [] at hma huv hvnf hz
  cases hbk : mb.lookup k with
  | none =>
    rw [hbk] at huv
    simp only [Option.getD_none] at huv
    obtain ⟨z0, hz0, hz0f⟩ :=
      union_full_right_total (s := av) (o := SubPatSet.Full) rfl rfl
    rw [huv] at hz0
    cases hz0
    rw [hz0f] at hvnf
    simp at hvnf
  | some bv =>
    rw [hbk] at huv
    simp only [Option.getD_some] at huv
    obtain ⟨w, hw, hwf⟩ := seqGoNil hgbc (k, bv) (mem_of_lookup hbk)
    simp only [] at hw
    have hwav : av.wfB = true := wfGo_mem hwa hma
    have hwbv : bv.wfB = true := wfGo_mem hwb (mem_of_lookup hbk)
    have hwcv : ((mc.lookup k).getD SubPatSet.Full).wfB = true := by
      cases hl2 : mc.lookup k with
      | none => rfl
      | some cv => simpa using wfGo_mem hwc (mem_of_lookup hl2)
    have hcav : av.compatB bv = true :=
      compatMB_get hcab (mem_of_lookup (lookup_of_mem_nodup hnda hma)) hbk
    have hcbv : bv.compatB ((mc.lookup k).getD SubPatSet.Full) = true := by
      cases hl2 : mc.lookup k with
      | none => exact compatB_fullish bv
      | some cv => simpa using compatMB_get hcbc (mem_of_lookup hbk) hl2
    have hcac2 : av.compatB ((mc.lookup k).getD SubPatSet.Full) = true := by
      cases hl2 : mc.lookup k with
      | none => exact compatB_fullish av
      | some cv =>
        simpa using compatMB_get hcac
          (mem_of_lookup (lookup_of_mem_nodup hnda hma)) hl2
    have hszc : sizeOf av + sizeOf bv +
        sizeOf ((mc.lookup k).getD SubPatSet.Full) < N := by
      have h1 := mem_sizeOf_lt hma
      have h2 := lookup_sizeOf_lt hbk
      have h3 : sizeOf ((mc.lookup k).getD SubPatSet.Full) ≤ sizeOf mc :=
        getD_sizeOf_le (by simp)
      omega
    have hwfw : w.wfB = true := wfPres hw hwbv hwcv hcbv
    have hwne : w.isEmptyB = false := wfFullNotEmpty hwfw hwf
    obtain ⟨z2, hz2, hz2f⟩ := union_full_right_total (s := av) (o := w) hwf hwne
    have hzeq : z = z2 :=
      IH _ hszc (le_refl _) hwav hwbv hwcv hcav hcbv hcac2 huv hw hz hz2
    rw [hzeq]
    exact hz2f

/-- Lookup-absence in the map built by the `Alt` arm of `union` (retained
entries plus leftovers) is equivalent to absence from both operand maps,
provided no stored child of the first operand is empty (so the worker
never drops an entry). -/
theorem abMapLookupNone {ma mb m1 : List (Nat × SubPatSet)}
    (hnda : nodupKeysB ma = true) (hndb : nodupKeysB mb = true)
    (hne : ∀ kv ∈ ma, kv.2.isEmptyB = false)
    (hg1 : unionAltGo ma mb = some m1) (k : Nat) :
    ((m1 ++ mb.filter (fun kv => (List.lookup kv.1 ma).isNone)).lookup k).isNone =
      ((List.lookup k ma).isNone && (List.lookup k mb).isNone) := by
  rw [lookup_append]
  have hm1 := altGoLookup hnda hg1 k
  cases hak : ma.lookup k with
  | none =>
    rw [hak] at hm1
    simp only [] at hm1
    rw [hm1]
    show ((mb.filter (fun kv => (List.lookup kv.1 ma).isNone)).lookup k).isNone =
      (true && (List.lookup k mb).isNone)
    rw [lookup_filter hndb]
    cases hbk : mb.lookup k with
    | none => simp
    | some bv => simp [hak]
  | some av =>
    obtain ⟨v, hv⟩ := altGoDefined hg1 (k, av) (mem_of_lookup hak)
    simp only [] at hv
    rw [hak] at hm1
    simp only [] at hm1
    rw [hv] at hm1
    simp only [] at hm1
    have hvne : v.isEmptyB = false := by
      cases hve : v.isEmptyB
      · rfl
      · have := emptyMono hv hve
        rw [hne (k, av) (mem_of_lookup hak)] at this
        simp at this
    rw [if_neg (by rw [hvne]; simp)] at hm1
    rw [hm1]
    simp

/-- Pre-filtering the first operand of the `Alt` worker by a key-only
predicate commutes with filtering the result, provided no child of the
first operand is empty (so no entry is ever dropped). -/
theorem altGoFilterComm {ma mc : List (Nat × SubPatSet)} :
    ∀ {mb m2 x : List (Nat × SubPatSet)},
    (∀ kv ∈ mb, kv.2.isEmptyB = false) →
    unionAltGo mb mc = some m2 →
    unionAltGo (mb.filter (fun kv => (List.lookup kv.1 ma).isNone)) mc = some x →
    x = m2.filter (fun kv => (List.lookup kv.1 ma).isNone) := by
  intro mb
  induction mb with
  | nil =>
    intro m2 x hne hg2 hgx
    rw [unionAltGo] at hg2
    cases hg2
    rw [List.filter_nil, unionAltGo] at hgx
    cases hgx
    rfl
  | cons kv rest ih =>
    intro m2 x hne hg2 hgx
    obtain ⟨k, bv⟩ := kv
    rw [unionAltGo] at hg2
    cases hu : bv.union ((mc.lookup k).getD .Empty) with
    | none => rw [hu] at hg2; simp at hg2
    | some w =>
      cases ht : unionAltGo rest mc with
      | none => rw [hu, ht] at hg2; simp at hg2
      | some m2t =>
        rw [hu, ht] at hg2
        simp at hg2
        have hwne : w.isEmptyB = false := by
          cases hwe : w.isEmptyB
          · rfl
          · have := emptyMono hu hwe
            rw [hne (k, bv) (List.mem_cons_self _ _)] at this
            simp at this
        rw [if_neg (by rw [hwne]; simp)] at hg2
        subst hg2
        rw [List.filter_cons] at hgx
        by_cases hp : ((List.lookup k ma).isNone : Bool) = true
        · rw [if_pos (by simpa using hp)] at hgx
          rw [unionAltGo, hu] at hgx
          cases htx : unionAltGo
              (rest.filter (fun kv => (List.lookup kv.1 ma).isNone)) mc with
          | none => rw [htx] at hgx; simp at hgx
          | some xt =>
            rw [htx] at hgx
            simp at hgx
            rw [if_neg (by rw [hwne]; simp)] at hgx
            subst hgx
            rw [List.filter_cons]
            rw [if_pos (by simpa using hp)]
            rw [ih (fun kv h => hne kv (List.mem_cons_of_mem _ h)) ht htx]
        · rw [if_neg (by simpa using hp)] at hgx
          rw [List.filter_cons]
          rw [if_neg (by simpa using hp)]
          exact ih (fun kv h => hne kv (List.mem_cons_of_mem _ h)) ht hgx

/-- The `Alt` kernel of associativity, first segment: specialising `l`
first against `mb` and then against `mc` gives the same retained entries
as specialising `l` once against the merged map of `mb` and `mc`. -/
theorem assocAltList {N : Nat} (IH : ∀ M, M < N → AssocStatement M)
    {mb mc m2 : List (Nat × SubPatSet)}
    (hwb : wfGo mb = true) (hwc : wfGo mc = true)
    (hndb : nodupKeysB mb = true) (hndc : nodupKeysB mc = true)
    (hkb : ∀ kv ∈ mb, kv.2.isEmptyB = false)
    (hcbc : compatMB mb mc = true)
    (hgbc : unionAltGo mb mc = some m2) :
    ∀ (l m1 x1 m3r : List (Nat × SubPatSet)),
      sizeOf l + sizeOf mb + sizeOf mc + 2 ≤ N →
      wfGo l = true → (∀ kv ∈ l, kv.2.isEmptyB = false) →
      compatMB l mb = true → compatMB l mc = true →
      unionAltGo l mb = some m1 →
      unionAltGo m1 mc = some x1 →
      unionAltGo l
        (m2 ++ mc.filter (fun kv => (List.lookup kv.1 mb).isNone)) = some m3r →
      x1 = m3r := by
  intro l
  induction l with
  | nil =>
    intro m1 x1 m3r hsz hwl hkl hc1 hc2 hg1 hgl hgr
    rw [unionAltGo] at hg1
    cases hg1
    rw [unionAltGo] at hgl hgr
    cases hgl
    cases hgr
    rfl
  | cons kv rest ih =>
    obtain ⟨k, av⟩ := kv
    intro m1 x1 m3r hsz hwl hkl hc1 hc2 hg1 hgl hgr
    rw [wfGo, Bool.and_eq_true] at hwl
    rw [compatMB, Bool.and_eq_true] at hc1 hc2
    have havne : av.isEmptyB = false := hkl (k, av) (List.mem_cons_self _ _)
    have hklt : ∀ kv ∈ rest, kv.2.isEmptyB = false :=
      fun kv h => hkl kv (List.mem_cons_of_mem _ h)
    have hszr : sizeOf rest + sizeOf mb + sizeOf mc + 2 ≤ N := by
      have h1 : sizeOf rest < sizeOf ((k, av) :: rest) := by simp
      omega
    rw [unionAltGo] at hg1 hgr
    cases hu1 : av.union ((mb.lookup k).getD .Empty) with
    | none => rw [hu1] at hg1; simp at hg1
    | some v =>
      cases ht1 : unionAltGo rest mb with
      | none => rw [hu1, ht1] at hg1; simp at hg1
      | some m1t =>
        rw [hu1, ht1] at hg1
        simp at hg1
        have hvne : v.isEmptyB = false := by
          cases hve : v.isEmptyB
          · rfl
          · have := emptyMono hu1 hve
            rw [havne] at this
            simp at this
        rw [if_neg (by rw [hvne]; simp)] at hg1
        subst hg1
        rw [unionAltGo] at hgl
        cases hu3 : v.union ((mc.lookup k).getD .Empty) with
        | none => rw [hu3] at hgl; simp at hgl
        | some z =>
          cases ht3 : unionAltGo m1t mc with
          | none => rw [hu3, ht3] at hgl; simp at hgl
          | some x1t =>
            rw [hu3, ht3] at hgl
            simp at hgl
            have hzne : z.isEmptyB = false := by
              cases hze : z.isEmptyB
              · rfl
              · have := emptyMono hu3 hze
                rw [hvne] at this
                simp at this
            rw [if_neg (by rw [hzne]; simp)] at hgl
            cases hu2 : av.union
                (((m2 ++ mc.filter (fun kv => (List.lookup kv.1 mb).isNone)).lookup k).getD
                  .Empty) with
            | none => rw [hu2] at hgr; simp at hgr
            | some v2 =>
              cases ht2 : unionAltGo rest
                  (m2 ++ mc.filter (fun kv => (List.lookup kv.1 mb).isNone)) with
              | none => rw [hu2, ht2] at hgr; simp at hgr
              | some m3rt =>
                rw [hu2, ht2] at hgr
                simp at hgr
                have hv2ne : v2.isEmptyB = false := by
                  cases hve : v2.isEmptyB
                  · rfl
                  · have := emptyMono hu2 hve
                    rw [havne] at this
                    simp at this
                rw [if_neg (by rw [hv2ne]; simp)] at hgr
                have htail : x1t = m3rt :=
                  ih m1t x1t m3rt hszr hwl.2 hklt hc1.2 hc2.2 ht1 ht3 ht2
                have hzv2 : z = v2 := by
                  cases hbk : mb.lookup k with
                  | some bv =>
                    rw [hbk] at hu1
                    simp only [Option.getD_some] at hu1
                    obtain ⟨w, hw⟩ := altGoDefined hgbc (k, bv) (mem_of_lookup hbk)
                    simp only [] at hw
                    have hwne : w.isEmptyB = false := by
                      cases hwe : w.isEmptyB
                      · rfl
                      · have := emptyMono hw hwe
                        rw [hkb (k, bv) (mem_of_lookup hbk)] at this
                        simp at this
                    have hm2k : m2.lookup k = some w := by
                      rw [altGoLookup hndb hgbc k, hbk]
                      simp only []
                      rw [hw]
                      simp only []
                      rw [if_neg (by rw [hwne]; simp)]
                    have hM2k : (m2 ++ mc.filter
                        (fun kv => (List.lookup kv.1 mb).isNone)).lookup k = some w := by
                      rw [lookup_append, hm2k]
                      rfl
                    rw [hM2k] at hu2
                    simp only [Option.getD_some] at hu2
                    have hwav : av.wfB = true := hwl.1
                    have hwbv : bv.wfB = true := wfGo_mem hwb (mem_of_lookup hbk)
                    have hwcv : ((mc.lookup k).getD SubPatSet.Empty).wfB = true := by
                      cases hl2 : mc.lookup k with
                      | none => rfl
                      | some cv => simpa using wfGo_mem hwc (mem_of_lookup hl2)
                    have hcav : av.compatB bv = true := by
                      have := compatMB_get
                        (show compatMB ((k, av) :: rest) mb = true by
                          rw [compatMB, Bool.and_eq_true]; exact hc1)
                        (List.mem_cons_self _ _) hbk
                      simpa using this
                    have hcbv : bv.compatB ((mc.lookup k).getD SubPatSet.Empty) = true := by
                      cases hl2 : mc.lookup k with
                      | none => exact compatB_emptyish bv
                      | some cv => simpa using compatMB_get hcbc (mem_of_lookup hbk) hl2
                    have hcac2 : av.compatB ((mc.lookup k).getD SubPatSet.Empty) = true := by
                      cases hl2 : mc.lookup k with
                      | none => exact compatB_emptyish av
                      | some cv =>
                        have := compatMB_get
                          (show compatMB ((k, av) :: rest) mc = true by
                            rw [compatMB, Bool.and_eq_true]; exact hc2)
                          (List.mem_cons_self _ _) hl2
                        simpa using this
                    have hszc : sizeOf av + sizeOf bv +
                        sizeOf ((mc.lookup k).getD SubPatSet.Empty) < N := by
                      have h1 : sizeOf av < sizeOf ((k, av) :: rest) := by
                        simp
                        omega
                      have h2 := lookup_sizeOf_lt hbk
                      have h3 : sizeOf ((mc.lookup k).getD SubPatSet.Empty) ≤ sizeOf mc :=
                        getD_sizeOf_le (by simp)
                      omega
                    exact IH _ hszc (le_refl _) hwav hwbv hwcv hcav hcbv hcac2
                      hu1 hw hu3 hu2
                  | none =>
                    rw [hbk] at hu1
                    simp only [Option.getD_none] at hu1
                    have hvav : v = av := by
                      rw [union_empty_right isEmptyB_Empty] at hu1
                      cases hu1
                      rfl
                    subst hvav
                    have hm2k : m2.lookup k = none := by
                      rw [altGoLookup hndb hgbc k, hbk]
                    cases hck : mc.lookup k with
                    | some cv =>
                      have hM2k : (m2 ++ mc.filter
                          (fun kv => (List.lookup kv.1 mb).isNone)).lookup k = some cv := by
                        rw [lookup_append, hm2k]
                        show (mc.filter (fun kv => (List.lookup kv.1 mb).isNone)).lookup k =
                          some cv
                        rw [lookup_filter hndc, hck]
                        simp [hbk]
                      rw [hM2k] at hu2
                      simp only [Option.getD_some] at hu2
                      rw [hck] at hu3
                      simp only [Option.getD_some] at hu3
                      rw [hu3] at hu2
                      cases hu2
                      rfl
                    | none =>
                      have hM2k : (m2 ++ mc.filter
                          (fun kv => (List.lookup kv.1 mb).isNone)).lookup k = none := by
                        rw [lookup_append, hm2k]
                        show (mc.filter (fun kv => (List.lookup kv.1 mb).isNone)).lookup k =
                          none
                        rw [lookup_filter hndc, hck]
                        rfl
                      rw [hM2k] at hu2
                      simp only [Option.getD_none] at hu2
                      rw [hck] at hu3
                      simp only [Option.getD_none] at hu3
                      rw [hu3] at hu2
                      cases hu2
                      rfl
                rw [← hgl, ← hgr, htail, hzv2]

/-- The `Alt` kernel of the mirrored fullness argument: if the union of
the `b` and `c` alternative maps covers all `n` alternatives fully, so
does the union of the merged `a∪b` map with the `c` map. -/
theorem fmAltKernelL {N : Nat} (IH : ∀ M, M < N → AssocStatement M)
    {n : Nat} {ma mb mc m1 m2 m3 : List (Nat × SubPatSet)}
    (hsz : sizeOf ma + sizeOf mb + sizeOf mc + 2 ≤ N)
    (hnda : nodupKeysB ma = true) (hndb : nodupKeysB mb = true)
    (hndc : nodupKeysB mc = true)
    (hka : ∀ kv ∈ ma, kv.1 < n ∧ kv.2.isEmptyB = false)
    (hkb : ∀ kv ∈ mb, kv.1 < n ∧ kv.2.isEmptyB = false)
    (hkc : ∀ kv ∈ mc, kv.1 < n ∧ kv.2.isEmptyB = false)
    (hwa : wfGo ma = true) (hwb : wfGo mb = true) (hwc : wfGo mc = true)
    (hcab : compatMB ma mb = true) (hcbc : compatMB mb mc = true)
    (hcac : compatMB ma mc = true)
    (hgab : unionAltGo ma mb = some m1)
    (hgbc : unionAltGo mb mc = some m2)
    (hgl : unionAltGo (m1 ++ mb.filter (fun kv => (ma.lookup kv.1).isNone)) mc =
      some m3)
    (hlen2 : (m2 ++ mc.filter (fun kv => (mb.lookup kv.1).isNone)).length = n)
    (hall2 : allFullGo (m2 ++ mc.filter (fun kv => (mb.lookup kv.1).isNone)) = true) :
    (m3 ++ mc.filter (fun kv =>
      ((m1 ++ mb.filter (fun kv => (ma.lookup kv.1).isNone)).lookup kv.1).isNone)).length
      = n ∧
    allFullGo (m3 ++ mc.filter (fun kv =>
      ((m1 ++ mb.filter (fun kv => (ma.lookup kv.1).isNone)).lookup kv.1).isNone))
      = true := by
  have hndM1 : nodupKeysB (m1 ++ mb.filter (fun kv => (ma.lookup kv.1).isNone)) = true :=
    altResultNodup hnda hndb hgab
  have hkM1 : ∀ kv ∈ m1 ++ mb.filter (fun kv => (ma.lookup kv.1).isNone), kv.1 < n :=
    altResultKeysLt (fun kv h => (hka kv h).1) (fun kv h => (hkb kv h).1) hgab
  have hneM1 : ∀ kv ∈ m1 ++ mb.filter (fun kv => (ma.lookup kv.1).isNone),
      kv.2.isEmptyB = false := by
    intro kv hm
    rcases List.mem_append.mp hm with h1 | h1
    · obtain ⟨_, _, _, h4⟩ := altGoMem hgab kv h1
      exact h4
    · exact (hkb kv (List.mem_filter.mp h1).1).2
  have hndM2 : nodupKeysB (m2 ++ mc.filter (fun kv => (mb.lookup kv.1).isNone)) = true :=
    altResultNodup hndb hndc hgbc
  have hkM2 : ∀ kv ∈ m2 ++ mc.filter (fun kv => (mb.lookup kv.1).isNone), kv.1 < n :=
    altResultKeysLt (fun kv h => (hkb kv h).1) (fun kv h => (hkc kv h).1) hgbc
  have hcov2 : ∀ k, k < n →
      ((m2 ++ mc.filter (fun kv => (mb.lookup kv.1).isNone)).lookup k).isSome = true :=
    keysComplete hndM2 hkM2 hlen2
  have hfull2 : ∀ k v,
      (m2 ++ mc.filter (fun kv => (mb.lookup kv.1).isNone)).lookup k = some v →
      v.isFullB = true := by
    intro k v hl
    rw [allFullGo_eq, List.all_eq_true] at hall2
    simpa using hall2 (k, v) (mem_of_lookup hl)
  have hM2some : ∀ k bv, mb.lookup k = some bv →
      ∃ w, bv.union ((mc.lookup k).getD .Empty) = some w ∧
        (m2 ++ mc.filter (fun kv => (mb.lookup kv.1).isNone)).lookup k = some w := by
    intro k bv hbk
    obtain ⟨w, hw⟩ := altGoDefined hgbc (k, bv) (mem_of_lookup hbk)
    refine ⟨w, hw, ?_⟩
    have hwne : w.isEmptyB = false := by
      cases hwe : w.isEmptyB
      · rfl
      · have := emptyMono hw hwe
        rw [(hkb (k, bv) (mem_of_lookup hbk)).2] at this
        simp at this
    have hm2k : m2.lookup k = some w := by
      rw [altGoLookup hndb hgbc k, hbk]
      simp only []
      rw [hw]
      simp only []
      rw [if_neg (by rw [hwne]; simp)]
    rw [lookup_append, hm2k]
    rfl
  have hM2conly : ∀ k cv, mb.lookup k = none → mc.lookup k = some cv →
      (m2 ++ mc.filter (fun kv => (mb.lookup kv.1).isNone)).lookup k = some cv := by
    intro k cv hbk hck
    have hm2k : m2.lookup k = none := by
      rw [altGoLookup hndb hgbc k, hbk]
    rw [lookup_append, hm2k]
    show (mc.filter (fun kv => (mb.lookup kv.1).isNone)).lookup k = some cv
    rw [lookup_filter hndc, hck]
    simp [hbk]
  have hM2none : ∀ k, mb.lookup k = none → mc.lookup k = none →
      (m2 ++ mc.filter (fun kv => (mb.lookup kv.1).isNone)).lookup k = none := by
    intro k hbk hck
    have hm2k : m2.lookup k = none := by
      rw [altGoLookup hndb hgbc k, hbk]
    rw [lookup_append, hm2k]
    show (mc.filter (fun kv => (mb.lookup kv.1).isNone)).lookup k = none
    rw [lookup_filter hndc, hck]
    rfl
  have hM1a : ∀ k av, ma.lookup k = some av →
      ∃ u, av.union ((mb.lookup k).getD .Empty) = some u ∧
        (m1 ++ mb.filter (fun kv => (ma.lookup kv.1).isNone)).lookup k = some u := by
    intro k av hak
    obtain ⟨u, hu⟩ := altGoDefined hgab (k, av) (mem_of_lookup hak)
    have hune : u.isEmptyB = false := by
      cases hue : u.isEmptyB
      · rfl
      · have := emptyMono hu hue
        rw [(hka (k, av) (mem_of_lookup hak)).2] at this
        simp at this
    have hm1k : m1.lookup k = some u := by
      rw [altGoLookup hnda hgab k, hak]
      simp only []
      rw [hu]
      simp only []
      rw [if_neg (by rw [hune]; simp)]
    refine ⟨u, hu, ?_⟩
    rw [lookup_append, hm1k]
    rfl
  have hM1b : ∀ k bv, ma.lookup k = none → mb.lookup k = some bv →
      (m1 ++ mb.filter (fun kv => (ma.lookup kv.1).isNone)).lookup k = some bv := by
    intro k bv hak hbk
    have hm1k : m1.lookup k = none := by
      rw [altGoLookup hnda hgab k, hak]
    rw [lookup_append, hm1k]
    show (mb.filter (fun kv => (ma.lookup kv.1).isNone)).lookup k = some bv
    rw [lookup_filter hndb, hbk]
    simp [hak]
  have hM1none : ∀ k, ma.lookup k = none → mb.lookup k = none →
      (m1 ++ mb.filter (fun kv => (ma.lookup kv.1).isNone)).lookup k = none := by
    intro k hak hbk
    have hm1k : m1.lookup k = none := by
      rw [altGoLookup hnda hgab k, hak]
    rw [lookup_append, hm1k]
    show (mb.filter (fun kv => (ma.lookup kv.1).isNone)).lookup k = none
    rw [lookup_filter hndb, hbk]
    rfl
  have hMlSome : ∀ k u,
      (m1 ++ mb.filter (fun kv => (ma.lookup kv.1).isNone)).lookup k = some u →
      ∃ z, m3.lookup k = some z := by
    intro k u hM1k
    obtain ⟨z, hz⟩ := altGoDefined hgl (k, u) (mem_of_lookup hM1k)
    have hzne : z.isEmptyB = false := by
      cases hze : z.isEmptyB
      · rfl
      · have := emptyMono hz hze
        rw [hneM1 (k, u) (mem_of_lookup hM1k)] at this
        simp at this
    refine ⟨z, ?_⟩
    rw [altGoLookup hndM1 hgl k, hM1k]
    simp only []
    rw [hz]
    simp only []
    rw [if_neg (by rw [hzne]; simp)]
  constructor
  · refine lenOfComplete (altResultNodup hndM1 hndc hgl)
      (altResultKeysLt hkM1 (fun kv h => (hkc kv h).1) hgl) ?_
    intro k hk
    rw [lookup_append]
    cases hak : ma.lookup k with
    | some av =>
      obtain ⟨u, _, hM1k⟩ := hM1a k av hak
      obtain ⟨z, hm3k⟩ := hMlSome k u hM1k
      rw [hm3k]
      rfl
    | none =>
      cases hbk : mb.lookup k with
      | some bv =>
        obtain ⟨z, hm3k⟩ := hMlSome k bv (hM1b k bv hak hbk)
        rw [hm3k]
        rfl
      | none =>
        cases hck : mc.lookup k with
        | none =>
          have hc2 := hcov2 k hk
          rw [hM2none k hbk hck] at hc2
          simp at hc2
        | some cv =>
          have hm3k : m3.lookup k = none := by
            rw [altGoLookup hndM1 hgl k, hM1none k hak hbk]
          rw [hm3k]
          show ((mc.filter (fun kv =>
            ((m1 ++ mb.filter (fun kv => (ma.lookup kv.1).isNone)).lookup
              kv.1).isNone)).lookup k).isSome = true
          rw [lookup_filter hndc, hck]
          simp [hM1none k hak hbk]
  · rw [allFullGo_eq, List.all_eq_true]
    intro kv hm
    rcases List.mem_append.mp hm with h1 | h1
    · obtain ⟨u, huM1, huz, hzne⟩ := altGoMem hgl kv h1
      rcases List.mem_append.mp huM1 with hu1m | hu1lo
      · obtain ⟨av, hav, hu1, hune⟩ := altGoMem hgab (kv.1, u) hu1m
        simp only [] at hav hu1 hune
        cases hbk : mb.lookup kv.1 with
        | some bv =>
          obtain ⟨w, hw, hM2k⟩ := hM2some kv.1 bv hbk
          have hwf := hfull2 kv.1 w hM2k
          rw [hbk] at hu1
          simp only [Option.getD_some] at hu1
          have hwav : av.wfB = true := wfGo_mem hwa hav
          have hwbv : bv.wfB = true := wfGo_mem hwb (mem_of_lookup hbk)
          have hwcv : ((mc.lookup kv.1).getD SubPatSet.Empty).wfB = true := by
            cases hl2 : mc.lookup kv.1 with
            | none => rfl
            | some cv => simpa using wfGo_mem hwc (mem_of_lookup hl2)
          have hcab2 : av.compatB bv = true := compatMB_get hcab hav hbk
          have hcbc2 : bv.compatB ((mc.lookup kv.1).getD SubPatSet.Empty) = true := by
            cases hl2 : mc.lookup kv.1 with
            | none => exact compatB_emptyish bv
            | some cv => simpa using compatMB_get hcbc (mem_of_lookup hbk) hl2
          have hcac2 : av.compatB ((mc.lookup kv.1).getD SubPatSet.Empty) = true := by
            cases hl2 : mc.lookup kv.1 with
            | none => exact compatB_emptyish av
            | some cv => simpa using compatMB_get hcac hav hl2
          have hszc : sizeOf av + sizeOf bv +
              sizeOf ((mc.lookup kv.1).getD SubPatSet.Empty) < N := by
            have h1a := mem_sizeOf_lt hav
            have h2a := lookup_sizeOf_lt hbk
            have h3a : sizeOf ((mc.lookup kv.1).getD SubPatSet.Empty) ≤ sizeOf mc :=
              getD_sizeOf_le (by simp)
            omega
          have hwfw : w.wfB = true := wfPres hw hwbv hwcv hcbc2
          have hwne : w.isEmptyB = false := wfFullNotEmpty hwfw hwf
          obtain ⟨z2, hz2, hz2f⟩ :=
            union_full_right_total (s := av) (o := w) hwf hwne
          have hzeq : kv.2 = z2 :=
            IH _ hszc (le_refl _) hwav hwbv hwcv hcab2 hcbc2 hcac2 hu1 hw huz hz2
          rw [hzeq]
          exact hz2f
        | none =>
          rw [hbk] at hu1
          simp only [Option.getD_none] at hu1
          rw [union_empty_right isEmptyB_Empty] at hu1
          cases hu1
          cases hck : mc.lookup kv.1 with
          | some cv =>
            have hcvf := hfull2 kv.1 cv (hM2conly kv.1 cv hbk hck)
            have hcvne : cv.isEmptyB = false := (hkc (kv.1, cv) (mem_of_lookup hck)).2
            obtain ⟨z2, hz2, hz2f⟩ :=
              union_full_right_total (s := u) (o := cv) hcvf hcvne
            rw [hck] at huz
            simp only [Option.getD_some] at huz
            rw [huz] at hz2
            cases hz2
            exact hz2f
          | none =>
            have hklt : kv.1 < n := (hka (kv.1, u) hav).1
            have hc2 := hcov2 kv.1 hklt
            rw [hM2none kv.1 hbk hck] at hc2
            simp at hc2
      · have h1f := List.mem_filter.mp hu1lo
        have hbk : mb.lookup kv.1 = some u := lookup_of_mem_nodup hndb h1f.1
        obtain ⟨w, hw, hM2k⟩ := hM2some kv.1 u hbk
        rw [huz] at hw
        cases hw
        exact hfull2 kv.1 kv.2 hM2k
    · have h1f := List.mem_filter.mp h1
      have hnone := h1f.2
      simp only [] at hnone
      rw [abMapLookupNone hnda hndb (fun kv h => (hka kv h).2) hgab kv.1,
        Bool.and_eq_true] at hnone
      have hak : ma.lookup kv.1 = none := Option.isNone_iff_eq_none.mp hnone.1
      have hbk : mb.lookup kv.1 = none := Option.isNone_iff_eq_none.mp hnone.2
      have hck : mc.lookup kv.1 = some kv.2 := lookup_of_mem_nodup hndc h1f.1
      exact hfull2 kv.1 kv.2 (hM2conly kv.1 kv.2 hbk hck)

/-- Associativity of `union` on well-formed, pairwise compatible sets:
whenever all four unions are defined, the two association orders agree on
the nose. -/
theorem assocAux : ∀ (N : Nat), AssocStatement N := by
  intro N
  induction N using Nat.strong_induction_on with
  | _ N IH =>
    intro a b c ab bc u v hN hwa hwb hwc hcab hcbc hcac hab hbc hu hv
    have hab0 := hab
    rw [union_eq] at hab
    by_cases g1 : (a.isFullB || b.isEmptyB) = true
    · rw [if_pos g1] at hab
      cases hab
      by_cases hfa : a.isFullB
      · rw [union_full_left hfa] at hu hv
        cases hu
        cases hv
        rfl
      · have heb : b.isEmptyB = true := by
          rw [bNotTrue hfa] at g1
          simpa using g1
        by_cases hec : c.isEmptyB
        · rw [union_empty_right hec] at hbc hu
          cases hbc
          cases hu
          rw [union_empty_right heb] at hv
          cases hv
          rfl
        · rw [union_empty_left heb (wfNotBothF hwb heb) (bNotTrue hec)] at hbc
          cases hbc
          rw [hu] at hv
          cases hv
          rfl
    · rw [if_neg g1] at hab
      have g1a : a.isFullB = false := by
        cases h : a.isFullB
        · rfl
        · rw [h] at g1; simp at g1
      have g1b : b.isEmptyB = false := by
        cases h : b.isEmptyB
        · rfl
        · rw [h] at g1; simp at g1
      by_cases g2 : a.isEmptyB = true
      · rw [if_pos g2] at hab
        cases hab
        rw [hbc] at hu
        cases hu
        have hbcne : bc.isEmptyB = false := by
          cases he : bc.isEmptyB
          · rfl
          · rw [emptyMono hbc he] at g1b
            simp at g1b
        rw [union_empty_left g2 g1a hbcne] at hv
        cases hv
        rfl
      · rw [if_neg g2] at hab
        by_cases g3 : b.isFullB = true
        · rw [if_pos g3] at hab
          cases hab
          rw [union_full_left g3] at hbc
          cases hbc
          rw [union_full_left isFullB_Full] at hu
          cases hu
          rw [union_full_right g3 g1a (bNotTrue g2) g1b] at hv
          cases hv
          rfl
        · rw [if_neg g3] at hab
          by_cases hc1 : c.isEmptyB = true
          · rw [union_empty_right hc1] at hbc hu
            cases hbc
            cases hu
            rw [hab0] at hv
            cases hv
            rfl
          · -- both operands of the first union are maps
            match a, b, hN, hab, hwa, hwb, hcab, hcbc, hcac, g1a, g1b, g2, g3,
              hab0, hbc, hv with
            | .Seq ma, .Seq mb, hN, hab, hwa, hwb, hcab, hcbc, hcac, g1a, g1b,
                g2, g3, hab0, hbc, hv =>
              have hab : (unionSeqGo ma mb).map
                  (fun m => (SubPatSet.Seq m).normFull) = some ab := hab
              cases hg1 : unionSeqGo ma mb with
              | none => rw [hg1] at hab; simp at hab
              | some m1 =>
                rw [hg1] at hab
                simp at hab
                subst hab
                by_cases hc2 : c.isFullB = true
                · -- c is full: both sides are Full
                  rw [union_full_right hc2 (bNotTrue g3) g1b (bNotTrue hc1)] at hbc
                  cases hbc
                  rw [union_full_right isFullB_Full g1a (bNotTrue g2)
                    isEmptyB_Full] at hv
                  cases hv
                  by_cases hfm1 : (SubPatSet.Seq m1).isFullB = true
                  · rw [show (SubPatSet.Seq m1).normFull = SubPatSet.Full from
                      by rw [SubPatSet.normFull, if_pos hfm1]] at hu
                    rw [union_full_left isFullB_Full] at hu
                    cases hu
                    rfl
                  · rw [show (SubPatSet.Seq m1).normFull = SubPatSet.Seq m1 from
                      by rw [SubPatSet.normFull, if_neg hfm1]] at hu hab0
                    have hEm1 : (SubPatSet.Seq m1).isEmptyB = false := by
                      cases hE : (SubPatSet.Seq m1).isEmptyB
                      · rfl
                      · rw [emptyMono hab0 hE] at g2
                        exact absurd rfl g2
                    rw [union_full_right hc2 (bNotTrue hfm1) hEm1 (bNotTrue hc1)] at hu
                    cases hu
                    rfl
                · -- c is a map too
                  match c, hN, hbc, hwc, hcbc, hcac, hc1, hc2, hu with
                  | .Seq mc, hN, hbc, hwc, hcbc, hcac, hc1, hc2, hu =>
                    have hbcRaw := hbc
                    rw [union_eq] at hbc
                    rw [if_neg (by rw [bNotTrue g3, bNotTrue hc1]; simp),
                      if_neg (by rw [g1b]; simp), if_neg hc2] at hbc
                    have hbc : (unionSeqGo mb mc).map
                        (fun m => (SubPatSet.Seq m).normFull) = some bc := hbc
                    cases hg2 : unionSeqGo mb mc with
                    | none => rw [hg2] at hbc; simp at hbc
                    | some m2 =>
                      rw [hg2] at hbc
                      simp at hbc
                      subst hbc
                      have hwaD := hwa
                      have hwbD := hwb
                      have hwcD := hwc
                      rw [wfB_Seq, Bool.and_eq_true] at hwaD hwbD hwcD
                      have hcabD := hcab
                      have hcbcD := hcbc
                      have hcacD := hcac
                      rw [compatB_Seq] at hcabD hcbcD hcacD
                      have hszK : sizeOf ma + sizeOf mb + sizeOf mc + 2 ≤ N := by
                        simp at hN
                        omega
                      by_cases hfm2 : (SubPatSet.Seq m2).isFullB = true
                      · -- b∪c is promoted to Full
                        rw [show (SubPatSet.Seq m2).normFull = SubPatSet.Full from
                          by rw [SubPatSet.normFull, if_pos hfm2]] at hv
                        rw [union_full_right isFullB_Full g1a (bNotTrue g2)
                          isEmptyB_Full] at hv
                        cases hv
                        by_cases hfm1 : (SubPatSet.Seq m1).isFullB = true
                        · rw [show (SubPatSet.Seq m1).normFull = SubPatSet.Full from
                            by rw [SubPatSet.normFull, if_pos hfm1]] at hu
                          rw [union_full_left isFullB_Full] at hu
                          cases hu
                          rfl
                        · rw [show (SubPatSet.Seq m1).normFull = SubPatSet.Seq m1 from
                            by rw [SubPatSet.normFull, if_neg hfm1]] at hu hab0
                          have hEm1 : (SubPatSet.Seq m1).isEmptyB = false := by
                            cases hE : (SubPatSet.Seq m1).isEmptyB
                            · rfl
                            · rw [emptyMono hab0 hE] at g2
                              exact absurd rfl g2
                          rw [union_eq] at hu
                          rw [if_neg (by rw [bNotTrue hfm1, bNotTrue hc1]; simp),
                            if_neg (by rw [hEm1]; simp), if_neg hc2] at hu
                          have hu : (unionSeqGo m1 mc).map
                              (fun m => (SubPatSet.Seq m).normFull) = some u := hu
                          cases hg3 : unionSeqGo m1 mc with
                          | none => rw [hg3] at hu; simp at hu
                          | some m3 =>
                            rw [hg3] at hu
                            simp at hu
                            subst hu
                            have hm2nil : m2 = [] := seqGoFullNil hg2 hfm2
                            subst hm2nil
                            have hm3nil : m3 = [] :=
                              fmSeqKernelL IH hszK hwaD.1 hwaD.2 hwbD.2 hwcD.2
                                hcabD hcbcD hcacD hg1 hg2 hg3
                            subst hm3nil
                            rw [SubPatSet.normFull,
                              if_pos (by rw [isFullB_Seq, allFullGo_eq]; simp)]
                      · -- b∪c stays a map
                        rw [show (SubPatSet.Seq m2).normFull = SubPatSet.Seq m2 from
                          by rw [SubPatSet.normFull, if_neg hfm2]] at hv hbcRaw
                        have hEm2 : (SubPatSet.Seq m2).isEmptyB = false := by
                          cases hE : (SubPatSet.Seq m2).isEmptyB
                          · rfl
                          · rw [emptyMono hbcRaw hE] at g1b
                            simp at g1b
                        have hvSaved := hv
                        rw [union_eq] at hv
                        rw [if_neg (by rw [g1a, hEm2]; simp), if_neg g2,
                          if_neg hfm2] at hv
                        have hv : (unionSeqGo ma m2).map
                            (fun m => (SubPatSet.Seq m).normFull) = some v := hv
                        cases hg4 : unionSeqGo ma m2 with
                        | none => rw [hg4] at hv; simp at hv
                        | some m4 =>
                          rw [hg4] at hv
                          simp at hv
                          subst hv
                          by_cases hfm1 : (SubPatSet.Seq m1).isFullB = true
                          · rw [show (SubPatSet.Seq m1).normFull = SubPatSet.Full from
                              by rw [SubPatSet.normFull, if_pos hfm1]] at hu
                            rw [union_full_left isFullB_Full] at hu
                            cases hu
                            have hF : (SubPatSet.Seq m4).normFull.isFullB = true :=
                              fullMono hwa hwb hwc hcab hcbc hcac hab0 hbcRaw hvSaved
                                (by rw [normFull_isFullB]; exact hfm1)
                            exact (normFull_eq_full hF).symm
                          · rw [show (SubPatSet.Seq m1).normFull = SubPatSet.Seq m1 from
                              by rw [SubPatSet.normFull, if_neg hfm1]] at hu hab0
                            have hEm1 : (SubPatSet.Seq m1).isEmptyB = false := by
                              cases hE : (SubPatSet.Seq m1).isEmptyB
                              · rfl
                              · rw [emptyMono hab0 hE] at g2
                                exact absurd rfl g2
                            rw [union_eq] at hu
                            rw [if_neg (by rw [bNotTrue hfm1, bNotTrue hc1]; simp),
                              if_neg (by rw [hEm1]; simp), if_neg hc2] at hu
                            have hu : (unionSeqGo m1 mc).map
                                (fun m => (SubPatSet.Seq m).normFull) = some u := hu
                            cases hg3 : unionSeqGo m1 mc with
                            | none => rw [hg3] at hu; simp at hu
                            | some m3 =>
                              rw [hg3] at hu
                              simp at hu
                              subst hu
                              have hm34 : m3 = m4 :=
                                assocSeqKernel IH hwbD.2 hwcD.2 hwbD.1 hcbcD hg2
                                  ma m1 m3 m4 hszK hwaD.2 hcabD hcacD hg1 hg3 hg4
                              rw [hm34]
                  | .Alt _ _ _, hN, hbc, hwc, hcbc, hcac, hc1, hc2, hu =>
                    rw [SubPatSet.compatB] at hcbc
                    simp at hcbc
                  | .Empty, hN, hbc, hwc, hcbc, hcac, hc1, hc2, hu =>
                    exact absurd rfl hc1
                  | .Full, hN, hbc, hwc, hcbc, hcac, hc1, hc2, hu =>
                    exact absurd rfl hc2
            | .Alt ma n p, .Alt mb n2 p2, hN, hab, hwa, hwb, hcab, hcbc, hcac,
                g1a, g1b, g2, g3, hab0, hbc, hv =>
              have hcabD := hcab
              rw [compatB_Alt, Bool.and_eq_true] at hcabD
              have hnn : n = n2 := by
                have := hcabD.1
                simp at this
                omega
              subst hnn
              have hab : (unionAltGo ma mb).map (fun m =>
                  (SubPatSet.Alt (m ++ mb.filter (fun kv => (ma.lookup kv.1).isNone))
                    n p).normFull) = some ab := hab
              cases hg1 : unionAltGo ma mb with
              | none => rw [hg1] at hab; simp at hab
              | some m1 =>
                rw [hg1] at hab
                simp at hab
                subst hab
                by_cases hc2 : c.isFullB = true
                · rw [union_full_right hc2 (bNotTrue g3) g1b (bNotTrue hc1)] at hbc
                  cases hbc
                  rw [union_full_right isFullB_Full g1a (bNotTrue g2)
                    isEmptyB_Full] at hv
                  cases hv
                  by_cases hfm1 : (SubPatSet.Alt
                      (m1 ++ mb.filter (fun kv => (ma.lookup kv.1).isNone)) n p).isFullB = true
                  · rw [show (SubPatSet.Alt
                        (m1 ++ mb.filter (fun kv => (ma.lookup kv.1).isNone)) n p).normFull =
                        SubPatSet.Full from by rw [SubPatSet.normFull, if_pos hfm1]] at hu
                    rw [union_full_left isFullB_Full] at hu
                    cases hu
                    rfl
                  · rw [show (SubPatSet.Alt
                        (m1 ++ mb.filter (fun kv => (ma.lookup kv.1).isNone)) n p).normFull =
                        SubPatSet.Alt (m1 ++ mb.filter (fun kv => (ma.lookup kv.1).isNone)) n p
                        from by rw [SubPatSet.normFull, if_neg hfm1]] at hu hab0
                    have hEm1 : (SubPatSet.Alt
                        (m1 ++ mb.filter (fun kv => (ma.lookup kv.1).isNone)) n p).isEmptyB =
                        false := by
                      cases hE : (SubPatSet.Alt
                          (m1 ++ mb.filter (fun kv => (ma.lookup kv.1).isNone)) n p).isEmptyB
                      · rfl
                      · rw [emptyMono hab0 hE] at g2
                        exact absurd rfl g2
                    rw [union_full_right hc2 (bNotTrue hfm1) hEm1 (bNotTrue hc1)] at hu
                    cases hu
                    rfl
                · match c, hN, hbc, hwc, hcbc, hcac, hc1, hc2, hu with
                  | .Alt mc n3 p3, hN, hbc, hwc, hcbc, hcac, hc1, hc2, hu =>
                    have hcbcD := hcbc
                    have hcacD := hcac
                    rw [compatB_Alt, Bool.and_eq_true] at hcbcD hcacD
                    have hnn3 : n = n3 := by
                      have := hcbcD.1
                      simp at this
                      omega
                    subst hnn3
                    have hbcRaw := hbc
                    rw [union_eq] at hbc
                    rw [if_neg (by rw [bNotTrue g3, bNotTrue hc1]; simp),
                      if_neg (by rw [g1b]; simp), if_neg hc2] at hbc
                    have hbc : (unionAltGo mb mc).map (fun m =>
                        (SubPatSet.Alt (m ++ mc.filter (fun kv => (mb.lookup kv.1).isNone))
                          n p2).normFull) = some bc := hbc
                    cases hg2 : unionAltGo mb mc with
                    | none => rw [hg2] at hbc; simp at hbc
                    | some m2 =>
                      rw [hg2] at hbc
                      simp at hbc
                      subst hbc
                      have hwaD := hwa
                      have hwbD := hwb
                      have hwcD := hwc
                      rw [wfB_Alt] at hwaD hwbD hwcD
                      simp only [Bool.and_eq_true] at hwaD hwbD hwcD
                      obtain ⟨⟨⟨hna, hnda⟩, hconda⟩, hwga⟩ := hwaD
                      obtain ⟨⟨⟨hnb, hndb⟩, hcondb⟩, hwgb⟩ := hwbD
                      obtain ⟨⟨⟨hnc, hndc⟩, hcondc⟩, hwgc⟩ := hwcD
                      have hka : ∀ kv ∈ ma, kv.1 < n ∧ kv.2.isEmptyB = false := by
                        intro kv hm
                        have := List.all_eq_true.mp hconda kv hm
                        simp only [Bool.and_eq_true] at this
                        exact ⟨by simpa using this.1, by simpa using this.2⟩
                      have hkb : ∀ kv ∈ mb, kv.1 < n ∧ kv.2.isEmptyB = false := by
                        intro kv hm
                        have := List.all_eq_true.mp hcondb kv hm
                        simp only [Bool.and_eq_true] at this
                        exact ⟨by simpa using this.1, by simpa using this.2⟩
                      have hkc : ∀ kv ∈ mc, kv.1 < n ∧ kv.2.isEmptyB = false := by
                        intro kv hm
                        have := List.all_eq_true.mp hcondc kv hm
                        simp only [Bool.and_eq_true] at this
                        exact ⟨by simpa using this.1, by simpa using this.2⟩
                      have hszK : sizeOf ma + sizeOf mb + sizeOf mc + 2 ≤ N := by
                        simp at hN
                        omega
                      by_cases hfm2 : (SubPatSet.Alt
                          (m2 ++ mc.filter (fun kv => (mb.lookup kv.1).isNone)) n p2).isFullB =
                          true
                      · rw [show (SubPatSet.Alt
                            (m2 ++ mc.filter (fun kv => (mb.lookup kv.1).isNone)) n p2).normFull =
                            SubPatSet.Full from by rw [SubPatSet.normFull, if_pos hfm2]] at hv
                        rw [union_full_right isFullB_Full g1a (bNotTrue g2)
                          isEmptyB_Full] at hv
                        cases hv
                        by_cases hfm1 : (SubPatSet.Alt
                            (m1 ++ mb.filter (fun kv => (ma.lookup kv.1).isNone)) n p).isFullB =
                            true
                        · rw [show (SubPatSet.Alt
                              (m1 ++ mb.filter (fun kv => (ma.lookup kv.1).isNone)) n p).normFull =
                              SubPatSet.Full from by rw [SubPatSet.normFull, if_pos hfm1]] at hu
                          rw [union_full_left isFullB_Full] at hu
                          cases hu
                          rfl
                        · rw [show (SubPatSet.Alt
                              (m1 ++ mb.filter (fun kv => (ma.lookup kv.1).isNone)) n p).normFull =
                              SubPatSet.Alt (m1 ++ mb.filter (fun kv => (ma.lookup kv.1).isNone)) n p
                              from by rw [SubPatSet.normFull, if_neg hfm1]] at hu hab0
                          have hEm1 : (SubPatSet.Alt
                              (m1 ++ mb.filter (fun kv => (ma.lookup kv.1).isNone)) n p).isEmptyB =
                              false := by
                            cases hE : (SubPatSet.Alt
                                (m1 ++ mb.filter (fun kv => (ma.lookup kv.1).isNone)) n p).isEmptyB
                            · rfl
                            · rw [emptyMono hab0 hE] at g2
                              exact absurd rfl g2
                          rw [union_eq] at hu
                          rw [if_neg (by rw [bNotTrue hfm1, bNotTrue hc1]; simp),
                            if_neg (by rw [hEm1]; simp), if_neg hc2] at hu
                          have hu : (unionAltGo
                              (m1 ++ mb.filter (fun kv => (ma.lookup kv.1).isNone)) mc).map
                              (fun m => (SubPatSet.Alt (m ++ mc.filter (fun kv =>
                                ((m1 ++ mb.filter (fun kv => (ma.lookup kv.1).isNone)).lookup
                                  kv.1).isNone)) n p).normFull) = some u := hu
                          cases hg3 : unionAltGo
                              (m1 ++ mb.filter (fun kv => (ma.lookup kv.1).isNone)) mc with
                          | none => rw [hg3] at hu; simp at hu
                          | some m3 =>
                            rw [hg3] at hu
                            simp at hu
                            subst hu
                            rw [isFullB_Alt, Bool.and_eq_true] at hfm2
                            have hlen2 : (m2 ++ mc.filter
                                (fun kv => (mb.lookup kv.1).isNone)).length = n := by
                              have := hfm2.1
                              simpa using this
                            obtain ⟨hlen3, hall3⟩ := fmAltKernelL IH (n := n) hszK
                              hnda hndb hndc hka hkb hkc hwga hwgb hwgc
                              hcabD.2 hcbcD.2 hcacD.2 hg1 hg2 hg3 hlen2 hfm2.2
                            refine (normFull_eq_full ?_)
                            rw [normFull_isFullB, isFullB_Alt, Bool.and_eq_true]
                            constructor
                            · simpa using hlen3
                            · exact hall3
                      · rw [show (SubPatSet.Alt
                            (m2 ++ mc.filter (fun kv => (mb.lookup kv.1).isNone)) n p2).normFull =
                            SubPatSet.Alt (m2 ++ mc.filter (fun kv => (mb.lookup kv.1).isNone)) n p2
                            from by rw [SubPatSet.normFull, if_neg hfm2]] at hv hbcRaw
                        have hEm2 : (SubPatSet.Alt
                            (m2 ++ mc.filter (fun kv => (mb.lookup kv.1).isNone)) n p2).isEmptyB =
                            false := by
                          cases hE : (SubPatSet.Alt
                              (m2 ++ mc.filter (fun kv => (mb.lookup kv.1).isNone)) n p2).isEmptyB
                          · rfl
                          · rw [emptyMono hbcRaw hE] at g1b
                            simp at g1b
                        have hvSaved := hv
                        rw [union_eq] at hv
                        rw [if_neg (by rw [g1a, hEm2]; simp), if_neg g2,
                          if_neg hfm2] at hv
                        have hv : (unionAltGo ma
                            (m2 ++ mc.filter (fun kv => (mb.lookup kv.1).isNone))).map
                            (fun m => (SubPatSet.Alt (m ++ (m2 ++ mc.filter (fun kv =>
                              (mb.lookup kv.1).isNone)).filter (fun kv =>
                                (ma.lookup kv.1).isNone)) n p).normFull) = some v := hv
                        cases hg4 : unionAltGo ma
                            (m2 ++ mc.filter (fun kv => (mb.lookup kv.1).isNone)) with
                        | none => rw [hg4] at hv; simp at hv
                        | some m4 =>
                          rw [hg4] at hv
                          simp at hv
                          subst hv
                          by_cases hfm1 : (SubPatSet.Alt
                              (m1 ++ mb.filter (fun kv => (ma.lookup kv.1).isNone)) n p).isFullB =
                              true
                          · rw [show (SubPatSet.Alt
                                (m1 ++ mb.filter (fun kv => (ma.lookup kv.1).isNone)) n p).normFull =
                                SubPatSet.Full from by rw [SubPatSet.normFull, if_pos hfm1]] at hu
                            rw [union_full_left isFullB_Full] at hu
                            cases hu
                            have hF := fullMono hwa hwb hwc hcab hcbc hcac hab0
                              hbcRaw hvSaved (by rw [normFull_isFullB]; exact hfm1)
                            exact (normFull_eq_full hF).symm
                          · rw [show (SubPatSet.Alt
                                (m1 ++ mb.filter (fun kv => (ma.lookup kv.1).isNone)) n p).normFull =
                                SubPatSet.Alt (m1 ++ mb.filter (fun kv => (ma.lookup kv.1).isNone)) n p
                                from by rw [SubPatSet.normFull, if_neg hfm1]] at hu hab0
                            have hEm1 : (SubPatSet.Alt
                                (m1 ++ mb.filter (fun kv => (ma.lookup kv.1).isNone)) n p).isEmptyB =
                                false := by
                              cases hE : (SubPatSet.Alt
                                  (m1 ++ mb.filter (fun kv => (ma.lookup kv.1).isNone)) n p).isEmptyB
                              · rfl
                              · rw [emptyMono hab0 hE] at g2
                                exact absurd rfl g2
                            rw [union_eq] at hu
                            rw [if_neg (by rw [bNotTrue hfm1, bNotTrue hc1]; simp),
                              if_neg (by rw [hEm1]; simp), if_neg hc2] at hu
                            have hu : (unionAltGo
                                (m1 ++ mb.filter (fun kv => (ma.lookup kv.1).isNone)) mc).map
                                (fun m => (SubPatSet.Alt (m ++ mc.filter (fun kv =>
                                  ((m1 ++ mb.filter (fun kv => (ma.lookup kv.1).isNone)).lookup
                                    kv.1).isNone)) n p).normFull) = some u := hu
                            cases hg3 : unionAltGo
                                (m1 ++ mb.filter (fun kv => (ma.lookup kv.1).isNone)) mc with
                            | none => rw [hg3] at hu; simp at hu
                            | some m3 =>
                              rw [hg3] at hu
                              simp at hu
                              subst hu
                              obtain ⟨x1, x2, hgx1, hgx2, hm3eq⟩ := altGoAppend hg3
                              have hS1 : x1 = m4 :=
                                assocAltList IH hwgb hwgc hndb hndc
                                  (fun kv h => (hkb kv h).2) hcbcD.2 hg2
                                  ma m1 x1 m4 hszK hwga (fun kv h => (hka kv h).2)
                                  hcabD.2 hcacD.2 hg1 hgx1 hg4
                              have hS2 : x2 = m2.filter
                                  (fun kv => (List.lookup kv.1 ma).isNone) :=
                                altGoFilterComm (fun kv h => (hkb kv h).2) hg2 hgx2
                              have hS3 : mc.filter (fun kv =>
                                  ((m1 ++ mb.filter (fun kv => (ma.lookup kv.1).isNone)).lookup
                                    kv.1).isNone) =
                                  (mc.filter (fun kv => (mb.lookup kv.1).isNone)).filter
                                    (fun kv => (ma.lookup kv.1).isNone) := by
                                rw [List.filter_filter]
                                refine List.filter_congr ?_
                                intro kv hm
                                rw [abMapLookupNone hnda hndb
                                  (fun kv h => (hka kv h).2) hg1 kv.1]
                              have hlists : m3 ++ mc.filter (fun kv =>
                                  ((m1 ++ mb.filter (fun kv => (ma.lookup kv.1).isNone)).lookup
                                    kv.1).isNone) =
                                  m4 ++ (m2 ++ mc.filter (fun kv =>
                                    (mb.lookup kv.1).isNone)).filter (fun kv =>
                                      (ma.lookup kv.1).isNone) := by
                                rw [hm3eq, hS1, hS2, hS3, List.filter_append,
                                  List.append_assoc]
                              rw [hlists]
                              simp only [List.filter_append, List.filter_filter]
                  | .Seq _, hN, hbc, hwc, hcbc, hcac, hc1, hc2, hu =>
                    rw [SubPatSet.compatB] at hcbc
                    simp at hcbc
                  | .Empty, hN, hbc, hwc, hcbc, hcac, hc1, hc2, hu =>
                    exact absurd rfl hc1
                  | .Full, hN, hbc, hwc, hcbc, hcac, hc1, hc2, hu =>
                    exact absurd rfl hc2
            | .Seq _, .Alt _ _ _, hN, hab, hwa, hwb, hcab, hcbc, hcac, g1a, g1b,
                g2, g3, hab0, hbc, hv =>
              exact absurd hab (by simp)
            | .Alt _ _ _, .Seq _, hN, hab, hwa, hwb, hcab, hcbc, hcac, g1a, g1b,
                g2, g3, hab0, hbc, hv =>
              exact absurd hab (by simp)
            | .Empty, _, hN, hab, hwa, hwb, hcab, hcbc, hcac, g1a, g1b, g2, g3,
                hab0, hbc, hv => simp at g2
            | .Full, _, hN, hab, hwa, hwb, hcab, hcbc, hcac, g1a, g1b, g2, g3,
                hab0, hbc, hv => simp at g1a
            | .Seq _, .Empty, hN, hab, hwa, hwb, hcab, hcbc, hcac, g1a, g1b, g2,
                g3, hab0, hbc, hv => simp at g1b
            | .Seq _, .Full, hN, hab, hwa, hwb, hcab, hcbc, hcac, g1a, g1b, g2,
                g3, hab0, hbc, hv => simp at g3
            | .Alt _ _ _, .Empty, hN, hab, hwa, hwb, hcab, hcbc, hcac, g1a, g1b,
                g2, g3, hab0, hbc, hv => simp at g1b
            | .Alt _ _ _, .Full, hN, hab, hwa, hwb, hcab, hcbc, hcac, g1a, g1b,
                g2, g3, hab0, hbc, hv => simp at g3

/-- C6 (corrected): on well-formed, compatible reachability sets (the only
ones the algorithm builds: positive alternative counts, distinct child
keys below the count, no stored empty alternative), `union` is associative
on the nose whenever defined — hence `is_empty`, `is_full` and
`list_unreachable_subpatterns` agree on the two association orders; `Full`
absorbs on the left exactly and on the right up to `is_full`; `Empty` is
an exact right identity and a left identity up to all three observables.
The unrestricted claim is refuted by `union_assoc_counterexample`. -/
theorem union_assoc_observable :
    (∀ a b c ab bc u v : SubPatSet,
      a.wfB = true → b.wfB = true → c.wfB = true →
      a.compatB b = true → b.compatB c = true → a.compatB c = true →
      a.union b = some ab → b.union c = some bc →
      ab.union c = some u → a.union bc = some v →
      u = v ∧ u.isEmptyB = v.isEmptyB ∧ u.isFullB = v.isFullB ∧
        ∀ ar : PatternArena, u.listUnreachableSubpatterns ar =
          v.listUnreachableSubpatterns ar) ∧
    (∀ x : SubPatSet, SubPatSet.Full.union x = some SubPatSet.Full) ∧
    (∀ x : SubPatSet, ∃ z, x.union SubPatSet.Full = some z ∧ z.isFullB = true) ∧
    (∀ x : SubPatSet, x.union SubPatSet.Empty = some x) ∧
    (∀ x z : SubPatSet, x.wfB = true → SubPatSet.Empty.union x = some z →
      z.isEmptyB = x.isEmptyB ∧ z.isFullB = x.isFullB ∧
      ∀ ar : PatternArena, z.listUnreachableSubpatterns ar =
        x.listUnreachableSubpatterns ar) := by
  refine ⟨?_, ?_, ?_, ?_, ?_⟩
  · intro a b c ab bc u v hwa hwb hwc hcab hcbc hcac hab hbc hu hv
    have huv : u = v := assocAux (sizeOf a + sizeOf b + sizeOf c) (le_refl _)
      hwa hwb hwc hcab hcbc hcac hab hbc hu hv
    exact ⟨huv, by rw [huv], by rw [huv], fun ar => by rw [huv]⟩
  · intro x
    exact union_full_left isFullB_Full
  · intro x
    exact union_full_right_total isFullB_Full isEmptyB_Full
  · intro x
    exact union_empty_right isEmptyB_Empty
  · intro x z hwx hz
    by_cases hex : x.isEmptyB = true
    · have h1 : SubPatSet.Empty.union x = some SubPatSet.Empty := by
        rw [union_eq]
        rw [if_pos (by rw [hex]; simp)]
      rw [h1] at hz
      cases hz
      refine ⟨by rw [hex]; rfl, by rw [wfNotBothF hwx hex]; rfl, ?_⟩
      intro ar
      rw [SubPatSet.listUnreachableSubpatterns, SubPatSet.listUnreachableSubpatterns]
      rw [if_pos isEmptyB_Empty, if_pos hex]
    · rw [union_empty_left isEmptyB_Empty isFullB_Empty (bNotTrue hex)] at hz
      cases hz
      exact ⟨rfl, rfl, fun ar => rfl⟩

/-- Refutation of the unrestricted C6 claim: with the degenerate set
`Alt [] 0 0` (no alternatives, count zero — simultaneously empty and
full), the two association orders of `Empty`, `Alt [] 0 0`, `Full` give
`Full` and `Empty` respectively, which differ on both `is_empty` and
`is_full`. -/
theorem union_assoc_counterexample :
    (SubPatSet.Empty.union (SubPatSet.Alt [] 0 0)).bind
      (fun ab => ab.union SubPatSet.Full) = some SubPatSet.Full ∧
    ((SubPatSet.Alt [] 0 0).union SubPatSet.Full).bind
      (fun bc => SubPatSet.Empty.union bc) = some SubPatSet.Empty ∧
    SubPatSet.Full.isFullB ≠ SubPatSet.Empty.isFullB ∧
    SubPatSet.Full.isEmptyB ≠ SubPatSet.Empty.isEmptyB := by
  have hEAlt : (SubPatSet.Alt [] 0 0).isEmptyB = true := by
    rw [isEmptyB_Alt, allEmptyGo_eq]
    rfl
  have hFAlt : (SubPatSet.Alt [] 0 0).isFullB = true := by
    rw [isFullB_Alt, allFullGo_eq]
    rfl
  refine ⟨?_, ?_, by simp, by simp⟩
  · rw [union_empty_right hEAlt]
    show SubPatSet.Empty.union SubPatSet.Full = some SubPatSet.Full
    exact union_empty_left isEmptyB_Empty isFullB_Empty isEmptyB_Full
  · rw [union_full_left hFAlt]
    show SubPatSet.Empty.union (SubPatSet.Alt [] 0 0) = some SubPatSet.Empty
    exact union_empty_right hEAlt

/-- Closed instantiation of the C6 theorem at concrete inputs. -/
theorem union_assoc_observable_witness :
    SubPatSet.Empty = SubPatSet.Empty ∧
    (SubPatSet.Empty.isEmptyB = SubPatSet.Empty.isEmptyB ∧
     SubPatSet.Empty.isFullB = SubPatSet.Empty.isFullB ∧
     ∀ ar : PatternArena, SubPatSet.Empty.listUnreachableSubpatterns ar =
       SubPatSet.Empty.listUnreachableSubpatterns ar) :=
  ⟨(union_assoc_observable.1 .Empty .Empty .Empty .Empty .Empty .Empty .Empty
      rfl rfl rfl rfl rfl rfl
      (union_empty_right isEmptyB_Empty) (union_empty_right isEmptyB_Empty)
      (union_empty_right isEmptyB_Empty) (union_empty_right isEmptyB_Empty)).1,
   union_assoc_observable.2.2.2.2 .Empty .Empty rfl
     (union_empty_right isEmptyB_Empty)⟩

theorem normB_Seq (m : List (Nat × SubPatSet)) :
    (SubPatSet.Seq m).normB = (!(SubPatSet.Seq m).isEmptyB &&
      !(SubPatSet.Seq m).isFullB && normGo m) := by
  rw [SubPatSet.normB]

theorem normB_Alt (m : List (Nat × SubPatSet)) (n : Nat) (p : PatId) :
    (SubPatSet.Alt m n p).normB = (!(SubPatSet.Alt m n p).isEmptyB &&
      !(SubPatSet.Alt m n p).isFullB && normGo m) := by
  rw [SubPatSet.normB]

/-- A normalised set that is full is the `Full` constructor. -/
theorem normFullEq {a : SubPatSet} (hn : a.normB = true) (hf : a.isFullB = true) :
    a = .Full := by
  match a, hn, hf with
  | .Full, hn, hf => rfl
  | .Empty, hn, hf => simp at hf
  | .Seq m, hn, hf =>
    rw [normB_Seq, hf] at hn
    simp at hn
  | .Alt m n p, hn, hf =>
    rw [normB_Alt, hf] at hn
    simp at hn

/-- A normalised set that is empty is the `Empty` constructor. -/
theorem normEmptyEq {a : SubPatSet} (hn : a.normB = true) (he : a.isEmptyB = true) :
    a = .Empty := by
  match a, hn, he with
  | .Empty, hn, he => rfl
  | .Full, hn, he => simp at he
  | .Seq m, hn, he =>
    rw [normB_Seq, he] at hn
    simp at hn
  | .Alt m n p, hn, he =>
    rw [normB_Alt, he] at hn
    simp at hn

/-- A source entry whose child union is non-empty is retained by the `Alt`
worker (no key-distinctness needed). -/
theorem altGoKeep {ms mo m' : List (Nat × SubPatSet)} {k : Nat} {sv w : SubPatSet}
    (hg : unionAltGo ms mo = some m') (hm : (k, sv) ∈ ms)
    (hw : sv.union ((mo.lookup k).getD .Empty) = some w)
    (hwne : w.isEmptyB = false) : (k, w) ∈ m' := by
  induction ms generalizing m' with
  | nil => simp at hm
  | cons kv rest ih =>
    obtain ⟨k0, sv0⟩ := kv
    rw [unionAltGo] at hg
    cases hu : sv0.union ((mo.lookup k0).getD .Empty) with
    | none => rw [hu] at hg; simp at hg
    | some child =>
      cases ht : unionAltGo rest mo with
      | none => rw [hu, ht] at hg; simp at hg
      | some tail =>
        rw [hu, ht] at hg
        simp at hg
        rcases List.mem_cons.mp hm with h1 | h1
        · have hk : k0 = k := (congrArg Prod.fst h1).symm
          have hs : sv0 = sv := (congrArg Prod.snd h1).symm
          subst hk
          subst hs
          rw [hw] at hu
          cases hu
          rw [if_neg (by rw [hwne]; simp)] at hg
          subst hg
          exact List.mem_cons_self _ _
        · have hmem := ih ht h1
          by_cases hce : child.isEmptyB
          · rw [if_pos hce] at hg
            subst hg
            exact hmem
          · rw [if_neg hce] at hg
            subst hg
            exact List.mem_cons_of_mem _ hmem

/-- C10: `union` preserves the source's normalisation invariant at the top
level: on operands whose full subtrees are the `Full` constructor and
whose empty subtrees are the `Empty` constructor, a full result is the
`Full` constructor and an empty result is the `Empty` constructor (full
`Seq` children and empty `Alt` children are dropped, and a full
fall-through result is promoted to `Full`). -/
theorem union_preserves_normalization (a b z : SubPatSet)
    (hna : a.normB = true) (hnb : b.normB = true)
    (hz : a.union b = some z) :
    (z.isFullB = true → z = .Full) ∧ (z.isEmptyB = true → z = .Empty) := by
  rw [union_eq] at hz
  by_cases g1 : (a.isFullB || b.isEmptyB) = true
  · rw [if_pos g1] at hz
    cases hz
    exact ⟨normFullEq hna, normEmptyEq hna⟩
  · rw [if_neg g1] at hz
    by_cases g2 : a.isEmptyB = true
    · rw [if_pos g2] at hz
      cases hz
      exact ⟨normFullEq hnb, normEmptyEq hnb⟩
    · rw [if_neg g2] at hz
      by_cases g3 : b.isFullB = true
      · rw [if_pos g3] at hz
        cases hz
        exact ⟨fun _ => rfl, fun he => by simp at he⟩
      · rw [if_neg g3] at hz
        have g1a : a.isFullB = false := by
          cases h : a.isFullB
          · rfl
          · rw [h] at g1; simp at g1
        have g1b : b.isEmptyB = false := by
          cases h : b.isEmptyB
          · rfl
          · rw [h] at g1; simp at g1
        match a, b, hz, hna, hnb, g1a, g1b, g2, g3 with
        | .Seq sm, .Seq om, hz, hna, hnb, g1a, g1b, g2, g3 =>
          have hz : (unionSeqGo sm om).map
              (fun m => (SubPatSet.Seq m).normFull) = some z := hz
          cases hg : unionSeqGo sm om with
          | none => rw [hg] at hz; simp at hz
          | some m1 =>
            rw [hg] at hz
            simp at hz
            subst hz
            refine ⟨fun hf => normFull_eq_full hf, fun he => ?_⟩
            exfalso
            rw [SubPatSet.normFull] at he
            by_cases hfm : (SubPatSet.Seq m1).isFullB = true
            · rw [if_pos hfm] at he
              simp at he
            · rw [if_neg hfm] at he
              rw [isEmptyB_Seq, anyEmptyGo_eq] at he
              obtain ⟨kv, hkv, hkve⟩ := List.any_eq_true.mp he
              obtain ⟨sv, hsv, hu, _⟩ := seqGoMem hg kv hkv
              have hse : sv.isEmptyB = true := emptyMono hu (by simpa using hkve)
              rw [normB_Seq] at hna
              simp only [Bool.and_eq_true] at hna
              have : (SubPatSet.Seq sm).isEmptyB = true := by
                rw [isEmptyB_Seq, anyEmptyGo_eq]
                refine List.any_eq_true.mpr ⟨(kv.1, sv), hsv, by simpa using hse⟩
              rw [this] at hna
              simp at hna
        | .Alt sm n p, .Alt om n2 p2, hz, hna, hnb, g1a, g1b, g2, g3 =>
          have hz : (unionAltGo sm om).map (fun m =>
              (SubPatSet.Alt (m ++ om.filter (fun kv => (sm.lookup kv.1).isNone))
                n p).normFull) = some z := hz
          cases hg : unionAltGo sm om with
          | none => rw [hg] at hz; simp at hz
          | some m1 =>
            rw [hg] at hz
            simp at hz
            subst hz
            refine ⟨fun hf => normFull_eq_full hf, fun he => ?_⟩
            exfalso
            rw [SubPatSet.normFull] at he
            by_cases hfm : (SubPatSet.Alt
                (m1 ++ om.filter (fun kv => (sm.lookup kv.1).isNone)) n p).isFullB = true
            · rw [if_pos hfm] at he
              simp at he
            · rw [if_neg hfm] at he
              have hnae : (SubPatSet.Alt sm n p).isEmptyB = false := by
                cases hE : (SubPatSet.Alt sm n p).isEmptyB
                · rfl
                · rw [normB_Alt, hE] at hna
                  simp at hna
              rw [isEmptyB_Alt, allEmptyGo_eq] at hnae
              obtain ⟨kv, hkv, hkve⟩ := List.all_eq_false.mp hnae
              obtain ⟨w, hw⟩ := altGoDefined hg kv hkv
              have hwne : w.isEmptyB = false := by
                cases hwe : w.isEmptyB
                · rfl
                · exact absurd (emptyMono hw hwe) hkve
              have hmem : (kv.1, w) ∈ m1 := altGoKeep hg (by
                  have : (kv.1, kv.2) = kv := rfl
                  rw [this]
                  exact hkv) hw hwne
              rw [isEmptyB_Alt, allEmptyGo_eq, List.all_eq_true] at he
              have := he (kv.1, w) (List.mem_append.mpr (Or.inl hmem))
              rw [hwne] at this
              simp at this
        | .Seq _, .Alt _ _ _, hz, hna, hnb, g1a, g1b, g2, g3 =>
          exact absurd hz (by simp)
        | .Alt _ _ _, .Seq _, hz, hna, hnb, g1a, g1b, g2, g3 =>
          exact absurd hz (by simp)
        | .Empty, _, hz, hna, hnb, g1a, g1b, g2, g3 => simp at g2
        | .Full, _, hz, hna, hnb, g1a, g1b, g2, g3 => simp at g1a
        | .Seq _, .Empty, hz, hna, hnb, g1a, g1b, g2, g3 => simp at g1b
        | .Seq _, .Full, hz, hna, hnb, g1a, g1b, g2, g3 => simp at g3
        | .Alt _ _ _, .Empty, hz, hna, hnb, g1a, g1b, g2, g3 => simp at g1b
        | .Alt _ _ _, .Full, hz, hna, hnb, g1a, g1b, g2, g3 => simp at g3

/-- Closed instantiation of the C10 theorem at concrete inputs. -/
theorem union_preserves_normalization_witness :
    SubPatSet.Empty = SubPatSet.Empty :=
  (union_preserves_normalization .Empty .Empty .Empty rfl rfl
    (union_empty_right isEmptyB_Empty)).2 rfl

/-! ### The usefulness result type and its operations -/

/-- Modelled from the spec: the constructor abstraction of the external
collaborator (`deconstruct_pat.rs`), reduced to the shapes the algorithm
distinguishes — the `Missing` pseudo-constructor (matched on explicitly in
`apply_constructor`), wildcards, and tagged head constructors. -/
inductive Constructor : Type where
  | Missing
  | Wildcard
  | Tag (tag : Nat)

/-- The `matches!(ctor, Constructor::Missing)` discriminator. -/
def Constructor.isMissing : Constructor → Bool
  | .Missing => true
  | _ => false

/-- `Fields`: the (wildcard-filled) field patterns of a constructor; its
length is the constructor's arity. -/
abbrev Fields := List PatId

/-- Modelled from the spec: the bundle of operations provided by the
external collaborator `deconstruct_pat.rs`.  The file under verification
calls these opaquely, so theorems are stated for an arbitrary bundle, with
contracts added as explicit hypotheses where a property depends on them. -/
structure Collab : Type where
  /-- `Constructor::from_pat(cx, pat)`. -/
  fromPat : PatternArena → PatId → Constructor
  /-- `c1.is_covered_by(pcx, c2)`: whether `c1` is covered by `c2`. -/
  isCoveredBy : Constructor → Constructor → Bool
  /-- `Constructor::split` against the head constructors of the matrix. -/
  split : Constructor → List Constructor → List Constructor
  /-- `Fields::wildcards(pcx, ctor)`. -/
  wildcards : Constructor → Fields
  /-- `fields.replace_with_pattern_arguments(pat, cx).into_patterns()`:
  decompose the arguments of `pat` against the fields, possibly
  allocating into the arena. -/
  replaceArgs : Fields → PatId → PatternArena → List PatId × PatternArena
  /-- `fields.replace_fields(cx, pats).apply(pcx, ctor)`: rebuild one
  pattern from a constructor and its field patterns. -/
  rebuild : List Pat → Constructor → Pat
  /-- `Fields::wildcards(pcx, ctor).apply(pcx, ctor)`: the all-wildcard
  pattern of a constructor. -/
  applyWild : Constructor → Pat
  /-- The constructor catalogue of the type at the current column
  (`SplitWildcard::new(pcx)` starts from `all_ctors`). -/
  allCtors : List Constructor

/-- `Witness`: ordered list of reconstructed pattern trees, built
innermost first. -/
structure Witness : Type where
  pats : List Pat

/-- `WitnessPreference`. -/
inductive WitnessPreference : Type where
  | ConstructWitness
  | LeaveOutWitness

/-- `Usefulness`: reachability set in reachability mode, list of
non-exhaustiveness witnesses in witness mode. -/
inductive Usefulness : Type where
  | NoWitnesses (s : SubPatSet)
  | WithWitnesses (ws : List Witness)

/-- `Usefulness::new_useful`. -/
def Usefulness.newUseful : WitnessPreference → Usefulness
  | .ConstructWitness => .WithWitnesses [⟨[]⟩]
  | .LeaveOutWitness => .NoWitnesses .Full

/-- `Usefulness::new_not_useful`. -/
def Usefulness.newNotUseful : WitnessPreference → Usefulness
  | .ConstructWitness => .WithWitnesses []
  | .LeaveOutWitness => .NoWitnesses .Empty

/-- `Usefulness::extend`: `none` is the `unreachable!()` on mismatched
variants, or a panic inside the set union. -/
def Usefulness.extend : Usefulness → Usefulness → Option Usefulness
  | .WithWitnesses s, .WithWitnesses [] => some (.WithWitnesses s)
  | .WithWitnesses [], .WithWitnesses o => some (.WithWitnesses o)
  | .WithWitnesses s, .WithWitnesses o => some (.WithWitnesses (s ++ o))
  | .NoWitnesses s, .NoWitnesses o => (s.union o).map .NoWitnesses
  | _, _ => none

/-- The `for u in usefulnesses` loop of `Usefulness::merge`, with the
short-circuit once a reachability accumulator is full. -/
def Usefulness.mergeGo : List Usefulness → Usefulness → Option Usefulness
  | [], ret => some ret
  | u :: rest, ret =>
    match ret.extend u with
    | none => none
    | some ret2 =>
      match ret2 with
      | .NoWitnesses s =>
        if s.isFullB then some (.NoWitnesses s)
        else Usefulness.mergeGo rest (.NoWitnesses s)
      | r => Usefulness.mergeGo rest r

/-- `Usefulness::merge`. -/
def Usefulness.merge (pref : WitnessPreference) (us : List Usefulness) :
    Option Usefulness :=
  Usefulness.mergeGo us (Usefulness.newNotUseful pref)

/-- `Usefulness::unsplit_or_pat`; panics (`none`) in witness mode. -/
def Usefulness.unsplitOrPat : Usefulness → Nat → Nat → PatId → Option Usefulness
  | .NoWitnesses s, i, n, p => (s.unsplitOrPat i n p).map .NoWitnesses
  | .WithWitnesses _, _, _, _ => none

/-- `Witness::apply_constructor`: drain the last `arity` patterns, reverse
them, rebuild one pattern with the constructor, and push it back. -/
def Witness.applyConstructor (co : Collab) (ctor : Constructor) (f : Fields)
    (w : Witness) : Witness :=
  ⟨w.pats.take (w.pats.length - f.length) ++
    [co.rebuild (w.pats.drop (w.pats.length - f.length)).reverse ctor]⟩

/-- Modelled from the spec: `SplitWildcard::new(pcx)` followed by `split`
against the present head constructors and `iter_missing(pcx)` — the
constructors of the type absent from the matrix column, i.e. the
complement of the present set, with coverage checked through the
collaborator. -/
def splitWildcardIterMissing (co : Collab) (present : List Constructor) :
    List Constructor :=
  co.allCtors.filter (fun c => !(present.any (fun c2 => co.isCoveredBy c c2)))

/-- `Usefulness::apply_constructor`: an empty witness list passes through
the first match arm untouched; a non-empty list is multiplied by the
missing constructors for the `Missing` pseudo-constructor and otherwise
rebuilt witness-by-witness; a reachability set is unspecialised (panicking
on an `Alt`, hence the option). -/
def Usefulness.applyConstructor (co : Collab) (matrixHeadCtors : List Constructor)
    (ctor : Constructor) (f : Fields) : Usefulness → Option Usefulness
  | .WithWitnesses [] => some (.WithWitnesses [])
  | .WithWitnesses ws =>
    some (.WithWitnesses
      (if ctor.isMissing then
        (ws.flatMap (fun w => ((splitWildcardIterMissing co matrixHeadCtors).map
          co.applyWild).map (fun pat => ⟨w.pats ++ [pat]⟩)))
       else ws.map (Witness.applyConstructor co ctor f)))
  | .NoWitnesses s => (s.unspecialize f.length).map .NoWitnesses

/-- `Witness::single_pattern`: asserts that exactly one pattern remains
(`none` is the failing assertion). -/
def Witness.singlePattern (w : Witness) : Option Pat :=
  match w.pats with
  | [p] => some p
  | _ => none

/-- C5: in witness mode, `apply_constructor` on the `Missing`
pseudo-constructor multiplies the witness list by the synthesized
all-wildcard values of the constructors absent from the matrix column (the
complement of the present set, enumerated via the collaborator): each
input witness is copied once per missing constructor with that value
appended, so the output length is the product of the two counts. -/
theorem apply_constructor_missing_multiplies (co : Collab)
    (mh : List Constructor) (f : Fields) (ws : List Witness) :
    Usefulness.applyConstructor co mh .Missing f (.WithWitnesses ws) =
      some (.WithWitnesses (ws.flatMap (fun w =>
        ((splitWildcardIterMissing co mh).map co.applyWild).map
          (fun pat => ⟨w.pats ++ [pat]⟩)))) ∧
    (ws.flatMap (fun w =>
        ((splitWildcardIterMissing co mh).map co.applyWild).map
          (fun pat => Witness.mk (w.pats ++ [pat])))).length =
      ws.length * (splitWildcardIterMissing co mh).length := by
  constructor
  · cases ws with
    | nil => rfl
    | cons w rest => rfl
  · induction ws with
    | nil => simp
    | cons w rest ih =>
      rw [List.flatMap_cons, List.length_append, ih]
      simp only [List.length_map, List.length_cons]
      ring

/-- C8: `apply_constructor` returns an empty `WithWitnesses` result
unchanged for every constructor (including the `Missing`
pseudo-constructor) and every `Fields` value — the first match arm passes
it through, so the missing-constructor enumeration never runs when there
are no witnesses to extend. -/
theorem apply_constructor_empty_passthrough (co : Collab)
    (mh : List Constructor) (ctor : Constructor) (f : Fields) :
    Usefulness.applyConstructor co mh ctor f (.WithWitnesses []) =
      some (.WithWitnesses []) := rfl

/-- C9: for each preference, the not-useful result (`WithWitnesses []` or
`NoWitnesses Empty`) is a two-sided identity of `extend` — exactly in
three of the four directions, and up to all observables of the
reachability set when `Empty` is the left operand — and `merge` of an
empty sequence of branch results is exactly the not-useful result, so a
split or expansion with zero branches makes the row not useful. -/
theorem not_useful_extend_identity :
    (∀ ws, (Usefulness.WithWitnesses ws).extend (.WithWitnesses []) =
      some (.WithWitnesses ws)) ∧
    (∀ ws, (Usefulness.WithWitnesses []).extend (.WithWitnesses ws) =
      some (.WithWitnesses ws)) ∧
    (∀ s, (Usefulness.NoWitnesses s).extend (.NoWitnesses .Empty) =
      some (.NoWitnesses s)) ∧
    (∀ s, s.wfB = true → ∃ z,
      (Usefulness.NoWitnesses .Empty).extend (.NoWitnesses s) =
        some (.NoWitnesses z) ∧
      z.isEmptyB = s.isEmptyB ∧ z.isFullB = s.isFullB ∧
      ∀ ar, z.listUnreachableSubpatterns ar = s.listUnreachableSubpatterns ar) ∧
    (∀ pref, Usefulness.merge pref [] = some (Usefulness.newNotUseful pref)) := by
  refine ⟨?_, ?_, ?_, ?_, fun pref => rfl⟩
  · intro ws
    cases ws with
    | nil => rfl
    | cons w rest => rfl
  · intro ws
    cases ws with
    | nil => rfl
    | cons w rest => rfl
  · intro s
    show (s.union .Empty).map Usefulness.NoWitnesses = some (.NoWitnesses s)
    rw [union_empty_right isEmptyB_Empty]
    rfl
  · intro s hws
    by_cases hes : s.isEmptyB = true
    · refine ⟨.Empty, ?_, by rw [hes]; rfl, by rw [wfNotBothF hws hes]; rfl, ?_⟩
      · show (SubPatSet.Empty.union s).map Usefulness.NoWitnesses =
          some (.NoWitnesses .Empty)
        rw [show SubPatSet.Empty.union s = some SubPatSet.Empty from by
          rw [union_eq]
          rw [if_pos (by rw [hes]; simp)]]
        rfl
      · intro ar
        rw [SubPatSet.listUnreachableSubpatterns, SubPatSet.listUnreachableSubpatterns,
          if_pos isEmptyB_Empty, if_pos hes]
    · refine ⟨s, ?_, rfl, rfl, fun ar => rfl⟩
      show (SubPatSet.Empty.union s).map Usefulness.NoWitnesses =
        some (.NoWitnesses s)
      rw [union_empty_left isEmptyB_Empty isFullB_Empty (bNotTrue hes)]
      rfl

/-- Closed instantiation of the C9 theorem at a concrete input. -/
theorem not_useful_extend_identity_witness :
    ∃ z, (Usefulness.NoWitnesses .Empty).extend (.NoWitnesses .Full) =
        some (.NoWitnesses z) ∧
      z.isEmptyB = SubPatSet.Full.isEmptyB ∧ z.isFullB = SubPatSet.Full.isFullB ∧
      ∀ ar, z.listUnreachableSubpatterns ar =
        SubPatSet.Full.listUnreachableSubpatterns ar :=
  not_useful_extend_identity.2.2.2.1 .Full rfl

/-! ### Pattern stacks and the matrix -/

/-- `PatStack`: a row of the matrix.  The head-constructor cache of the
source (`OnceCell`) memoises a pure function of the head pattern and needs
no state here. -/
abbrev PatStack := List PatId

/-- `PatStack::head` (`pats[0]`); the algorithm only reads the head of
non-empty rows. -/
def PatStack.head (v : PatStack) : PatId := v.headD 0

/-- `PatStack::expand_or_pat`: one stack per leaf of the head or-pattern,
each followed by the tail of the original row. -/
def PatStack.expandOrPat (v : PatStack) (a : PatternArena) :
    List PatStack × PatternArena :=
  let r := PatId.expandOrPat (PatStack.head v) a
  (r.1.map (fun p => p :: v.tail), r.2)

/-- `PatStack::pop_head_constructor`: replace the head by its decomposed
arguments, keeping the trailing columns. -/
def PatStack.popHeadConstructor (co : Collab) (f : Fields) (v : PatStack)
    (a : PatternArena) : PatStack × PatternArena :=
  let r := co.replaceArgs f (PatStack.head v) a
  (r.1 ++ v.tail, r.2)

/-- `Matrix`. -/
abbrev Matrix := List PatStack

/-- `Matrix::push`: a non-empty row with an or-pattern head is expanded
into one row per leaf before insertion. -/
def Matrix.push (m : Matrix) (row : PatStack) (a : PatternArena) :
    Matrix × PatternArena :=
  if !row.isEmpty && isOrPat a (PatStack.head row) then
    let r := row.expandOrPat a
    (m ++ r.1, r.2)
  else (m ++ [row], a)

/-- `Matrix::from_iter`: push the rows one by one. -/
def Matrix.fromIter (rows : List PatStack) (a : PatternArena) :
    Matrix × PatternArena :=
  rows.foldl (fun acc row => Matrix.push acc.1 row acc.2) ([], a)

/-- `Matrix::specialize_constructor`: the row iterator keeps the rows
whose head constructor covers the given constructor
(`ctor.is_covered_by(pcx, r.head_ctor(..))`), pops each kept row's head,
and `Matrix::from_iter` pushes the resulting rows; since the iterator is
driven lazily by `from_iter`, the filter, the pop and the push interleave
row by row, which this fold reproduces. -/
def Matrix.specializeConstructor (co : Collab) (ctor : Constructor)
    (f : Fields) (m : Matrix) (a : PatternArena) : Matrix × PatternArena :=
  m.foldl (fun acc r =>
    if co.isCoveredBy ctor (co.fromPat acc.2 (PatStack.head r)) then
      let pr := PatStack.popHeadConstructor co f r acc.2
      Matrix.push acc.1 pr.1 pr.2
    else acc) ([], a)

/-- The C4 claim, as a definition following its words: keep exactly the
rows whose head constructor is covered by `ctor`, replace each kept row's
head by the decomposed arguments, keep the trailing columns, and drop
rejected rows untouched — row for row, with no re-expansion on insertion. -/
def Matrix.specializeConstructorClaim (co : Collab) (ctor : Constructor)
    (f : Fields) (m : Matrix) (a : PatternArena) : Matrix :=
  (m.filter (fun r => co.isCoveredBy (co.fromPat a (PatStack.head r)) ctor)).map
    (fun r => (co.replaceArgs f (PatStack.head r) a).1 ++ r.tail)

/-- Modelled from the spec: a small concrete collaborator instance used to
exhibit behaviour — equal tags cover each other, anything is covered by a
wildcard head, and decomposition returns the wildcard fields unchanged
without touching the arena. -/
def testCollab : Collab where
  fromPat := fun a p =>
    match a.get p with
    | .wild _ => .Wildcard
    | .lit _ _ => .Tag 0
    | .ctorApp _ t _ => .Tag t
    | .orP _ _ => .Wildcard
  isCoveredBy := fun c1 c2 =>
    match c1, c2 with
    | _, .Wildcard => true
    | .Tag t1, .Tag t2 => t1 == t2
    | _, _ => false
  split := fun c _ => [c]
  wildcards := fun _ => []
  replaceArgs := fun f _ a => (f, a)
  rebuild := fun _ _ => .wild 0
  applyWild := fun _ => .wild 0
  allCtors := [.Tag 0, .Tag 1]

/-- Refutation of the C4 claim as stated: (1) the coverage test goes the
other way round — a row with a wildcard head is kept when specialising to
a tag, although a wildcard head constructor is not covered by that tag;
(2) kept rows are re-inserted through `Matrix::push`, which expands a row
whose new head is an or-pattern into several rows, so the result is not
row for row. -/
theorem specialize_constructor_counterexample :
    (Matrix.specializeConstructor testCollab (.Tag 0) [] [[0]]
      [Pat.wild 0]).1.length = 1 ∧
    (Matrix.specializeConstructorClaim testCollab (.Tag 0) [] [[0]]
      [Pat.wild 0]).length = 0 ∧
    (Matrix.specializeConstructor testCollab (.Tag 0) [1] [[0]]
      [Pat.ctorApp 0 0 [], Pat.orP 0 [Pat.wild 0, Pat.wild 0]]).1.length = 2 ∧
    (Matrix.specializeConstructorClaim testCollab (.Tag 0) [1] [[0]]
      [Pat.ctorApp 0 0 [], Pat.orP 0 [Pat.wild 0, Pat.wild 0]]).length = 1 := by
  refine ⟨rfl, rfl, ?_, rfl⟩
  rfl

/-- C4 (amended): `specialize_constructor` keeps exactly the rows of the
matrix whose head constructor covers `ctor` (the source tests
`ctor.is_covered_by(pcx, r.head_ctor(..))`, the reverse of the claimed
direction), replaces each kept row's head with the fields-decomposed
arguments and keeps the trailing columns, and drops rejected rows
untouched — provided the collaborator's decomposition does not extend the
arena and no kept row's popped form starts with an or-pattern (otherwise
the insertion through `Matrix::push` expands it into several rows). -/
theorem specialize_constructor_characterization (co : Collab)
    (ctor : Constructor) (f : Fields) (m : Matrix) (a : PatternArena)
    (hpure : ∀ g p ar, (co.replaceArgs g p ar).2 = ar)
    (hnoor : ∀ r ∈ m, co.isCoveredBy ctor (co.fromPat a (PatStack.head r)) = true →
      ((co.replaceArgs f (PatStack.head r) a).1 ++ r.tail).isEmpty = true ∨
      isOrPat a (PatStack.head ((co.replaceArgs f (PatStack.head r) a).1 ++ r.tail)) =
        false) :
    Matrix.specializeConstructor co ctor f m a =
      ((m.filter (fun r => co.isCoveredBy ctor (co.fromPat a (PatStack.head r)))).map
        (fun r => (co.replaceArgs f (PatStack.head r) a).1 ++ r.tail), a) := by
  show m.foldl _ ([], a) = _
  suffices h : ∀ (acc0 : Matrix),
      m.foldl (fun acc r =>
        if co.isCoveredBy ctor (co.fromPat acc.2 (PatStack.head r)) then
          let pr := PatStack.popHeadConstructor co f r acc.2
          Matrix.push acc.1 pr.1 pr.2
        else acc) (acc0, a) =
      (acc0 ++ (m.filter (fun r =>
          co.isCoveredBy ctor (co.fromPat a (PatStack.head r)))).map
        (fun r => (co.replaceArgs f (PatStack.head r) a).1 ++ r.tail), a) by
    have := h []
    simpa using this
  induction m with
  | nil =>
    intro acc0
    simp
  | cons r rest ih =>
    intro acc0
    rw [List.foldl_cons]
    by_cases hc : co.isCoveredBy ctor (co.fromPat a (PatStack.head r)) = true
    · rw [if_pos hc]
      have hrow : PatStack.popHeadConstructor co f r a =
          ((co.replaceArgs f (PatStack.head r) a).1 ++ r.tail, a) := by
        rw [PatStack.popHeadConstructor]
        rw [hpure]
      rw [hrow]
      have hpush : Matrix.push acc0 ((co.replaceArgs f (PatStack.head r) a).1 ++ r.tail) a =
          (acc0 ++ [(co.replaceArgs f (PatStack.head r) a).1 ++ r.tail], a) := by
        rw [Matrix.push]
        rcases hnoor r (List.mem_cons_self _ _) hc with h1 | h1
        · rw [if_neg (by rw [h1]; simp)]
        · rw [if_neg (by rw [h1]; simp)]
      rw [hpush]
      rw [ih (fun r2 h2 => hnoor r2 (List.mem_cons_of_mem _ h2)) (acc0 ++ [_])]
      simp [List.filter_cons, hc]
    · rw [if_neg hc]
      rw [ih (fun r2 h2 => hnoor r2 (List.mem_cons_of_mem _ h2)) acc0]
      simp [List.filter_cons, bNotTrue hc]

/-- Closed instantiation of the C4 theorem at concrete inputs. -/
theorem specialize_constructor_characterization_witness :
    Matrix.specializeConstructor testCollab .Wildcard [] [[0]]
      [Pat.wild 0] = ([([] : PatStack)], [Pat.wild 0]) := by
  have h := specialize_constructor_characterization testCollab .Wildcard [] [[0]]
    [Pat.wild 0] (fun g p ar => rfl) (by
      intro r hr hc
      left
      have : r = [0] := by simpa using hr
      rw [this]
      rfl)
  rw [h]
  rfl

/-! ### The usefulness recursion and the driver -/

/-- The or-pattern branch of `is_useful` — the `enumerate().map(..)`
iterator driven lazily by `Usefulness::merge`; the recursive call is
passed in as a function so that the recursion is structural in the fuel.
Each leaf is tested against the accumulated local matrix, pushed into it
unless under a guard, wrapped as alternative `i` via `unsplit_or_pat`,
and folded into the accumulator; the loop stops early exactly when the
merge loop would, on a full reachability accumulator, skipping the
remaining leaves and their arena effects. -/
def orLoopF
    (recur : Matrix → PatStack → PatternArena → Option (Usefulness × PatternArena))
    (underGuard : Bool) (vhead : PatId) (altCount : Nat) :
    Nat → List PatStack → Matrix → Usefulness → PatternArena →
    Option (Usefulness × PatternArena)
  | _, [], _, ret, a => some (ret, a)
  | i, vi :: rest, mtx, ret, a =>
    match recur mtx vi a with
    | none => none
    | some ua =>
      let pushres := if !underGuard then Matrix.push mtx vi ua.2 else (mtx, ua.2)
      match ua.1.unsplitOrPat i altCount vhead with
      | none => none
      | some u2 =>
        match ret.extend u2 with
        | none => none
        | some ret2 =>
          match ret2 with
          | .NoWitnesses s =>
            if s.isFullB then some (.NoWitnesses s, pushres.2)
            else orLoopF recur underGuard vhead altCount (i + 1) rest pushres.1
              (.NoWitnesses s) pushres.2
          | r =>
            orLoopF recur underGuard vhead altCount (i + 1) rest pushres.1 r
              pushres.2

/-- The constructor-split branch of `is_useful`: for each split
constructor, specialise the matrix and the row, recurse, un-apply the
constructor, and fold into the accumulator with the merge
short-circuit. -/
def ctorLoopF (co : Collab)
    (recur : Matrix → PatStack → PatternArena → Option (Usefulness × PatternArena))
    (startMatrix : Matrix) (v : PatStack) (headCtors : List Constructor) :
    List Constructor → Usefulness → PatternArena →
    Option (Usefulness × PatternArena)
  | [], ret, a => some (ret, a)
  | ctor :: rest, ret, a =>
    let f := co.wildcards ctor
    let sp := Matrix.specializeConstructor co ctor f startMatrix a
    let v2 := PatStack.popHeadConstructor co f v sp.2
    match recur sp.1 v2.1 v2.2 with
    | none => none
    | some ua =>
      match ua.1.applyConstructor co headCtors ctor f with
      | none => none
      | some u2 =>
        match ret.extend u2 with
        | none => none
        | some ret2 =>
          match ret2 with
          | .NoWitnesses s =>
            if s.isFullB then some (.NoWitnesses s, ua.2)
            else ctorLoopF co recur startMatrix v headCtors rest
              (.NoWitnesses s) ua.2
          | r => ctorLoopF co recur startMatrix v headCtors rest r ua.2

/-- `is_useful`.  `none` is a panic (the failing row-length assertion, or
a panic in a set operation) or exhaustion of the fuel that stands in for
the source's unbounded recursion; theorems supply sufficient fuel
explicitly.  The `is_top_level` flag only feeds the collaborator context
and is unused here. -/
def isUseful (co : Collab) : Nat → Matrix → PatStack → WitnessPreference →
    Bool → Bool → PatternArena → Option (Usefulness × PatternArena)
  | 0, _, _, _, _, _, _ => none
  | fuel + 1, m, v, pref, underGuard, _isTopLevel, a =>
    if v.isEmpty then
      some ((if m.isEmpty then Usefulness.newUseful pref
             else Usefulness.newNotUseful pref), a)
    else if !(m.all (fun r => r.length == v.length)) then none
    else if isOrPat a (PatStack.head v) then
      let r := PatStack.expandOrPat v a
      orLoopF (fun m2 v2 a2 => isUseful co fuel m2 v2 pref underGuard false a2)
        underGuard (PatStack.head v) r.1.length 0 r.1 m
        (Usefulness.newNotUseful pref) r.2
    else
      let headCtors := m.map (fun r2 => co.fromPat a (PatStack.head r2))
      ctorLoopF co (fun m2 v2 a2 => isUseful co fuel m2 v2 pref underGuard false a2)
        m v headCtors (co.split (co.fromPat a (PatStack.head v)) headCtors)
        (Usefulness.newNotUseful pref) a

/-- `Reachability`. -/
inductive Reachability : Type where
  | Reachable (unreachableSubpats : List PatId)
  | Unreachable

/-- `MatchArm`. -/
structure MatchArm : Type where
  pat : PatId
  hasGuard : Bool

/-- `UsefulnessReport`. -/
structure UsefulnessReport : Type where
  armUsefulness : List (MatchArm × Reachability)
  nonExhaustivenessWitnesses : List Pat

/-- The arm loop of `compute_match_usefulness`: query each arm in
reachability mode, push unguarded arms into the matrix after the query,
and classify from the reachability set (the `unwrap` of
`list_unreachable_subpatterns` is `none` on a `None`, and a witness-mode
result is the `panic!`). -/
def computeArms (co : Collab) (fuel : Nat) :
    List MatchArm → Matrix → PatternArena →
    Option (List (MatchArm × Reachability) × Matrix × PatternArena)
  | [], m, a => some ([], m, a)
  | arm :: rest, m, a =>
    match isUseful co fuel m [arm.pat] .LeaveOutWitness arm.hasGuard true a with
    | none => none
    | some ua =>
      let pm := if !arm.hasGuard then Matrix.push m [arm.pat] ua.2 else (m, ua.2)
      match ua.1 with
      | .NoWitnesses s =>
        if s.isEmptyB then
          match computeArms co fuel rest pm.1 pm.2 with
          | none => none
          | some r => some ((arm, .Unreachable) :: r.1, r.2)
        else
          match s.listUnreachableSubpatterns pm.2 with
          | none => none
          | some lu =>
            match lu.1 with
            | none => none
            | some pats =>
              match computeArms co fuel rest pm.1 lu.2 with
              | none => none
              | some r => some ((arm, .Reachable pats) :: r.1, r.2)
      | .WithWitnesses _ => none

/-- `compute_match_usefulness`: process the arms against a matrix that
starts empty, then allocate a fresh all-wildcard pattern of the scrutinee
type and probe the final matrix with it in witness mode; the probe's
witnesses are collapsed through `single_pattern`. -/
def computeMatchUsefulness (co : Collab) (fuel : Nat) (arms : List MatchArm)
    (scrutTy : Ty) (a : PatternArena) :
    Option (UsefulnessReport × PatternArena) :=
  match computeArms co fuel arms [] a with
  | none => none
  | some r =>
    let al := r.2.2.alloc (Pat.wild scrutTy)
    match isUseful co fuel r.2.1 [al.1] .ConstructWitness false true al.2 with
    | none => none
    | some ua =>
      match ua.1 with
      | .WithWitnesses ws =>
        match ws.mapM Witness.singlePattern with
        | none => none
        | some pats => some (⟨r.1, pats⟩, ua.2)
      | .NoWitnesses _ => none

/-! ### The witness-length invariant (C7) -/

/-- Every witness of a witness-mode result has the given number of
pattern trees (vacuous for reachability results). -/
def witnessLens (n : Nat) : Usefulness → Prop
  | .WithWitnesses ws => ∀ w ∈ ws, w.pats.length = n
  | .NoWitnesses _ => True

theorem extendWL {u1 u2 u3 : Usefulness} {n : Nat}
    (h : u1.extend u2 = some u3)
    (h1 : witnessLens n u1) (h2 : witnessLens n u2) : witnessLens n u3 := by
  match u1, u2, h, h1, h2 with
  | .NoWitnesses s, .NoWitnesses o, h, h1, h2 =>
    have h : (s.union o).map Usefulness.NoWitnesses = some u3 := h
    cases hu : s.union o with
    | none => rw [hu] at h; simp at h
    | some z =>
      rw [hu] at h
      simp at h
      rw [← h]
      trivial
  | .WithWitnesses [], .WithWitnesses [], h, h1, h2 =>
    cases h
    exact h1
  | .WithWitnesses [], .WithWitnesses (w2 :: o), h, h1, h2 =>
    cases h
    exact h2
  | .WithWitnesses (w :: s), .WithWitnesses [], h, h1, h2 =>
    cases h
    exact h1
  | .WithWitnesses (w :: s), .WithWitnesses (w2 :: o), h, h1, h2 =>
    cases h
    intro w3 hw3
    rcases List.mem_append.mp hw3 with hm | hm
    · exact h1 w3 hm
    · exact h2 w3 hm

theorem applyWLMissing {co : Collab} {mh : List Constructor} {f : Fields}
    {u u2 : Usefulness} {n : Nat}
    (h : u.applyConstructor co mh .Missing f = some u2)
    (h1 : witnessLens n u) : witnessLens (n + 1) u2 := by
  match u, h, h1 with
  | .NoWitnesses s, h, h1 =>
    have h : (s.unspecialize f.length).map Usefulness.NoWitnesses = some u2 := h
    cases hu : s.unspecialize f.length with
    | none => rw [hu] at h; simp at h
    | some z =>
      rw [hu] at h
      simp at h
      rw [← h]
      trivial
  | .WithWitnesses [], h, h1 =>
    cases h
    intro w hw
    simp at hw
  | .WithWitnesses (w0 :: ws), h, h1 =>
    cases h
    intro w hw
    simp only [Constructor.isMissing, if_pos] at hw
    rw [List.mem_flatMap] at hw
    obtain ⟨w1, hw1, hw2⟩ := hw
    rw [List.mem_map] at hw2
    obtain ⟨pat, _, hpe⟩ := hw2
    rw [← hpe]
    simp [h1 w1 hw1]

theorem applyWLCtor {co : Collab} {mh : List Constructor} {ctor : Constructor}
    {f : Fields} {u u2 : Usefulness} {n : Nat}
    (hnm : ctor.isMissing = false)
    (h : u.applyConstructor co mh ctor f = some u2)
    (h1 : witnessLens n u) : witnessLens (n - f.length + 1) u2 := by
  match u, h, h1 with
  | .NoWitnesses s, h, h1 =>
    have h : (s.unspecialize f.length).map Usefulness.NoWitnesses = some u2 := h
    cases hu : s.unspecialize f.length with
    | none => rw [hu] at h; simp at h
    | some z =>
      rw [hu] at h
      simp at h
      rw [← h]
      trivial
  | .WithWitnesses [], h, h1 =>
    cases h
    intro w hw
    simp at hw
  | .WithWitnesses (w0 :: ws), h, h1 =>
    cases h
    intro w hw
    rw [if_neg (by rw [hnm]; simp)] at hw
    rw [List.mem_map] at hw
    obtain ⟨w1, hw1, hw2⟩ := hw
    rw [← hw2]
    show (Witness.applyConstructor co ctor f w1).pats.length = n - f.length + 1
    rw [Witness.applyConstructor]
    simp [h1 w1 hw1]

theorem unsplitOrPatN {u : Usefulness} {i n : Nat} {p : PatId} {u2 : Usefulness}
    (h : u.unsplitOrPat i n p = some u2) : ∃ s, u2 = .NoWitnesses s := by
  match u, h with
  | .NoWitnesses s, h =>
    have h : (s.unsplitOrPat i n p).map Usefulness.NoWitnesses = some u2 := h
    cases hu : s.unsplitOrPat i n p with
    | none => rw [hu] at h; simp at h
    | some z =>
      rw [hu] at h
      simp at h
      exact ⟨z, h.symm⟩

theorem orLoopWL
    {recur : Matrix → PatStack → PatternArena → Option (Usefulness × PatternArena)}
    {g : Bool} {vh : PatId} {n L : Nat} :
    ∀ (leaves : List PatStack) (i : Nat) (mtx : Matrix) (ret : Usefulness)
      (a : PatternArena) (r : Usefulness) (a2 : PatternArena),
      orLoopF recur g vh n i leaves mtx ret a = some (r, a2) →
      witnessLens L ret → witnessLens L r := by
  intro leaves
  induction leaves with
  | nil =>
    intro i mtx ret a r a2 h hret
    rw [orLoopF] at h
    cases h
    exact hret
  | cons vi rest ih =>
    intro i mtx ret a r a2 h hret
    rw [orLoopF] at h
    cases hrec : recur mtx vi a with
    | none => rw [hrec] at h; simp at h
    | some ua =>
      rw [hrec] at h
      simp only [] at h
      cases hun : ua.1.unsplitOrPat i n vh with
      | none => rw [hun] at h; simp at h
      | some u2 =>
        rw [hun] at h
        simp only [] at h
        obtain ⟨s2, hs2⟩ := unsplitOrPatN hun
        subst hs2
        cases hext : ret.extend (.NoWitnesses s2) with
        | none => rw [hext] at h; simp at h
        | some ret2 =>
          rw [hext] at h
          simp only [] at h
          have hret2 : witnessLens L ret2 := extendWL hext hret trivial
          match ret2, h, hret2 with
          | .NoWitnesses s, h, hret2 =>
            simp only [] at h
            by_cases hf : s.isFullB = true
            · rw [if_pos hf] at h
              cases h
              trivial
            · rw [if_neg hf] at h
              exact ih (i + 1) _ _ _ r a2 h hret2
          | .WithWitnesses ws, h, hret2 =>
            simp only [] at h
            exact ih (i + 1) _ _ _ r a2 h hret2

theorem ctorLoopWL {co : Collab}
    {recur : Matrix → PatStack → PatternArena → Option (Usefulness × PatternArena)}
    {startM : Matrix} {v : PatStack} {headCtors : List Constructor}
    (hv : 1 ≤ v.length)
    (hrep : ∀ f p ar, (co.replaceArgs f p ar).1.length = f.length)
    (hmiss : (co.wildcards .Missing).length = 0)
    (hrecur : ∀ m2 v2 a2 u aa, recur m2 v2 a2 = some (u, aa) →
      witnessLens v2.length u) :
    ∀ (cs : List Constructor) (ret : Usefulness) (a : PatternArena)
      (r : Usefulness) (a2 : PatternArena),
      ctorLoopF co recur startM v headCtors cs ret a = some (r, a2) →
      witnessLens v.length ret → witnessLens v.length r := by
  intro cs
  induction cs with
  | nil =>
    intro ret a r a2 h hret
    rw [ctorLoopF] at h
    cases h
    exact hret
  | cons ctor rest ih =>
    intro ret a r a2 h hret
    rw [ctorLoopF] at h
    cases hrec : recur
        (Matrix.specializeConstructor co ctor (co.wildcards ctor) startM a).1
        (PatStack.popHeadConstructor co (co.wildcards ctor) v
          (Matrix.specializeConstructor co ctor (co.wildcards ctor) startM a).2).1
        (PatStack.popHeadConstructor co (co.wildcards ctor) v
          (Matrix.specializeConstructor co ctor (co.wildcards ctor) startM a).2).2 with
    | none => rw [hrec] at h; simp at h
    | some ua =>
      rw [hrec] at h
      simp only [] at h
      have hlen2 : (PatStack.popHeadConstructor co (co.wildcards ctor) v
          (Matrix.specializeConstructor co ctor (co.wildcards ctor) startM a).2).1.length =
          (co.wildcards ctor).length + (v.length - 1) := by
        rw [PatStack.popHeadConstructor]
        simp [hrep]
      have hwu : witnessLens ((co.wildcards ctor).length + (v.length - 1)) ua.1 := by
        rw [← hlen2]
        exact hrecur _ _ _ ua.1 ua.2 (by rw [← hrec])
      cases happ : ua.1.applyConstructor co headCtors ctor (co.wildcards ctor) with
      | none => rw [happ] at h; simp at h
      | some u2 =>
        rw [happ] at h
        simp only [] at h
        have hwu2 : witnessLens v.length u2 := by
          cases hm : ctor.isMissing with
          | true =>
            match ctor, hm with
            | .Missing, hm =>
              have := applyWLMissing happ hwu
              rw [hmiss] at this
              have heq : 0 + (v.length - 1) + 1 = v.length := by omega
              rw [heq] at this
              exact this
          | false =>
            have := applyWLCtor hm happ hwu
            have heq : (co.wildcards ctor).length + (v.length - 1) -
                (co.wildcards ctor).length + 1 = v.length := by omega
            rw [heq] at this
            exact this
        cases hext : ret.extend u2 with
        | none => rw [hext] at h; simp at h
        | some ret2 =>
          rw [hext] at h
          simp only [] at h
          have hret2 : witnessLens v.length ret2 := extendWL hext hret hwu2
          match ret2, h, hret2 with
          | .NoWitnesses s, h, hret2 =>
            simp only [] at h
            by_cases hf : s.isFullB = true
            · rw [if_pos hf] at h
              cases h
              trivial
            · rw [if_neg hf] at h
              exact ih _ _ r a2 h hret2
          | .WithWitnesses ws, h, hret2 =>
            simp only [] at h
            exact ih _ _ r a2 h hret2

/-- The usefulness recursion preserves the witness-length invariant: all
witnesses of a result have as many pattern trees as the query row has
columns. -/
theorem isUsefulWL {co : Collab}
    (hrep : ∀ f p ar, (co.replaceArgs f p ar).1.length = f.length)
    (hmiss : (co.wildcards .Missing).length = 0) :
    ∀ (fuel : Nat) (m : Matrix) (v : PatStack) (pref : WitnessPreference)
      (g t : Bool) (a : PatternArena) (u : Usefulness) (a2 : PatternArena),
      isUseful co fuel m v pref g t a = some (u, a2) →
      witnessLens v.length u := by
  intro fuel
  induction fuel with
  | zero =>
    intro m v pref g t a u a2 h
    rw [isUseful] at h
    simp at h
  | succ fuel ih =>
    intro m v pref g t a u a2 h
    rw [isUseful] at h
    by_cases hve : v.isEmpty = true
    · rw [if_pos hve] at h
      cases h
      have hv0 : v.length = 0 := by
        cases v with
        | nil => rfl
        | cons x xs => simp at hve
      rw [hv0]
      by_cases hme : m.isEmpty = true
      · rw [if_pos hme]
        cases pref with
        | ConstructWitness =>
          intro w hw
          simp [Usefulness.newUseful] at hw
          rw [hw]
          rfl
        | LeaveOutWitness => trivial
      · rw [if_neg hme]
        cases pref with
        | ConstructWitness =>
          intro w hw
          simp [Usefulness.newNotUseful] at hw
        | LeaveOutWitness => trivial
    · rw [if_neg hve] at h
      by_cases hassert : (m.all (fun r => r.length == v.length)) = true
      · rw [if_neg (by rw [hassert]; simp)] at h
        by_cases hor : isOrPat a (PatStack.head v) = true
        · rw [if_pos hor] at h
          refine orLoopWL _ 0 _ _ _ u a2 h ?_
          cases pref with
          | ConstructWitness =>
            intro w hw
            simp [Usefulness.newNotUseful] at hw
          | LeaveOutWitness => trivial
        · rw [if_neg hor] at h
          have hv1 : 1 ≤ v.length := by
            cases v with
            | nil => simp at hve
            | cons x xs => simp
          refine ctorLoopWL hv1 hrep hmiss
            (fun m2 v2 aa u2 aa2 hr => ih m2 v2 pref g false aa u2 aa2 hr)
            _ _ _ u a2 h ?_
          cases pref with
          | ConstructWitness =>
            intro w hw
            simp [Usefulness.newNotUseful] at hw
          | LeaveOutWitness => trivial
      · rw [if_pos (by rw [bNotTrue hassert]; simp)] at h
        simp at h

theorem mapM_singlePattern_some :
    ∀ (ws : List Witness), (∀ w ∈ ws, w.pats.length = 1) →
    ∃ pats, ws.mapM Witness.singlePattern = some pats := by
  intro ws
  induction ws with
  | nil => exact fun _ => ⟨[], rfl⟩
  | cons w rest ih =>
    intro hall
    obtain ⟨ps, hps⟩ := ih (fun w2 h2 => hall w2 (List.mem_cons_of_mem _ h2))
    have h1 := hall w (List.mem_cons_self _ _)
    cases hp : w.pats with
    | nil => rw [hp] at h1; simp at h1
    | cons x t =>
      cases t with
      | nil =>
        refine ⟨x :: ps, ?_⟩
        rw [List.mapM_cons, hps]
        rw [show Witness.singlePattern w = some x from by
          rw [Witness.singlePattern, hp]]
        rfl
      | cons y t2 => rw [hp] at h1; simp at h1

/-- C7: every witness produced by a top-level witness-mode probe on a
single-pattern row (the probe `compute_match_usefulness` runs after the
arms) contains exactly one reconstructed pattern tree, so the length-1
assertion in `Witness::single_pattern` never fails on that probe's
result.  The two hypotheses are the collaborator contracts the source
relies on: decomposing a pattern against a `Fields` value yields exactly
`arity` patterns, and the `Missing` pseudo-constructor has no fields. -/
theorem top_level_probe_single_witness (co : Collab)
    (hrep : ∀ f p ar, (co.replaceArgs f p ar).1.length = f.length)
    (hmiss : (co.wildcards .Missing).length = 0)
    (fuel : Nat) (m : Matrix) (p : PatId) (a a2 : PatternArena)
    (ws : List Witness)
    (h : isUseful co fuel m [p] .ConstructWitness false true a =
      some (.WithWitnesses ws, a2)) :
    (∀ w ∈ ws, w.pats.length = 1) ∧
    ∃ pats, ws.mapM Witness.singlePattern = some pats := by
  have hwl := isUsefulWL hrep hmiss fuel m [p] .ConstructWitness false true a
    (.WithWitnesses ws) a2 h
  have hall : ∀ w ∈ ws, w.pats.length = 1 := fun w hw => hwl w hw
  exact ⟨hall, mapM_singlePattern_some ws hall⟩

/-- Closed instantiation of the C7 theorem at concrete inputs. -/
theorem top_level_probe_single_witness_witness :
    (∀ w ∈ [Witness.mk [Pat.wild 0]], w.pats.length = 1) ∧
    ∃ pats, [Witness.mk [Pat.wild 0]].mapM Witness.singlePattern = some pats :=
  top_level_probe_single_witness testCollab (fun f p ar => rfl) rfl 2 [] 0
    [Pat.wild 0] [Pat.wild 0] [⟨[Pat.wild 0]⟩] rfl

/-! ### The or-branch accumulator invariant (C2) -/

theorem lookup_filter_ne_zero (l : List (Nat × SubPatSet)) :
    (l.filter (fun kv => !(kv.1 == 0))).lookup 0 = none := by
  induction l with
  | nil => rfl
  | cons kv r ih =>
    obtain ⟨k, v⟩ := kv
    rw [List.filter_cons]
    by_cases hk : k = 0
    · subst hk
      rw [if_neg (by simp)]
      exact ih
    · rw [if_pos (by simpa using hk)]
      rw [List.lookup_cons]
      rw [show ((0 : Nat) == k) = false from by simpa using fun h => hk h.symm]
      exact ih

theorem lookupGeNone {am : List (Nat × SubPatSet)} {i : Nat}
    (h : ∀ kv ∈ am, kv.1 < i) : am.lookup i = none := by
  induction am with
  | nil => rfl
  | cons kv r ih =>
    obtain ⟨k, v⟩ := kv
    rw [List.lookup_cons]
    have hk : k < i := h (k, v) (List.mem_cons_self _ _)
    rw [show (i == k) = false from by simp; omega]
    exact ih (fun kv hm => h kv (List.mem_cons_of_mem _ hm))

/-- Against a map that misses all its keys, the `Alt` worker just filters
out the empty children. -/
theorem altGoEmptyRight {ms mo : List (Nat × SubPatSet)}
    (h : ∀ kv ∈ ms, mo.lookup kv.1 = none) :
    unionAltGo ms mo = some (ms.filter (fun kv => !kv.2.isEmptyB)) := by
  induction ms with
  | nil => rfl
  | cons kv r ih =>
    obtain ⟨k, v⟩ := kv
    rw [unionAltGo]
    rw [h (k, v) (List.mem_cons_self _ _)]
    simp only [Option.getD_none]
    rw [union_empty_right isEmptyB_Empty]
    rw [ih (fun kv hm => h kv (List.mem_cons_of_mem _ hm))]
    simp only []
    rw [List.filter_cons]
    by_cases he : v.isEmptyB = true
    · rw [if_pos he, if_neg (by rw [he]; simp)]
    · rw [if_neg he, if_pos (by rw [bNotTrue he]; simp)]

/-- First-occurrence lookup through the `Seq` worker (no distinct-key
assumption). -/
theorem seqGoLookupFirst {ms mo m' : List (Nat × SubPatSet)} {k : Nat}
    {x y : SubPatSet}
    (hg : unionSeqGo ms mo = some m') (hx : ms.lookup k = some x)
    (hy : x.union ((mo.lookup k).getD .Full) = some y)
    (hyf : y.isFullB = false) : m'.lookup k = some y := by
  induction ms generalizing m' with
  | nil => simp [List.lookup] at hx
  | cons kv r ih =>
    obtain ⟨k0, v0⟩ := kv
    rw [unionSeqGo] at hg
    cases hu : v0.union ((mo.lookup k0).getD .Full) with
    | none => rw [hu] at hg; simp at hg
    | some child =>
      cases ht : unionSeqGo r mo with
      | none => rw [hu, ht] at hg; simp at hg
      | some tail =>
        rw [hu, ht] at hg
        simp at hg
        rw [List.lookup_cons] at hx
        cases hk : (k == k0) with
        | true =>
          rw [hk] at hx
          simp at hx
          subst hx
          have hkeq : k = k0 := by simpa using hk
          subst hkeq
          rw [hu] at hy
          cases hy
          rw [if_neg (by rw [hyf]; simp)] at hg
          subst hg
          rw [List.lookup_cons]
          simp
        | false =>
          rw [hk] at hx
          simp at hx
          by_cases hcf : child.isFullB = true
          · rw [if_pos hcf] at hg
            subst hg
            exact ih ht hx
          · rw [if_neg hcf] at hg
            subst hg
            rw [List.lookup_cons, hk]
            exact ih ht hx

/-- An `Alt` node whose map is shorter than the alternative count is not
full. -/
theorem altNotFull {am : List (Nat × SubPatSet)} {n : Nat} {p : PatId}
    (h : am.length ≠ n) : (SubPatSet.Alt am n p).isFullB = false := by
  rw [isFullB_Alt]
  simp [h]

/-- A `Seq` node with a not-full child is not full. -/
theorem seqNotFull {m : List (Nat × SubPatSet)} {k : Nat} {x : SubPatSet}
    (hm : (k, x) ∈ m) (hx : x.isFullB = false) :
    (SubPatSet.Seq m).isFullB = false := by
  rw [isFullB_Seq, allFullGo_eq]
  cases hall : m.all (fun kv => kv.2.isFullB) with
  | false => rfl
  | true =>
    have := List.all_eq_true.mp hall (k, x) hm
    rw [hx] at this
    simp at this

/-- The accumulator invariant of the or-branch loop: after folding in the
alternatives `0 .. i-1`, the reachability accumulator is either empty or a
pattern-stack set whose first column holds an `Alt` node over the original
or-pattern with at most `i` distinct alternative entries, all below `i`. -/
def accB (i n : Nat) (vh : PatId) : SubPatSet → Prop
  | .Empty => True
  | .Seq m0 => ∃ am, m0.lookup 0 = some (.Alt am n vh) ∧ nodupKeysB am = true ∧
      (∀ kv ∈ am, kv.1 < i) ∧ am.length ≤ i
  | .Full => False
  | .Alt _ _ _ => False

/-- Shape of an `unsplit_or_pat` result. -/
theorem unsplitShape {s : SubPatSet} {i n : Nat} {p : PatId} {z : SubPatSet}
    (h : s.unsplitOrPat i n p = some z) :
    z = .Empty ∨ ∃ q x, z = .Seq (q ++ [(0, .Alt [(i, x)] n p)]) ∧
      q.lookup 0 = none := by
  rw [SubPatSet.unsplitOrPat.eq_def] at h
  by_cases he : s.isEmptyB = true
  · rw [if_pos he] at h
    cases h
    exact Or.inl rfl
  · rw [if_neg he] at h
    match s, h with
    | .Full, h =>
      cases h
      exact Or.inr ⟨[], .Full, rfl, rfl⟩
    | .Seq subpats, h =>
      cases h
      exact Or.inr ⟨subpats.filter (fun kv => !(kv.1 == 0)),
        (subpats.lookup 0).getD .Full, rfl, lookup_filter_ne_zero subpats⟩

/-- One `Alt`-level step of the accumulator: merging in alternative `i`
keeps the map bounded by `i + 1` entries below `i + 1`. -/
theorem accAltStep {am : List (Nat × SubPatSet)} {n i : Nat} {vh : PatId}
    {x z : SubPatSet}
    (hnd : nodupKeysB am = true) (hks : ∀ kv ∈ am, kv.1 < i)
    (hlen : am.length ≤ i) (hin : i + 2 ≤ n)
    (hu : (SubPatSet.Alt am n vh).union (.Alt [(i, x)] n vh) = some z) :
    ∃ am2, z = .Alt am2 n vh ∧ nodupKeysB am2 = true ∧
      (∀ kv ∈ am2, kv.1 < i + 1) ∧ am2.length ≤ i + 1 := by
  rw [union_eq] at hu
  by_cases g1 : ((SubPatSet.Alt am n vh).isFullB ||
      (SubPatSet.Alt [(i, x)] n vh).isEmptyB) = true
  · rw [if_pos g1] at hu
    cases hu
    exact ⟨am, rfl, hnd, fun kv hm => Nat.lt_succ_of_lt (hks kv hm),
      Nat.le_succ_of_le hlen⟩
  · rw [if_neg g1] at hu
    by_cases g2 : (SubPatSet.Alt am n vh).isEmptyB = true
    · rw [if_pos g2] at hu
      cases hu
      refine ⟨[(i, x)], rfl, by rw [nodupKeysB]; rfl, ?_, by simp⟩
      intro kv hm
      have : kv = (i, x) := by simpa using hm
      rw [this]
      omega
    · rw [if_neg g2] at hu
      by_cases g3 : (SubPatSet.Alt [(i, x)] n vh).isFullB = true
      · rw [altNotFull (by simp; omega)] at g3
        simp at g3
      · rw [if_neg g3] at hu
        have hgo : unionAltGo am [(i, x)] =
            some (am.filter (fun kv => !kv.2.isEmptyB)) := by
          refine altGoEmptyRight ?_
          intro kv hm
          rw [List.lookup_cons]
          rw [show (kv.1 == i) = false from by simp; have := hks kv hm; omega]
          rfl
        have hu : (unionAltGo am [(i, x)]).map (fun m =>
            (SubPatSet.Alt (m ++ ([(i, x)].filter
              (fun kv => (am.lookup kv.1).isNone))) n vh).normFull) = some z := hu
        rw [hgo] at hu
        simp at hu
        have hlo : [(i, x)].filter (fun kv => (am.lookup kv.1).isNone) = [(i, x)] := by
          rw [List.filter_cons]
          rw [if_pos (by rw [lookupGeNone hks]; rfl)]
          rfl
        rw [hlo] at hu
        have hlen2 : (am.filter (fun kv => !kv.2.isEmptyB) ++ [(i, x)]).length ≤
            i + 1 := by
          rw [List.length_append]
          have := List.length_filter_le (fun kv => !kv.2.isEmptyB) am
          simp
          omega
        rw [SubPatSet.normFull, if_neg (by
          rw [altNotFull (by omega)]
          simp)] at hu
        refine ⟨am.filter (fun kv => !kv.2.isEmptyB) ++ [(i, x)], hu.symm, ?_, ?_, hlen2⟩
        · refine nodupKeysB_append (nodupKeysB_filter _ hnd)
            (by rw [nodupKeysB]; rfl) ?_
          intro kv hm
          have hm2 := (List.mem_filter.mp hm).1
          rw [List.lookup_cons]
          rw [show (kv.1 == i) = false from by simp; have := hks kv hm2; omega]
          rfl
        · intro kv hm
          rcases List.mem_append.mp hm with h1 | h1
          · exact Nat.lt_succ_of_lt (hks kv (List.mem_filter.mp h1).1)
          · have : kv = (i, x) := by simpa using h1
            rw [this]
            omega

/-- The accumulator invariant is monotone in the bound. -/
theorem accBMono {i n : Nat} {vh : PatId} {s : SubPatSet}
    (h : accB i n vh s) : accB (i + 1) n vh s := by
  match s, h with
  | .Empty, h => trivial
  | .Full, h => exact h.elim
  | .Alt _ _ _, h => exact h.elim
  | .Seq m0, h =>
    obtain ⟨am, h0, hnd, hks, hlen⟩ := h
    exact ⟨am, h0, hnd, fun kv hm => Nat.lt_succ_of_lt (hks kv hm),
      Nat.le_succ_of_le hlen⟩

/-- Below the alternative count, the accumulator is never full: its first
column holds an `Alt` whose map is too short. -/
theorem accBNotFull {i n : Nat} {vh : PatId} {s : SubPatSet}
    (h : accB i n vh s) (hlt : i < n) : s.isFullB = false := by
  match s, h with
  | .Empty, h => rfl
  | .Full, h => exact h.elim
  | .Alt _ _ _, h => exact h.elim
  | .Seq m0, h =>
    obtain ⟨am, h0, hnd, hks, hlen⟩ := h
    exact seqNotFull (mem_of_lookup h0) (altNotFull (by omega))

/-- An `unsplit_or_pat` result for alternative `i` of at least `i + 2`
satisfies the next accumulator invariant and is not full. -/
theorem unsplitAccB {q : List (Nat × SubPatSet)} {x : SubPatSet} {i n : Nat}
    {vh : PatId} (hq : q.lookup 0 = none) (hin : i + 2 ≤ n) :
    accB (i + 1) n vh (.Seq (q ++ [(0, .Alt [(i, x)] n vh)])) ∧
    (SubPatSet.Seq (q ++ [(0, .Alt [(i, x)] n vh)])).isFullB = false := by
  have hq0 : (q ++ [(0, SubPatSet.Alt [(i, x)] n vh)]).lookup 0 =
      some (.Alt [(i, x)] n vh) := by
    rw [lookup_append, hq]
    rfl
  constructor
  · refine ⟨[(i, x)], hq0, by rw [nodupKeysB]; rfl, ?_, by simp⟩
    intro kv hm
    have : kv = (i, x) := by simpa using hm
    rw [this]
    omega
  · exact seqNotFull (mem_of_lookup hq0) (altNotFull (by simp; omega))

/-- One `Seq`-level step of the or-loop accumulator: merging the wrapped
result of alternative `i` into an accumulator satisfying the invariant at
`i` yields the invariant at `i + 1`, and the merged set is not full, so
the full-accumulator short-circuit of the merge loop cannot fire before
the last alternative. -/
theorem accStep {s s2 s3 : SubPatSet} {i n : Nat} {vh : PatId}
    (hacc : accB i n vh s)
    (hshape : s2 = .Empty ∨ ∃ q x, s2 = .Seq (q ++ [(0, .Alt [(i, x)] n vh)]) ∧
      q.lookup 0 = none)
    (hu : s.union s2 = some s3) (hin : i + 2 ≤ n) :
    accB (i + 1) n vh s3 ∧ s3.isFullB = false := by
  rcases hshape with h2e | ⟨q, x, h2s, hq⟩
  · subst h2e
    rw [union_empty_right isEmptyB_Empty] at hu
    cases hu
    exact ⟨accBMono hacc, accBNotFull hacc (by omega)⟩
  · subst h2s
    have hq0 : (q ++ [(0, SubPatSet.Alt [(i, x)] n vh)]).lookup 0 =
        some (.Alt [(i, x)] n vh) := by
      rw [lookup_append, hq]
      rfl
    have h2acc := @unsplitAccB q x i n vh hq hin
    have hsf : s.isFullB = false := accBNotFull hacc (by omega)
    rw [union_eq] at hu
    by_cases gE2 :
        (SubPatSet.Seq (q ++ [(0, SubPatSet.Alt [(i, x)] n vh)])).isEmptyB = true
    · rw [if_pos (by rw [hsf, gE2]; rfl)] at hu
      cases hu
      exact ⟨accBMono hacc, hsf⟩
    · rw [if_neg (by rw [hsf, bNotTrue gE2]; simp)] at hu
      by_cases gEs : s.isEmptyB = true
      · rw [if_pos gEs] at hu
        cases hu
        exact h2acc
      · rw [if_neg gEs] at hu
        rw [if_neg (by rw [h2acc.2]; simp)] at hu
        match s, hacc, gEs, hu with
        | .Empty, hacc, gEs, hu => exact absurd isEmptyB_Empty gEs
        | .Full, hacc, gEs, hu => exact hacc.elim
        | .Alt _ _ _, hacc, gEs, hu => exact hacc.elim
        | .Seq m0, hacc, gEs, hu =>
          obtain ⟨am, h0, hnd, hks, hlen⟩ := hacc
          have hu : (unionSeqGo m0 (q ++ [(0, SubPatSet.Alt [(i, x)] n vh)])).map
              (fun mm => SubPatSet.normFull (.Seq mm)) = some s3 := hu
          cases hgo : unionSeqGo m0 (q ++ [(0, SubPatSet.Alt [(i, x)] n vh)]) with
          | none => rw [hgo] at hu; simp at hu
          | some m2 =>
            rw [hgo] at hu
            simp at hu
            obtain ⟨z, hz⟩ := seqGoDefined hgo (0, SubPatSet.Alt am n vh)
              (mem_of_lookup h0)
            have hz2 : (SubPatSet.Alt am n vh).union
                (((q ++ [(0, SubPatSet.Alt [(i, x)] n vh)]).lookup 0).getD .Full) =
                some z := hz
            rw [hq0] at hz2
            have hz3 : (SubPatSet.Alt am n vh).union (.Alt [(i, x)] n vh) =
                some z := hz2
            obtain ⟨am2, hzeq, hnd2, hks2, hlen2⟩ := accAltStep hnd hks hlen hin hz3
            subst hzeq
            have hznf : (SubPatSet.Alt am2 n vh).isFullB = false :=
              altNotFull (by omega)
            have hy : (SubPatSet.Alt am n vh).union
                (((q ++ [(0, SubPatSet.Alt [(i, x)] n vh)]).lookup 0).getD .Full) =
                some (.Alt am2 n vh) := by
              rw [hq0]
              exact hz2
            have hm2l : m2.lookup 0 = some (.Alt am2 n vh) :=
              seqGoLookupFirst hgo h0 hy hznf
            have hfm2 : (SubPatSet.Seq m2).isFullB = false :=
              seqNotFull (mem_of_lookup hm2l) hznf
            rw [SubPatSet.normFull, if_neg (by rw [hfm2]; simp)] at hu
            subst hu
            exact ⟨⟨am2, hm2l, hnd2, hks2, hlen2⟩, hfm2⟩

/-- Extending a witness-mode result by a reachability result panics. -/
theorem extendWN {ws : List Witness} {s : SubPatSet} :
    (Usefulness.WithWitnesses ws).extend (.NoWitnesses s) = none := by
  cases ws with
  | nil => rfl
  | cons w r => rfl

/-- The reachability-set equation behind a reachability-mode
`unsplit_or_pat` step. -/
theorem unsplitInner {u : Usefulness} {i n : Nat} {p : PatId} {s2 : SubPatSet}
    (h : u.unsplitOrPat i n p = some (.NoWitnesses s2)) :
    ∃ s1, u = .NoWitnesses s1 ∧ s1.unsplitOrPat i n p = some s2 := by
  match u, h with
  | .NoWitnesses s1, h =>
    have h : (s1.unsplitOrPat i n p).map Usefulness.NoWitnesses =
        some (.NoWitnesses s2) := h
    cases hz : s1.unsplitOrPat i n p with
    | none => rw [hz] at h; simp at h
    | some z =>
      rw [hz] at h
      simp at h
      exact ⟨s1, rfl, by rw [hz, h]⟩

/-- The C2 claim, as a definition following its words: test the
alternatives left to right; after each tested alternative, insert it into
the local copy of the matrix before testing the next one (unless the row
is under a guard), wrap its result as alternative `i` of `n` via
`unsplit_or_pat`, and collect the wrapped results of all the alternatives
into a list, to be merged afterwards in one go. -/
def orResultsClaim
    (recur : Matrix → PatStack → PatternArena → Option (Usefulness × PatternArena))
    (underGuard : Bool) (vhead : PatId) (altCount : Nat) :
    Nat → List PatStack → Matrix → PatternArena →
    Option (List Usefulness × PatternArena)
  | _, [], _, a => some ([], a)
  | i, vi :: rest, mtx, a =>
    match recur mtx vi a with
    | none => none
    | some ua =>
      let pushres := if !underGuard then Matrix.push mtx vi ua.2 else (mtx, ua.2)
      match ua.1.unsplitOrPat i altCount vhead with
      | none => none
      | some u2 =>
        match orResultsClaim recur underGuard vhead altCount (i + 1) rest
            pushres.1 pushres.2 with
        | none => none
        | some r => some (u2 :: r.1, r.2)

/-- The lazy interleaved or-loop of the source equals the claim's eager
loop followed by one merge pass, for any accumulator that is a witness
list or a reachability set satisfying the accumulator invariant: the
merge short-circuit can only fire at the last alternative, where stopping
early and running on return the same value and the same arena. -/
theorem orLoopEqMerge
    (recur : Matrix → PatStack → PatternArena → Option (Usefulness × PatternArena))
    (g : Bool) (vh : PatId) (n : Nat) :
    ∀ (leaves : List PatStack) (i : Nat) (mtx : Matrix) (ret : Usefulness)
      (a : PatternArena),
      i + leaves.length = n →
      ((∃ ws, ret = .WithWitnesses ws) ∨
        (∃ s, ret = .NoWitnesses s ∧ accB i n vh s)) →
      orLoopF recur g vh n i leaves mtx ret a =
        (match orResultsClaim recur g vh n i leaves mtx a with
         | none => none
         | some res => (Usefulness.mergeGo res.1 ret).map (fun u => (u, res.2))) := by
  intro leaves
  induction leaves with
  | nil =>
    intro i mtx ret a hlen hinv
    rfl
  | cons vi rest ih =>
    intro i mtx ret a hlen hinv
    rw [orLoopF, orResultsClaim]
    cases hrec : recur mtx vi a with
    | none => rfl
    | some ua =>
      simp only []
      cases hun : ua.1.unsplitOrPat i n vh with
      | none => rfl
      | some u2 =>
        simp only []
        obtain ⟨s2, hs2⟩ := unsplitOrPatN hun
        subst hs2
        rcases hinv with ⟨ws, hw⟩ | ⟨s, hs, hacc⟩
        · subst hw
          rw [extendWN]
          cases hrest : orResultsClaim recur g vh n (i + 1) rest
              (if (!g) = true then Matrix.push mtx vi ua.2 else (mtx, ua.2)).1
              (if (!g) = true then Matrix.push mtx vi ua.2 else (mtx, ua.2)).2 with
          | none => rfl
          | some r =>
            simp only []
            rw [Usefulness.mergeGo, extendWN]
            rfl
        · subst hs
          cases hext : (Usefulness.NoWitnesses s).extend (.NoWitnesses s2) with
          | none =>
            simp only []
            cases hrest : orResultsClaim recur g vh n (i + 1) rest
                (if (!g) = true then Matrix.push mtx vi ua.2 else (mtx, ua.2)).1
                (if (!g) = true then Matrix.push mtx vi ua.2 else (mtx, ua.2)).2 with
            | none => rfl
            | some r =>
              simp only []
              rw [Usefulness.mergeGo, hext]
              rfl
          | some ret2 =>
            simp only []
            have hext2 : (s.union s2).map Usefulness.NoWitnesses = some ret2 := hext
            cases hus : s.union s2 with
            | none => rw [hus] at hext2; simp at hext2
            | some s3 =>
              rw [hus] at hext2
              simp at hext2
              subst hext2
              simp only []
              obtain ⟨s1, hua1, hsu⟩ := unsplitInner hun
              have hshape := unsplitShape hsu
              cases rest with
              | nil =>
                rw [orResultsClaim]
                simp only []
                rw [Usefulness.mergeGo, hext]
                simp only []
                by_cases hf : s3.isFullB = true
                · rw [if_pos hf, if_pos hf]
                  rfl
                · rw [if_neg hf, if_neg hf]
                  rw [orLoopF, Usefulness.mergeGo]
                  rfl
              | cons v2 rest2 =>
                have hin2 : i + 2 ≤ n := by
                  simp only [List.length_cons] at hlen
                  omega
                obtain ⟨hacc3, hf3⟩ := accStep hacc hshape hus hin2
                rw [if_neg (by rw [hf3]; simp)]
                have hlen2 : i + 1 + (v2 :: rest2).length = n := by
                  simp only [List.length_cons] at hlen ⊢
                  omega
                rw [ih (i + 1) _ (.NoWitnesses s3) _ hlen2
                  (Or.inr ⟨s3, rfl, hacc3⟩)]
                cases hrest : orResultsClaim recur g vh n (i + 1) (v2 :: rest2)
                    (if (!g) = true then Matrix.push mtx vi ua.2
                     else (mtx, ua.2)).1
                    (if (!g) = true then Matrix.push mtx vi ua.2
                     else (mtx, ua.2)).2 with
                | none => rfl
                | some r =>
                  simp only []
                  rw [Usefulness.mergeGo, hext]
                  simp only []
                  rw [if_neg (by rw [hf3]; simp)]

/-- C2: for a query row headed by an or-pattern, `is_useful` expands the
head into its leaves `v0 .. v(n-1)`, tests them left to right against the
local copy of the matrix, inserts each tested leaf into that copy before
testing the next one unless the row is under a guard (so later leaves see
earlier siblings as already matched), wraps the result of leaf `i` as
alternative `i` of `n` via `unsplit_or_pat`, and merges the `n` wrapped
results.  The source drives the loop lazily through `Usefulness::merge`
with a short-circuit on a full accumulator, but the accumulator invariant
shows the short-circuit can only fire at the last leaf, where it makes no
difference, so the run equals the claim's eager loop followed by one
merge. -/
theorem is_useful_or_branch (co : Collab) (fuel : Nat) (m : Matrix)
    (v : PatStack) (pref : WitnessPreference) (g t : Bool) (a : PatternArena)
    (hne : v.isEmpty = false)
    (hassert : m.all (fun r => r.length == v.length) = true)
    (hor : isOrPat a (PatStack.head v) = true) :
    isUseful co (fuel + 1) m v pref g t a =
      (match orResultsClaim
          (fun m2 v2 a2 => isUseful co fuel m2 v2 pref g false a2) g
          (PatStack.head v) (PatStack.expandOrPat v a).1.length 0
          (PatStack.expandOrPat v a).1 m (PatStack.expandOrPat v a).2 with
       | none => none
       | some res => (Usefulness.merge pref res.1).map (fun u => (u, res.2))) := by
  have hinv0 : (∃ ws, Usefulness.newNotUseful pref = .WithWitnesses ws) ∨
      (∃ s, Usefulness.newNotUseful pref = .NoWitnesses s ∧
        accB 0 (PatStack.expandOrPat v a).1.length (PatStack.head v) s) := by
    cases pref with
    | ConstructWitness => exact Or.inl ⟨[], rfl⟩
    | LeaveOutWitness => exact Or.inr ⟨.Empty, rfl, trivial⟩
  rw [isUseful]
  rw [if_neg (by rw [hne]; simp), if_neg (by rw [hassert]; simp), if_pos hor]
  simp only []
  rw [orLoopEqMerge (fun m2 v2 a2 => isUseful co fuel m2 v2 pref g false a2) g
    (PatStack.head v) (PatStack.expandOrPat v a).1.length
    (PatStack.expandOrPat v a).1 0 m (Usefulness.newNotUseful pref)
    (PatStack.expandOrPat v a).2 (by simp) hinv0]
  rfl

/-- Closed instantiation of the C2 theorem: a two-alternative or-pattern
probed against the empty matrix, with both sides evaluated. -/
theorem is_useful_or_branch_witness :
    isUseful testCollab 2 [] [0] .LeaveOutWitness false true
        [Pat.orP 0 [Pat.wild 0, Pat.wild 0]] =
      (match orResultsClaim
          (fun m2 v2 a2 => isUseful testCollab 1 m2 v2 .LeaveOutWitness false
            false a2) false
          (PatStack.head [0])
          (PatStack.expandOrPat [0] [Pat.orP 0 [Pat.wild 0, Pat.wild 0]]).1.length
          0 (PatStack.expandOrPat [0] [Pat.orP 0 [Pat.wild 0, Pat.wild 0]]).1 []
          (PatStack.expandOrPat [0] [Pat.orP 0 [Pat.wild 0, Pat.wild 0]]).2 with
       | none => none
       | some res =>
         (Usefulness.merge .LeaveOutWitness res.1).map (fun u => (u, res.2))) :=
  is_useful_or_branch testCollab 1 [] [0] .LeaveOutWitness false true
    [Pat.orP 0 [Pat.wild 0, Pat.wild 0]] rfl rfl rfl

/-- The C1 claim, as a definition following its words: process the arms
in source order; query each arm against the matrix in reachability mode;
never insert an arm that has a guard, and insert an unguarded arm after
its query; classify an arm `Unreachable` exactly when its query returns
the empty reachability set, and `Reachable` with the list of its
unreachable or-pattern leaves otherwise. -/
def computeArmsSpec (co : Collab) (fuel : Nat) :
    List MatchArm → Matrix → PatternArena →
    Option (List (MatchArm × Reachability) × Matrix × PatternArena)
  | [], m, a => some ([], m, a)
  | arm :: rest, m, a =>
    match isUseful co fuel m [arm.pat] .LeaveOutWitness arm.hasGuard true a with
    | none => none
    | some ua =>
      let pm := if arm.hasGuard then (m, ua.2)
                else Matrix.push m [arm.pat] ua.2
      match ua.1 with
      | .NoWitnesses s =>
        if s.isEmptyB then
          match computeArmsSpec co fuel rest pm.1 pm.2 with
          | none => none
          | some r => some ((arm, .Unreachable) :: r.1, r.2)
        else
          match s.listUnreachableSubpatterns pm.2 with
          | none => none
          | some lu =>
            match lu.1 with
            | none => none
            | some pats =>
              match computeArmsSpec co fuel rest pm.1 lu.2 with
              | none => none
              | some r => some ((arm, .Reachable pats) :: r.1, r.2)
      | .WithWitnesses _ => none

/-- The C1 claim's driver: run the arm loop from the empty matrix, then
probe the final matrix with one fresh all-wildcard row of the scrutinee
type in witness mode and return the probe's witnesses as the
non-exhaustiveness witnesses. -/
def computeMatchUsefulnessSpec (co : Collab) (fuel : Nat)
    (arms : List MatchArm) (scrutTy : Ty) (a : PatternArena) :
    Option (UsefulnessReport × PatternArena) :=
  match computeArmsSpec co fuel arms [] a with
  | none => none
  | some r =>
    let al := r.2.2.alloc (Pat.wild scrutTy)
    match isUseful co fuel r.2.1 [al.1] .ConstructWitness false true al.2 with
    | none => none
    | some ua =>
      match ua.1 with
      | .WithWitnesses ws =>
        match ws.mapM Witness.singlePattern with
        | none => none
        | some pats => some (⟨r.1, pats⟩, ua.2)
      | .NoWitnesses _ => none

/-- The arm loop of the source agrees with the claim's wording of it
everywhere. -/
theorem computeArmsEq (co : Collab) (fuel : Nat) :
    ∀ (arms : List MatchArm) (m : Matrix) (a : PatternArena),
      computeArms co fuel arms m a = computeArmsSpec co fuel arms m a := by
  intro arms
  induction arms with
  | nil =>
    intro m a
    rfl
  | cons arm rest ih =>
    intro m a
    rw [computeArms, computeArmsSpec]
    cases hq : isUseful co fuel m [arm.pat] .LeaveOutWitness arm.hasGuard true a with
    | none => rfl
    | some ua =>
      simp only []
      have hpm : (if (!arm.hasGuard) = true then Matrix.push m [arm.pat] ua.2
          else (m, ua.2)) =
          (if arm.hasGuard = true then (m, ua.2)
           else Matrix.push m [arm.pat] ua.2) := by
        cases arm.hasGuard <;> rfl
      rw [hpm]
      cases hu1 : ua.1 with
      | WithWitnesses ws => rfl
      | NoWitnesses s =>
        simp only []
        by_cases he : s.isEmptyB = true
        · rw [if_pos he, if_pos he]
          rw [ih]
        · rw [if_neg he, if_neg he]
          simp only [ih]

/-- C1: `compute_match_usefulness` processes the arms in source order
against a matrix that starts empty, querying each arm in reachability
mode, never inserting a guarded arm and inserting an unguarded arm after
its query, classifying an arm `Unreachable` exactly when its query
returns the empty reachability set and `Reachable` with its unreachable
or-pattern leaves otherwise; after all arms it queries one fresh
all-wildcard row of the scrutinee's type in witness mode and returns the
resulting witnesses as the non-exhaustiveness witnesses: the source
driver coincides with this claim-worded driver on every input. -/
theorem compute_match_usefulness_follows_spec (co : Collab) (fuel : Nat)
    (arms : List MatchArm) (scrutTy : Ty) (a : PatternArena) :
    computeMatchUsefulness co fuel arms scrutTy a =
      computeMatchUsefulnessSpec co fuel arms scrutTy a := by
  rw [computeMatchUsefulness, computeMatchUsefulnessSpec, computeArmsEq]

end RaUsefulness
